import Mathlib

/-!
Verification of the skyline guest virtual-memory subsystem against its
natural-language specification.

The C++ sources embedded here:
  - `FlatAddressSpaceMap::MapLocked` / `UnmapLocked` (address_space implementation),
  - `FlatMemoryManager::Read` / `Write` / `Copy`,
  - `FlatAllocator::Allocate` / `AllocateFixed` / `Free`,
  - `MemoryManager::InitializeRegions`, `InsertChunk`, `Get` (kernel/memory.cpp).

Modeling conventions:
  - virtual addresses (`VaType`) and backing values (`PaType`) are `Nat`;
    the unmapped sentinel backing (`UnmappedPa` / `nullptr`) is encoded as `0`;
  - machine-word wraparound is irrelevant on the in-limit ranges the claims
    quantify over, except where explicitly modelled with `% 2^64`;
  - C++ exceptions become `Except ASError`; places where the C++ has undefined
    behaviour (`std::vector::erase` with a reversed iterator range) are mapped
    to a dedicated error value;
  - host byte memory is a total function `Nat → Nat`.
-/

set_option maxHeartbeats 1000000

/-- Extra per-block data stored in the map (FlatMemoryManager uses a single
`sparseMapped` flag). -/
structure ExtraBlockInfo where
  sparseMapped : Bool
deriving DecidableEq, Repr

instance : Inhabited ExtraBlockInfo := ⟨⟨false⟩⟩

/-- One contiguous run of uniformly backed address space
(`struct Block { VaType virt; PaType phys; ExtraBlockInfo extraInfo; }`).
`phys = 0` encodes the unmapped sentinel backing (`UnmappedPa` / `nullptr`). -/
structure Block where
  virt : Nat
  phys : Nat
  extraInfo : ExtraBlockInfo
deriving DecidableEq, Repr

instance : Inhabited Block := ⟨⟨0, 0, ⟨false⟩⟩⟩

/-- Block::Mapped(): the backing differs from the unmapped sentinel value. -/
def Block.Mapped (b : Block) : Bool := b.phys ≠ 0

/-- Block::Unmapped(). -/
def Block.Unmapped (b : Block) : Bool := b.phys = 0

/-- Indexing into the block vector; out-of-range reads give the default block.
All theorems confine themselves to in-range indices. -/
def blk (bs : List Block) (i : Nat) : Block := bs.getD i ⟨0, 0, ⟨false⟩⟩

/-- std::vector::insert of a batch of elements before position `i`. -/
def insertAt {α : Type} (bs : List α) (i : Nat) (xs : List α) : List α :=
  bs.take i ++ xs ++ bs.drop i

/-- std::vector::erase of the index range `[i, j)`. -/
def eraseRange {α : Type} (bs : List α) (i j : Nat) : List α :=
  bs.take i ++ bs.drop j

/-- std::lower_bound over the block vector with `Block::operator<(VaType)`:
index of the first block whose `virt` is `≥ v` (the vector length if none). -/
def lowerBoundIdx (bs : List Block) (v : Nat) : Nat :=
  bs.findIdx (fun b => decide (v ≤ b.virt))

/-- std::upper_bound with the comparator `virt < block.virt`: index of the
first block whose `virt` is `> v`. -/
def upperBoundIdx (bs : List Block) (v : Nat) : Nat :=
  bs.findIdx (fun b => decide (v < b.virt))

/-- The backward walk used by MapLocked/UnmapLocked: starting from position
`j`, step back while the previous block has `virt ≥ virt`, returning the first
position whose predecessor has `virt < virt`.  (The C++ iterator walk has
undefined behaviour if it would step before `begin()`; that can only happen
for `virt = 0`, outside the scope of every theorem below, and the model then
stops at position 0.) -/
def walkBack (bs : List Block) (virt : Nat) : Nat → Nat
  | 0 => 0
  | j + 1 => if virt ≤ (blk bs j).virt then walkBack bs virt j else j + 1

/-- Errors thrown by the address-space containers.  `reversedErase` stands for
the C++ undefined behaviour of `vector::erase(first, last)` with
`first` past `last`. -/
inductive ASError where
  | vaLimitExceeded
  | beforeVaStart
  | unsorted
  | unexpectedState
  | multipleUnmapped
  | unexpectedAllocatorState
  | firstBlockInvalid
  | reversedErase
deriving DecidableEq, Repr

/-- Shared tail of MapLocked (lines 81-105 of the source): walk back to the
start successor, then insert or reuse the head block, erasing fully
overwritten blocks. `es` is the index of the end-boundary block, whose
`virt` equals `virtEnd` on every path that reaches this code. -/
def mapPhase2 (bs : List Block) (virt virtEnd phys : Nat) (extra : ExtraBlockInfo) :
    (es : Nat) → Except ASError (List Block) := fun es =>
  let ss := walkBack bs virt es
  if virtEnd < (blk bs ss).virt then
    .error .unsorted
  else if (blk bs ss).virt = virtEnd then
    .ok (insertAt bs ss [⟨virt, phys, extra⟩])
  else
    .ok ((eraseRange bs (ss + 1) es).set ss ⟨virt, phys, extra⟩)

/-- FlatAddressSpaceMap::MapLocked.  `pc` is the `PaContigSplit` template
parameter; `vaLimit` the configured limit.  Mirrors the source structure:
locate the block after the end point, split or reuse the end boundary, then
run the shared phase-2 on the start boundary. -/
def mapLocked (vaLimit : Nat) (pc : Bool) (bs : List Block)
    (virt phys size : Nat) (extra : ExtraBlockInfo) : Except ASError (List Block) :=
  let virtEnd := virt + size
  if vaLimit < virtEnd then .error .vaLimitExceeded
  else
    let i := lowerBoundIdx bs virtEnd
    if i = 0 then .error .beforeVaStart
    else
      let pred := i - 1
      if i ≠ bs.length then
        if (blk bs i).virt ≠ virtEnd then
          let tailPhys :=
            if !pc || (blk bs pred).Unmapped then (blk bs pred).phys
            else (blk bs pred).phys + virtEnd - (blk bs pred).virt
          if virt ≤ (blk bs pred).virt then
            mapPhase2 (bs.set pred ⟨virtEnd, tailPhys, (blk bs pred).extraInfo⟩)
              virt virtEnd phys extra pred
          else
            .ok (insertAt bs i [⟨virt, phys, extra⟩, ⟨virtEnd, tailPhys, (blk bs pred).extraInfo⟩])
        else
          mapPhase2 bs virt virtEnd phys extra i
      else
        if pred ≠ 0 ∧ virt ≤ (blk bs pred).virt then
          mapPhase2 (bs.set pred ⟨virtEnd, (blk bs pred).phys, (blk bs pred).extraInfo⟩)
            virt virtEnd phys extra pred
        else
          .ok (insertAt bs i [⟨virt, phys, extra⟩, ⟨virtEnd, 0, ⟨false⟩⟩])

/-- The `eraseBlocksWithEndUnmapped` lambda of UnmapLocked.  `ue` is the index
of the unmapped end block.  Walks back to the start predecessor, either erases
the whole region (start predecessor unmapped) or turns the end block into the
unmapped head, guarding against adjacent unmapped regions. -/
def eraseWithEndUnmapped (bs : List Block) (virt : Nat) (ue : Nat) :
    Except ASError (List Block) :=
  let ss := walkBack bs virt (ue + 1)
  let sp := ss - 1
  let spU := (blk bs sp).Unmapped
  let bs2 := if spU then bs else bs.set ue ⟨virt, (blk bs ue).phys, (blk bs ue).extraInfo⟩
  let ee := if spU then ue + 1 else ue
  if ee ≠ bs2.length ∧ (ee = ss ∨ (spU ∧ (blk bs2 ee).Unmapped)) then
    .error .multipleUnmapped
  else if ee < ss then .error .reversedErase
  else .ok (eraseRange bs2 ss ee)

/-- Shared tail of UnmapLocked (lines 197-223 of the source). `es` is the
index of the end-boundary block (whose `virt` is `virtEnd`). -/
def unmapPhase2 (bs : List Block) (virt virtEnd : Nat) :
    (es : Nat) → Except ASError (List Block) := fun es =>
  let ss := walkBack bs virt es
  let sp := ss - 1
  if virtEnd < (blk bs ss).virt then
    .error .unsorted
  else if (blk bs ss).virt = virtEnd then
    if (blk bs sp).Mapped then .ok (insertAt bs ss [⟨virt, 0, ⟨false⟩⟩]) else .ok bs
  else if (blk bs sp).Unmapped then
    if es - 1 < ss then .error .reversedErase
    else .ok (eraseRange bs ss (es - 1))
  else
    .ok ((eraseRange bs (ss + 1) es).set ss ⟨virt, 0, ⟨false⟩⟩)

/-- FlatAddressSpaceMap::UnmapLocked. -/
def unmapLocked (vaLimit : Nat) (pc : Bool) (bs : List Block)
    (virt size : Nat) : Except ASError (List Block) :=
  let virtEnd := virt + size
  if vaLimit < virtEnd then .error .vaLimitExceeded
  else
    let i := lowerBoundIdx bs virtEnd
    if i = 0 then .error .beforeVaStart
    else
      let pred := i - 1
      if (blk bs pred).Unmapped then
        if virt < (blk bs pred).virt then eraseWithEndUnmapped bs virt pred
        else .ok bs
      else if (blk bs i).virt = virtEnd ∧ (blk bs i).Unmapped then
        eraseWithEndUnmapped bs virt i
      else if i = bs.length then .error .unexpectedState
      else if (blk bs i).virt ≠ virtEnd then
        let tailPhys :=
          if pc then (blk bs pred).phys + virtEnd - (blk bs pred).virt
          else (blk bs pred).phys
        if virt ≤ (blk bs pred).virt then
          unmapPhase2 (bs.set pred ⟨virtEnd, tailPhys, (blk bs pred).extraInfo⟩)
            virt virtEnd pred
        else
          .ok (insertAt bs i [⟨virt, 0, ⟨false⟩⟩, ⟨virtEnd, tailPhys, (blk bs pred).extraInfo⟩])
      else
        unmapPhase2 bs virt virtEnd i

/-- The initial block vector.  Modelled from the spec: the class declaration
(header not present under src/) starts the sequence with a single sentinel
Block whose backing is the designated unmapped value, representing the whole
space; the `virt`/`phys` defaults are the `UnmappedVa`/`UnmappedPa` template
arguments, which every instantiation in this repository sets to zero. -/
def initBlocks : List Block := [⟨0, 0, ⟨false⟩⟩]

/-- One Map or Unmap call on the address-space map. -/
inductive ASOp where
  | map (virt phys size : Nat) (extra : ExtraBlockInfo)
  | unmap (virt size : Nat)
deriving DecidableEq, Repr

/-- Execute one operation. -/
def ASOp.run (vaLimit : Nat) (pc : Bool) (bs : List Block) : ASOp → Except ASError (List Block)
  | .map virt phys size extra => mapLocked vaLimit pc bs virt phys size extra
  | .unmap virt size => unmapLocked vaLimit pc bs virt size

/-- Execute a sequence of Map/Unmap calls, stopping at the first exception. -/
def runOps (vaLimit : Nat) (pc : Bool) (bs : List Block) : List ASOp → Except ASError (List Block)
  | [] => .ok bs
  | op :: ops => do runOps vaLimit pc (← op.run vaLimit pc bs) ops

/-- The range of an operation, used to state the side conditions of the
claims (`[virt, virt+size)` inside the configured VA limit). -/
def ASOp.virtStart : ASOp → Nat
  | .map v _ _ _ => v
  | .unmap v _ => v

/-- Size of an operation's range. -/
def ASOp.sizeOf : ASOp → Nat
  | .map _ _ s _ => s
  | .unmap _ s => s

/-- Query: the block covering a virtual address (predecessor of the
std::upper_bound used by TranslateRange / Read / Write). -/
def queryBlock (bs : List Block) (va : Nat) : Block :=
  blk bs (upperBoundIdx bs va - 1)

/-- The block vector is strictly sorted ascending by virtual address. -/
def BlocksSorted (bs : List Block) : Prop :=
  List.Chain' (fun a b => a.virt < b.virt) bs

/-- Executable check for `BlocksSorted`. -/
def sortedB : List Block → Bool
  | [] => true
  | [_] => true
  | a :: b :: t => decide (a.virt < b.virt) && sortedB (b :: t)

theorem sortedB_iff : ∀ bs, sortedB bs = true ↔ BlocksSorted bs
  | [] => by simp [sortedB, BlocksSorted]
  | [a] => by simp [sortedB, BlocksSorted]
  | a :: b :: t => by
    rw [BlocksSorted, List.chain'_cons, show List.Chain' (fun a b => a.virt < b.virt) (b :: t)
      = BlocksSorted (b :: t) from rfl, ← sortedB_iff (b :: t)]
    simp [sortedB]

instance : DecidablePred BlocksSorted := fun bs =>
  decidable_of_iff (sortedB bs = true) (sortedB_iff bs)

/-- The final block is the unmapped sentinel covering the rest of the space. -/
def TerminalUnmapped (bs : List Block) : Prop :=
  ∀ b ∈ bs.getLast?, b.Unmapped = true

instance : DecidablePred TerminalUnmapped := fun bs =>
  inferInstanceAs (Decidable (∀ b ∈ bs.getLast?, _))

/-- Two adjacent blocks that are both unmapped (the coalescing invariant the
spec requires Unmap to maintain). -/
def HasAdjacentUnmapped (bs : List Block) : Prop :=
  ∃ i, i + 1 < bs.length ∧ (blk bs i).Unmapped = true ∧ (blk bs (i + 1)).Unmapped = true

instance : DecidablePred HasAdjacentUnmapped := fun bs => by
  unfold HasAdjacentUnmapped
  have : (∃ i, i + 1 < bs.length ∧ (blk bs i).Unmapped = true ∧ (blk bs (i + 1)).Unmapped = true)
      ↔ (∃ i < bs.length, i + 1 < bs.length ∧ (blk bs i).Unmapped = true ∧ (blk bs (i + 1)).Unmapped = true) := by
    constructor
    · rintro ⟨i, h1, h2⟩; exact ⟨i, by omega, h1, h2⟩
    · rintro ⟨i, _, h1, h2⟩; exact ⟨i, h1, h2⟩
  exact decidable_of_iff _ this.symm

/-! ## FlatMemoryManager: Read / Write / Copy -/

/-- Outcome of an accessor operation.  `pageFault a` models the thrown
page-fault exception carrying address `a` (fatal to the calling context: the
model, like the C++, performs no retry).  `diverge` marks executions in which
the C++ loop would make no progress and run its iterators past the final
block: undefined behaviour. -/
inductive AccessResult where
  | ok
  | pageFault (addr : Nat)
  | diverge
deriving DecidableEq, Repr

/-- Write `n` zero bytes into buffer `dest` at offset `off` (std::memset). -/
def setZeros (dest : Nat → Nat) (off n : Nat) : Nat → Nat :=
  fun k => if off ≤ k ∧ k < off + n then 0 else dest k

/-- Copy `n` bytes from host memory `mem` at address `src` into buffer `dest`
at offset `off` (std::memcpy out of guest-backing memory). -/
def copyIn (dest : Nat → Nat) (off : Nat) (mem : Nat → Nat) (src n : Nat) : Nat → Nat :=
  fun k => if off ≤ k ∧ k < off + n then mem (src + (k - off)) else dest k

/-- Copy `n` bytes from buffer `src` at offset `off` into host memory `mem`
at address `dst` (std::memcpy into guest-backing memory). -/
def copyOut (mem : Nat → Nat) (dst : Nat) (src : Nat → Nat) (off n : Nat) : Nat → Nat :=
  fun k => if dst ≤ k ∧ k < dst + n then src (off + (k - dst)) else mem k

/-- Write `n` zero bytes into host memory at address `dst`. -/
def zeroMem (mem : Nat → Nat) (dst n : Nat) : Nat → Nat :=
  fun k => if dst ≤ k ∧ k < dst + n then 0 else mem k

/-- Copy `n` bytes inside host memory from `src` to `dst`. -/
def copyMem (mem : Nat → Nat) (dst src n : Nat) : Nat → Nat :=
  fun k => if dst ≤ k ∧ k < dst + n then mem (src + (k - dst)) else mem k

/-- Loop of FlatMemoryManager::Read.  `p` is the predecessor block index,
`bp` the current host cursor (`blockPhys`), `brs` the current sub-range size
(`blockReadSize`), `size` the remaining byte count, `off` the destination
offset.  The fuel always suffices (each iteration consumes at least one byte
or stops); running out models the undefined non-progress case. -/
def mmReadGo (bs : List Block) (mem : Nat → Nat) :
    Nat → Nat → Nat → Nat → Nat → Nat → (Nat → Nat) → ((Nat → Nat) × AccessResult)
  | 0, _, _, _, _, _, dest => (dest, .diverge)
  | _ + 1, _, _, _, 0, _, dest => (dest, .ok)
  | fuel + 1, p, bp, brs, size + 1, off, dest =>
    if (blk bs p).phys = 0 then (dest, .pageFault (blk bs p).virt)
    else if brs = 0 then (dest, .diverge)
    else
      let dest2 := if (blk bs p).extraInfo.sparseMapped
        then setZeros dest off brs
        else copyIn dest off mem bp brs
      let size2 := size + 1 - brs
      let p2 := p + 1
      mmReadGo bs mem fuel p2 (blk bs p2).phys
        (min ((blk bs (p2 + 1)).virt - (blk bs p2).virt) size2) size2 (off + brs) dest2

/-- FlatMemoryManager::Read: resolve the covering block by upper_bound, then
copy block by block (sparse blocks produce zeroes; an unbacked block throws a
page fault). Returns the final destination buffer and the outcome. -/
def mmRead (bs : List Block) (mem : Nat → Nat) (virt size : Nat) (dest : Nat → Nat) :
    (Nat → Nat) × AccessResult :=
  let s := upperBoundIdx bs virt
  let p := s - 1
  mmReadGo bs mem (size + 1) p ((blk bs p).phys + (virt - (blk bs p).virt))
    (min ((blk bs s).virt - virt) size) size 0 dest

/-- Loop of FlatMemoryManager::Write (sparse mappings ignore writes). -/
def mmWriteGo (bs : List Block) (src : Nat → Nat) :
    Nat → Nat → Nat → Nat → Nat → Nat → (Nat → Nat) → ((Nat → Nat) × AccessResult)
  | 0, _, _, _, _, _, mem => (mem, .diverge)
  | _ + 1, _, _, _, 0, _, mem => (mem, .ok)
  | fuel + 1, p, bp, bws, size + 1, off, mem =>
    if (blk bs p).phys = 0 then (mem, .pageFault (blk bs p).virt)
    else if bws = 0 then (mem, .diverge)
    else
      let mem2 := if (blk bs p).extraInfo.sparseMapped
        then mem
        else copyOut mem bp src off bws
      let size2 := size + 1 - bws
      let p2 := p + 1
      mmWriteGo bs src fuel p2 (blk bs p2).phys
        (min ((blk bs (p2 + 1)).virt - (blk bs p2).virt) size2) size2 (off + bws) mem2

/-- FlatMemoryManager::Write. -/
def mmWrite (bs : List Block) (mem : Nat → Nat) (virt : Nat) (src : Nat → Nat) (size : Nat) :
    (Nat → Nat) × AccessResult :=
  let s := upperBoundIdx bs virt
  let p := s - 1
  mmWriteGo bs src (size + 1) p ((blk bs p).phys + (virt - (blk bs p).virt))
    (min ((blk bs s).virt - virt) size) size 0 mem

/-- Loop of FlatMemoryManager::Copy: two independent cursors.  Arguments:
source predecessor index / host cursor / remaining run, destination likewise,
current step size (`blockCopySize`), remaining total. -/
def mmCopyGo (bs : List Block) :
    Nat → Nat → Nat → Nat → Nat → Nat → Nat → Nat → Nat → (Nat → Nat) →
    ((Nat → Nat) × AccessResult)
  | 0, _, _, _, _, _, _, _, _, mem => (mem, .diverge)
  | _ + 1, _, _, _, _, _, _, _, 0, mem => (mem, .ok)
  | fuel + 1, sp, sbp, srem, dp, dbp, drem, bcs, size + 1, mem =>
    if (blk bs sp).phys = 0 then (mem, .pageFault (blk bs sp).virt)
    else if (blk bs dp).phys = 0 then (mem, .pageFault (blk bs dp).virt)
    else if bcs = 0 then (mem, .diverge)
    else
      let mem2 := if (blk bs sp).extraInfo.sparseMapped
        then zeroMem mem dbp bcs
        else copyMem mem dbp sbp bcs
      let size2 := size + 1 - bcs
      let sbp2 := sbp + bcs
      let dbp2 := dbp + bcs
      let srem2 := srem - bcs
      let drem2 := drem - bcs
      let sNew := srem2 = 0
      let dNew := drem2 = 0
      let sp2 := if sNew then sp + 1 else sp
      let sbp3 := if sNew then (blk bs sp2).phys else sbp2
      let srem3 := if sNew then (blk bs (sp2 + 1)).virt - (blk bs sp2).virt else srem2
      let dp2 := if dNew then dp + 1 else dp
      let dbp3 := if dNew then (blk bs dp2).phys else dbp2
      let drem3 := if dNew then (blk bs (dp2 + 1)).virt - (blk bs dp2).virt else drem2
      let bcs2 := if sNew ∨ dNew then min (min srem3 drem3) size2 else bcs
      mmCopyGo bs fuel sp2 sbp3 srem3 dp2 dbp3 drem3 bcs2 size2 mem2

/-- FlatMemoryManager::Copy(dst, src, size): sparse handling consults only
the source block (a sparse source zero-fills the destination bytes). -/
def mmCopy (bs : List Block) (mem : Nat → Nat) (dst src size : Nat) :
    (Nat → Nat) × AccessResult :=
  let ss := upperBoundIdx bs src
  let ds := upperBoundIdx bs dst
  let sp := ss - 1
  let dp := ds - 1
  let srem := (blk bs ss).virt - src
  let drem := (blk bs ds).virt - dst
  mmCopyGo bs (size + 1) sp ((blk bs sp).phys + (src - (blk bs sp).virt)) srem
    dp ((blk bs dp).phys + (dst - (blk bs dp).virt)) drem
    (min (min srem drem) size) size mem

/-! ## FlatAllocator -/

/-- FlatAllocator state.  The base-class template arguments of the allocator
instantiation are `PaType = bool`, `UnmappedPa = false`, `PaContigSplit =
false`; backing value `true` is encoded as `1`.  `UnmappedVa = 0`, so an
allocation result of `0` is the empty no-space result (`return {}`). -/
structure FlatAllocator where
  vaStart : Nat
  vaLimit : Nat
  currentLinearAllocEnd : Nat
  blocks : List Block
deriving DecidableEq, Repr

/-- A freshly constructed allocator (the constructor sets the linear cursor
to `vaStart`; the block vector is the inherited initial sentinel). -/
def FlatAllocator.init (vaStart vaLimit : Nat) : FlatAllocator :=
  ⟨vaStart, vaLimit, vaStart, initBlocks⟩

/-- The skip-ahead loop of FlatAllocator::Allocate (source lines 449-464):
starting from predecessor `p` and successor `i`, either takes
`allocEndPredecessor->virt` when the gap in front is too small or the
predecessor is mapped, or advances; on reaching the final block it checks the
remaining space against the VA limit.  Returns the chosen `allocStart`
(`0` if none was found). -/
def allocSkip (bs : List Block) (size vaLimit : Nat) : Nat → Nat → Nat → Nat
  | 0, _, _ => 0
  | fuel + 1, p, i =>
    if i = bs.length then 0
    else if (blk bs i).virt - (blk bs p).virt < size ∨ (blk bs p).Mapped then
      (blk bs p).virt
    else
      let p2 := i
      let i2 := i + 1
      if i2 = bs.length then
        if (blk bs p2).virt ≤ (blk bs p2).virt + size ∧ (blk bs p2).virt + size ≤ vaLimit
        then (blk bs p2).virt else 0
      else allocSkip bs size vaLimit fuel p2 i2

/-- The fallback first-fit gap scan of FlatAllocator::Allocate (source lines
474-485): `none` is the address-space-full case. -/
def allocSearch (bs : List Block) (size : Nat) : Nat → Nat → Nat → Option Nat
  | 0, _, _ => none
  | fuel + 1, sp, si =>
    if si = bs.length then none
    else if (blk bs si).virt - (blk bs sp).virt < size ∨ (blk bs sp).Mapped then
      allocSearch bs size fuel si (si + 1)
    else some (blk bs sp).virt

/-- FlatAllocator::Allocate. -/
def FlatAllocator.allocate (a : FlatAllocator) (size : Nat) :
    Except ASError (Nat × FlatAllocator) := do
  let allocEnd := a.currentLinearAllocEnd + size
  let linStart ←
    if a.currentLinearAllocEnd ≤ allocEnd ∧ allocEnd ≤ a.vaLimit then
      let i := lowerBoundIdx a.blocks allocEnd
      if i = 0 then .error .firstBlockInvalid
      else
        let p := i - 1
        if (blk a.blocks p).virt ≤ a.currentLinearAllocEnd then
          pure a.currentLinearAllocEnd
        else
          pure (allocSkip a.blocks size a.vaLimit (a.blocks.length + 1) p i)
    else pure 0
  if linStart ≠ 0 then
    let bs2 ← mapLocked a.vaLimit false a.blocks linStart 1 size ⟨false⟩
    .ok (linStart, { a with currentLinearAllocEnd := linStart + size, blocks := bs2 })
  else if a.blocks.length ≤ 2 then .error .unexpectedAllocatorState
  else
    match allocSearch a.blocks size (a.blocks.length + 1) 0 1 with
    | some st => do
      let bs2 ← mapLocked a.vaLimit false a.blocks st 1 size ⟨false⟩
      .ok (st, { a with blocks := bs2 })
    | none => .ok (0, a)

/-- FlatAllocator::AllocateFixed: direct Map passthrough with backing `true`. -/
def FlatAllocator.allocateFixed (a : FlatAllocator) (virt size : Nat) :
    Except ASError FlatAllocator := do
  let bs2 ← mapLocked a.vaLimit false a.blocks virt 1 size ⟨false⟩
  .ok { a with blocks := bs2 }

/-- FlatAllocator::Free: direct Unmap passthrough. -/
def FlatAllocator.free (a : FlatAllocator) (virt size : Nat) :
    Except ASError FlatAllocator := do
  let bs2 ← unmapLocked a.vaLimit false a.blocks virt size
  .ok { a with blocks := bs2 }

/-! ## Kernel MemoryManager: region layout and chunk descriptors -/

/-- Errors thrown by the kernel MemoryManager. -/
inductive KError where
  | nonAlignedCodeRegion
  | vmmExceedsCarveout
  | codeRegionTooSmall
  | regionsWithoutVmm
  | chunkOutsideAddressSpace
deriving DecidableEq, Repr

/-- A host span (pointer, size). -/
structure Span where
  ptr : Nat
  size : Nat
deriving DecidableEq, Repr

/-- util::AlignUp for the power-of-two region alignment. -/
def alignUp (v a : Nat) : Nat := ((v + a - 1) / a) * a

/-- The minimum alignment of a HOS memory region (1 << 21). -/
def regionAlignment : Nat := 2 ^ 21

/-- The result of MemoryManager::InitializeRegions: the five sub-region spans
together with the munmap calls it issues (address, length), with the length
truncated to `size_t` exactly as the source computes it. -/
structure RegionLayout where
  code : Span
  aliasRegion : Span
  heap : Span
  stack : Span
  tlsIo : Span
  munmapCalls : List (Nat × Nat)
deriving DecidableEq, Repr

/-- MemoryManager::InitializeRegions for the 39-bit address space (the only
supported one; InitializeVmm throws for every other width).  `base` is the
host carveout reservation, `codeRegion` the guest code image span placed at
its start.  Mirrors the source: lay the five regions out back to back, fail
if their sum exceeds the reservation, then call
`munmap(base.end().base(), newSize - base.size())` — address and length
exactly as written, the length being the `size_t` value of
`newSize - base.size()`. -/
def initializeRegions39 (base : Span) (codeRegion : Span) :
    Except KError RegionLayout :=
  if codeRegion.ptr % regionAlignment ≠ 0 then .error .nonAlignedCodeRegion
  else
    let code : Span := ⟨base.ptr, alignUp codeRegion.size regionAlignment⟩
    let aliasRegion : Span := ⟨code.ptr + code.size, 0x1000000000⟩
    let heap : Span := ⟨aliasRegion.ptr + aliasRegion.size, 0x180000000⟩
    let stack : Span := ⟨heap.ptr + heap.size, 0x80000000⟩
    let tlsIo : Span := ⟨stack.ptr + stack.size, 0x1000000000⟩
    let newSize := code.size + aliasRegion.size + stack.size + heap.size + tlsIo.size
    if base.size < newSize then .error .vmmExceedsCarveout
    else
      let calls :=
        if newSize ≠ base.size
        then [(base.ptr + base.size, (newSize + 2 ^ 64 - base.size) % 2 ^ 64)]
        else []
      if code.size < codeRegion.size then .error .codeRegionTooSmall
      else .ok ⟨code, aliasRegion, heap, stack, tlsIo, calls⟩

/-- The size of the 39-bit host carveout chosen by InitializeVmm:
CodeRegionSize (4 GiB) + 0x1000000000 + 0x180000000 + 0x80000000 +
0x1000000000. -/
def baseSize39 : Nat :=
  4 * 1024 * 1024 * 1024 + 0x1000000000 + 0x180000000 + 0x80000000 + 0x1000000000

/-- Coarse per-range bookkeeping record
(`struct ChunkDescriptor { u8 *ptr; size_t size; state; permission; attributes; }`).
The metadata fields are opaque numbers here. -/
structure ChunkDescriptor where
  ptr : Nat
  size : Nat
  state : Nat
  permission : Nat
  attributes : Nat
deriving DecidableEq, Repr

instance : Inhabited ChunkDescriptor := ⟨⟨0, 0, 0, 0, 0⟩⟩

/-- Modelled from the spec: `ChunkDescriptor::IsCompatible` is declared in a
header not present under src/; the spec defines a compatible neighbor as one
with the same state, permission and attributes. -/
def ChunkDescriptor.IsCompatible (a b : ChunkDescriptor) : Bool :=
  a.state = b.state ∧ a.permission = b.permission ∧ a.attributes = b.attributes

/-- Indexing into the chunk list (out-of-range gives the zero descriptor). -/
def chk (cs : List ChunkDescriptor) (i : Nat) : ChunkDescriptor :=
  cs.getD i ⟨0, 0, 0, 0, 0⟩

/-- MemoryManager::InsertChunk (kernel/memory.cpp lines 194-244), branch for
branch.  `u` below is the iterator `upper`, `l` the iterator `lower`. -/
def insertChunk (cs : List ChunkDescriptor) (c : ChunkDescriptor) :
    Except KError (List ChunkDescriptor) :=
  let u0 := cs.findIdx (fun d => decide (c.ptr < d.ptr))
  if u0 = 0 then .error .chunkOutsideAddressSpace
  else
    let ce := c.ptr + c.size
    let e2 := u0 + (cs.drop u0).findIdx (fun d => decide (ce < d.ptr + d.size))
    let cs1 := eraseRange cs u0 e2
    let u := u0
    let cs2 :=
      if u ≠ cs1.length ∧ (chk cs1 u).ptr < ce then
        cs1.set u { chk cs1 u with ptr := ce, size := (chk cs1 u).ptr + (chk cs1 u).size - ce }
      else cs1
    let l := u - 1
    let lower := chk cs2 l
    if lower.ptr = c.ptr ∧ lower.size = c.size then
      .ok (cs2.set l { lower with
        state := c.state, permission := c.permission, attributes := c.attributes })
    else if ce < lower.ptr + lower.size then
      let lowerExtension : ChunkDescriptor :=
        { lower with ptr := ce, size := lower.ptr + lower.size - ce }
      let newLowerSize := c.ptr - lower.ptr
      if newLowerSize ≠ 0 then
        .ok (insertAt (cs2.set l { lower with size := newLowerSize }) u [c, lowerExtension])
      else
        let cs3 := cs2.set l { lower with size := 0 }
        let l2 := l - 1
        let lower2 := chk cs3 l2
        if c.IsCompatible lower2 ∧ c.ptr ≤ lower2.ptr + lower2.size then
          .ok (insertAt (eraseRange (cs3.set l2 { lower2 with size := ce - lower2.ptr }) l (l + 1))
            l [lowerExtension])
        else
          .ok (insertAt (cs3.set l c) u [lowerExtension])
    else if c.IsCompatible lower ∧ c.ptr ≤ lower.ptr + lower.size then
      .ok (cs2.set l { lower with size := ce - lower.ptr })
    else
      let cs3 :=
        if c.ptr < lower.ptr + lower.size then
          cs2.set l { lower with size := c.ptr - lower.ptr }
        else cs2
      if u ≠ cs3.length ∧ c.IsCompatible (chk cs3 u) ∧ (chk cs3 u).ptr ≤ ce then
        .ok (cs3.set u { chk cs3 u with ptr := c.ptr, size := c.size + (chk cs3 u).size })
      else
        .ok (insertAt cs3 u [c])

/-- MemoryManager::Get: point lookup in the chunk list. -/
def chunkGet (cs : List ChunkDescriptor) (p : Nat) : Option ChunkDescriptor :=
  let i := cs.findIdx (fun d => decide (p < d.ptr))
  if i = 0 then none
  else
    let d := chk cs (i - 1)
    if p < d.ptr + d.size then some d else none

/-! ## Concrete states used by counterexamples and failing-input evaluations -/

/-- Reachable block state with a mapped, a sparse-mapped, a second mapped and
the trailing unmapped block. -/
def c4Blocks : List Block :=
  [⟨0, 0, ⟨false⟩⟩, ⟨0x10, 0x100, ⟨false⟩⟩, ⟨0x20, 0x500, ⟨true⟩⟩,
   ⟨0x30, 0x900, ⟨false⟩⟩, ⟨0x40, 0, ⟨false⟩⟩]

/-- A concrete host memory with distinguishable bytes. -/
def c4Mem : Nat → Nat := fun a => a % 251

/-- A fresh allocator over `[0x100, 0x1000)`. -/
def c7Alloc0 : FlatAllocator := FlatAllocator.init 0x100 0x1000

/-- State of `c7Alloc0` after `AllocateFixed(0x200, 0x100)`. -/
def c7Alloc1 : FlatAllocator :=
  ⟨0x100, 0x1000, 0x100, [⟨0, 0, ⟨false⟩⟩, ⟨0x200, 1, ⟨false⟩⟩, ⟨0x300, 0, ⟨false⟩⟩]⟩

/-- State of `c7Alloc1` after `Allocate(0x80)` returned `0x100`. -/
def c7Alloc2 : FlatAllocator :=
  ⟨0x100, 0x1000, 0x180,
   [⟨0, 0, ⟨false⟩⟩, ⟨0x100, 1, ⟨false⟩⟩, ⟨0x180, 0, ⟨false⟩⟩,
    ⟨0x200, 1, ⟨false⟩⟩, ⟨0x300, 0, ⟨false⟩⟩]⟩

/-- A well-formed chunk-descriptor list (sorted, non-overlapping, covering
`[0, 130)`), with two state-1 chunks around a state-2 chunk. -/
def c9Chunks : List ChunkDescriptor :=
  [⟨0, 10, 1, 0, 0⟩, ⟨10, 10, 2, 0, 0⟩, ⟨20, 10, 1, 0, 0⟩, ⟨30, 100, 9, 0, 0⟩]

/-- The region total InitializeRegions computes for a 2 MiB code image in the
39-bit layout. -/
def c3NewSize : Nat :=
  0x200000 + 0x1000000000 + 0x180000000 + 0x80000000 + 0x1000000000

/-! ## Claim C1: counterexample -/

/-- C1 (counterexample).  The claim asserts that every Map/Unmap sequence with
ranges inside the VA limit keeps the block sequence strictly sorted.  A single
`Map(0, 5, 10)` on the initial state — its range `[0, 10)` lies inside the
limit 100 — appends a mapped block at virtual address 0 after the initial
sentinel, which also sits at address 0: the sequence `0, 0, 10` is not
strictly sorted (and the stale sentinel at the front is a second unmapped
block besides the terminating one). -/
theorem C1_counterexample :
    runOps 100 true initBlocks [.map 0 5 10 ⟨false⟩]
      = .ok [⟨0, 0, ⟨false⟩⟩, ⟨0, 5, ⟨false⟩⟩, ⟨10, 0, ⟨false⟩⟩]
    ∧ ¬ BlocksSorted [⟨0, 0, ⟨false⟩⟩, ⟨0, 5, ⟨false⟩⟩, ⟨10, 0, ⟨false⟩⟩] := by
  exact ⟨by rfl, by decide⟩

/-! ## Claim C2: failing input -/

/-- C2 (failing-input evaluation).  From the initial state, `Map(10, 40, 10)`
then `Map(5, 30, 5)` produces `[{0,∅},{5,30},{10,40},{20,∅}]`; the claim (and
the spec's Unmap contract) requires the following `Unmap(5, 5)` to restore the
pre-Map query result (unmapped) on `[5, 10)`.  Instead UnmapLocked reaches its
phase-2 branch for an unmapped start predecessor and erases the empty iterator
range `[blockStartSuccessor, blockEndPredecessor)`: the state is returned
unchanged, and the query for address 7 still yields backing 30 where the
pre-Map state yields the unmapped sentinel. -/
theorem C2_failing :
    runOps 20 true initBlocks [.map 10 40 10 ⟨false⟩] = .ok [⟨0, 0, ⟨false⟩⟩, ⟨10, 40, ⟨false⟩⟩, ⟨20, 0, ⟨false⟩⟩]
    ∧ runOps 20 true initBlocks [.map 10 40 10 ⟨false⟩, .map 5 30 5 ⟨false⟩, .unmap 5 5]
      = .ok [⟨0, 0, ⟨false⟩⟩, ⟨5, 30, ⟨false⟩⟩, ⟨10, 40, ⟨false⟩⟩, ⟨20, 0, ⟨false⟩⟩]
    ∧ (queryBlock [⟨0, 0, ⟨false⟩⟩, ⟨5, 30, ⟨false⟩⟩, ⟨10, 40, ⟨false⟩⟩, ⟨20, 0, ⟨false⟩⟩] 7).phys = 30
    ∧ (queryBlock [⟨0, 0, ⟨false⟩⟩, ⟨10, 40, ⟨false⟩⟩, ⟨20, 0, ⟨false⟩⟩] 7).phys = 0 := by
  exact ⟨by rfl, by rfl, by decide, by decide⟩

/-! ## Claim C3: failing input -/

/-- C3 (failing-input evaluation).  For a 39-bit reservation of `baseSize39`
bytes at `2^35` and a 2 MiB code image, the laid-out regions total
`c3NewSize < baseSize39` bytes; the claim requires the unused trailing
portion `[base + c3NewSize, base + baseSize39)` to be unmapped and released.
The source instead executes `munmap(base.end().base(), newSize - base.size())`:
the call starts at the end of the reservation (not at `base + newSize`) and its
`size_t` length is the wrapped value `2^64 - (baseSize39 - c3NewSize)` — the
trailing excess is never released and the recorded call differs from the one
the claim describes in both address and length. -/
theorem C3_failing :
    initializeRegions39 ⟨2 ^ 35, baseSize39⟩ ⟨2 ^ 35, 0x200000⟩
      = .ok ⟨⟨2 ^ 35, 0x200000⟩, ⟨2 ^ 35 + 0x200000, 0x1000000000⟩,
             ⟨2 ^ 35 + 0x200000 + 0x1000000000, 0x180000000⟩,
             ⟨2 ^ 35 + 0x200000 + 0x1000000000 + 0x180000000, 0x80000000⟩,
             ⟨2 ^ 35 + 0x200000 + 0x1000000000 + 0x180000000 + 0x80000000, 0x1000000000⟩,
             [(2 ^ 35 + baseSize39, 2 ^ 64 - (baseSize39 - c3NewSize))]⟩
    ∧ 2 ^ 35 + baseSize39 ≠ 2 ^ 35 + c3NewSize
    ∧ 2 ^ 64 - (baseSize39 - c3NewSize) ≠ baseSize39 - c3NewSize := by
  exact ⟨by rfl, by decide, by decide⟩

/-! ## Claim C4: counterexample -/

/-- C4 (counterexample).  `Copy(dst := 0x22, src := 0x12, size := 4)` on a
state whose destination range lies in a sparse block (`c4Blocks`, block
`{0x20, 0x500, sparse}`) succeeds and writes the source bytes straight through
into the sparse block's backing memory at `0x502` — host memory changes, so
the write is not silently discarded as the claim requires for a Copy whose
destination is sparse (the code consults only the source block's sparse
flag). -/
theorem C4_counterexample :
    (blk c4Blocks 2).extraInfo.sparseMapped = true
    ∧ (mmCopy c4Blocks c4Mem 0x22 0x12 4).2 = .ok
    ∧ (mmCopy c4Blocks c4Mem 0x22 0x12 4).1 0x502 = c4Mem 0x102
    ∧ (mmCopy c4Blocks c4Mem 0x22 0x12 4).1 0x502 ≠ c4Mem 0x502 := by
  exact ⟨by decide, by decide, by decide, by decide⟩

/-! ## Claim C5: counterexample -/

/-- C5 (counterexample).  `Map(16, 256, 32, sparse)` then
`Map(16, 512, 8)` (with `PaContigSplit = true`) ends strictly inside the
sparse block `{16, 256, sparse}`; the claim requires the split tail to inherit
the sparse block's backing verbatim (256), but the code offsets every mapped
backing, sparse or not, producing tail backing `256 + 24 - 16 = 264`. -/
theorem C5_counterexample :
    runOps 100 true initBlocks [.map 16 256 32 ⟨true⟩, .map 16 512 8 ⟨false⟩]
      = .ok [⟨0, 0, ⟨false⟩⟩, ⟨16, 512, ⟨false⟩⟩, ⟨24, 264, ⟨true⟩⟩, ⟨48, 0, ⟨false⟩⟩]
    ∧ (264 : Nat) ≠ 256 := by
  exact ⟨by rfl, by decide⟩

/-! ## Claim C6: failing input -/

/-- C6 (failing-input evaluation).  From the initial state,
`Map(2, 7, 1); Map(4, 9, 5)` reaches `[{0,∅},{2,7},{3,∅},{4,9},{9,∅}]`; the
claim requires that no Unmap ever leaves two adjacent unmapped blocks, failing
loudly instead.  `Unmap(1, 5)` takes UnmapLocked's phase-2 branch for an
unmapped start predecessor, erases only `[blockStartSuccessor,
blockEndPredecessor)` — the single block `{2,7}` — and silently returns
`[{0,∅},{3,∅},{6,11},{9,∅}]`, whose first two blocks are adjacent and both
unmapped. -/
theorem C6_failing :
    runOps 20 true initBlocks [.map 2 7 1 ⟨false⟩, .map 4 9 5 ⟨false⟩, .unmap 1 5]
      = .ok [⟨0, 0, ⟨false⟩⟩, ⟨3, 0, ⟨false⟩⟩, ⟨6, 11, ⟨false⟩⟩, ⟨9, 0, ⟨false⟩⟩]
    ∧ HasAdjacentUnmapped [⟨0, 0, ⟨false⟩⟩, ⟨3, 0, ⟨false⟩⟩, ⟨6, 11, ⟨false⟩⟩, ⟨9, 0, ⟨false⟩⟩] := by
  exact ⟨by rfl, by decide⟩

/-! ## Claim C7: failing input -/

/-- C7 (failing-input evaluation).  On `c7Alloc0` (space `[0x100, 0x1000)`),
`AllocateFixed(0x200, 0x100)` installs a fixed mapping over `[0x200, 0x300)`;
`Allocate(0x80)` returns `[0x100, 0x180)` and advances the cursor; the next
`Allocate(0x100)` finds the fixed mapping in front of the cursor and its
skip-ahead loop — whose take/advance condition is inverted relative to the
spec's "skip forward past fixed mappings" — immediately takes the fixed
mapping's base, returning the range `[0x200, 0x300)` that exactly coincides
with the existing fixed mapping (remapping it).  Also, exhaustion on a fresh
allocator (block vector of ≤ 2 entries) raises the fatal
"Unexpected allocator state!" instead of the claimed empty no-space result. -/
theorem C7_failing :
    c7Alloc0.allocateFixed 0x200 0x100 = .ok c7Alloc1
    ∧ c7Alloc1.allocate 0x80 = .ok (0x100, c7Alloc2)
    ∧ (c7Alloc2.allocate 0x100).toOption.map Prod.fst = some 0x200
    ∧ (FlatAllocator.init 0x1000 0x2000).allocate 0x2000 = .error .unexpectedAllocatorState := by
  exact ⟨by rfl, by rfl, by rfl, by rfl⟩

/-! ## Claim C8: counterexample -/

/-- C8 (counterexample).  A read of 4 bytes at `0x1005` on a state whose
unmapped block starts at `0x1000` faults, but the page-fault error carries
`0x1000` — the base address of the unbacked block — not the faulting address
`0x1005` the claim requires. -/
theorem C8_counterexample :
    (mmRead [⟨0, 0, ⟨false⟩⟩, ⟨0x800, 5, ⟨false⟩⟩, ⟨0x1000, 0, ⟨false⟩⟩]
        (fun _ => 0) 0x1005 4 (fun _ => 0)).2 = .pageFault 0x1000
    ∧ (0x1000 : Nat) ≠ 0x1005 := by
  exact ⟨by decide, by decide⟩

/-! ## Claim C9: counterexample -/

/-- C9 (counterexample).  Inserting the chunk `{10, 10, state 1}` into
`c9Chunks` hits InsertChunk's exact-match branch, which only rewrites the
metadata in place: the result keeps three distinct adjacent chunks
`[0,10)`, `[10,20)`, `[20,30)` that are pairwise compatible (identical
state/permission/attributes) — adjacent compatible chunks are not merged,
contradicting the claim's merge guarantee. -/
theorem C9_counterexample :
    insertChunk c9Chunks ⟨10, 10, 1, 0, 0⟩
      = .ok [⟨0, 10, 1, 0, 0⟩, ⟨10, 10, 1, 0, 0⟩, ⟨20, 10, 1, 0, 0⟩, ⟨30, 100, 9, 0, 0⟩]
    ∧ ChunkDescriptor.IsCompatible ⟨0, 10, 1, 0, 0⟩ ⟨10, 10, 1, 0, 0⟩ = true
    ∧ (0 : Nat) + 10 = 10 := by
  exact ⟨by rfl, by decide, by decide⟩

/-! ## Index bookkeeping lemmas for the block vector -/

theorem blk_eq_getElem (bs : List Block) (i : Nat) :
    blk bs i = bs[i]?.getD ⟨0, 0, ⟨false⟩⟩ :=
  List.getD_eq_getElem?_getD ..

theorem getElem?_eq_blk {bs : List Block} {i : Nat} (h : i < bs.length) :
    bs[i]? = some (blk bs i) := by
  rw [blk_eq_getElem, List.getElem?_eq_getElem h]
  rfl

theorem length_insertAt {α : Type} (bs : List α) (i : Nat) (xs : List α) (h : i ≤ bs.length) :
    (insertAt bs i xs).length = bs.length + xs.length := by
  simp [insertAt]
  omega

theorem length_eraseRange {α : Type} (bs : List α) (i j : Nat) (h1 : i ≤ j) (h2 : j ≤ bs.length) :
    (eraseRange bs i j).length = bs.length - (j - i) := by
  simp [eraseRange]
  omega

theorem getElem?_append_split {α : Type} (l m : List α) (k : Nat) :
    (l ++ m)[k]? = if k < l.length then l[k]? else m[k - l.length]? :=
  List.getElem?_append

theorem mem_head_single {b x : Block} (h : x ∈ [b].head?) : x = b := by
  have h2 : some b = some x := h
  injection h2 with h3
  exact h3.symm

theorem mem_last_single {b x : Block} (h : x ∈ [b].getLast?) : x = b := by
  have h2 : some b = some x := h
  injection h2 with h3
  exact h3.symm

theorem mem_last_pair {c b x : Block} (h : x ∈ [c, b].getLast?) : x = b := by
  have h2 : some b = some x := h
  injection h2 with h3
  exact h3.symm

theorem blk_insertAt_lt {bs : List Block} {i k : Nat} (xs : List Block)
    (h : i ≤ bs.length) (hk : k < i) : blk (insertAt bs i xs) k = blk bs k := by
  have h1 : (List.take i bs).length = i := by rw [List.length_take]; omega
  have h2 : (List.take i bs ++ xs).length = i + xs.length := by
    rw [List.length_append, h1]
  rw [insertAt, blk_eq_getElem, getElem?_append_split (List.take i bs ++ xs) (List.drop i bs) k,
    h2, if_pos (by omega), List.getElem?_append, h1, if_pos hk,
    List.getElem?_take, if_pos hk, ← blk_eq_getElem]

theorem blk_insertAt_mid {bs : List Block} {i k : Nat} (xs : List Block)
    (h : i ≤ bs.length) (hk : k < xs.length) :
    blk (insertAt bs i xs) (i + k) = blk xs k := by
  have h1 : (List.take i bs).length = i := by rw [List.length_take]; omega
  have h2 : (List.take i bs ++ xs).length = i + xs.length := by
    rw [List.length_append, h1]
  rw [insertAt, blk_eq_getElem,
    getElem?_append_split (List.take i bs ++ xs) (List.drop i bs) (i + k),
    h2, if_pos (by omega), List.getElem?_append, h1, if_neg (by omega),
    Nat.add_sub_cancel_left, ← blk_eq_getElem]

theorem blk_insertAt_ge {bs : List Block} {i k : Nat} (xs : List Block)
    (h : i ≤ bs.length) (hk : i ≤ k) :
    blk (insertAt bs i xs) (k + xs.length) = blk bs k := by
  have h1 : (List.take i bs).length = i := by rw [List.length_take]; omega
  have h2 : (List.take i bs ++ xs).length = i + xs.length := by
    rw [List.length_append, h1]
  rw [insertAt, blk_eq_getElem,
    getElem?_append_split (List.take i bs ++ xs) (List.drop i bs) (k + xs.length),
    h2, if_neg (by omega), List.getElem?_drop, ← blk_eq_getElem]
  congr 1
  omega

theorem blk_eraseRange_lt {bs : List Block} {i j k : Nat} (h : i ≤ bs.length) (hk : k < i) :
    blk (eraseRange bs i j) k = blk bs k := by
  have h1 : (List.take i bs).length = i := by rw [List.length_take]; omega
  rw [eraseRange, blk_eq_getElem, List.getElem?_append, h1, if_pos hk,
    List.getElem?_take, if_pos hk, ← blk_eq_getElem]

theorem blk_eraseRange_ge {bs : List Block} {i j k : Nat} (h : i ≤ bs.length) (hk : i ≤ k) :
    blk (eraseRange bs i j) k = blk bs (j + (k - i)) := by
  have h1 : (List.take i bs).length = i := by rw [List.length_take]; omega
  rw [eraseRange, blk_eq_getElem, List.getElem?_append, h1, if_neg (by omega),
    List.getElem?_drop, ← blk_eq_getElem]

theorem blk_set_self {bs : List Block} {i : Nat} (b : Block) (h : i < bs.length) :
    blk (bs.set i b) i = b := by
  rw [blk_eq_getElem, List.getElem?_set, if_pos rfl, if_pos h]
  rfl

theorem blk_set_ne {bs : List Block} {i k : Nat} (b : Block) (h : i ≠ k) :
    blk (bs.set i b) k = blk bs k := by
  rw [blk_eq_getElem, List.getElem?_set, if_neg h, ← blk_eq_getElem]

/-! ## walkBack and search bounds -/

theorem walkBack_le (bs : List Block) (virt : Nat) : ∀ j, walkBack bs virt j ≤ j
  | 0 => Nat.le_refl _
  | j + 1 => by
    rw [walkBack]
    split
    · exact Nat.le_trans (walkBack_le bs virt j) (Nat.le_succ j)
    · exact Nat.le_refl _

theorem walkBack_ge (bs : List Block) (virt : Nat) :
    ∀ j k, walkBack bs virt j ≤ k → k < j → virt ≤ (blk bs k).virt
  | 0, k, h1, h2 => absurd h2 (Nat.not_lt_zero k)
  | j + 1, k, h1, h2 => by
    rw [walkBack] at h1
    split at h1
    · rcases Nat.lt_or_ge k j with h3 | h3
      · exact walkBack_ge bs virt j k h1 h3
      · have : k = j := by omega
        subst this
        assumption
    · omega

theorem walkBack_pred (bs : List Block) (virt : Nat) :
    ∀ j, 0 < walkBack bs virt j → (blk bs (walkBack bs virt j - 1)).virt < virt
  | 0, h => absurd h (by simp [walkBack])
  | j + 1, h => by
    rw [walkBack] at h ⊢
    split at h
    · rw [if_pos (by assumption)]
      exact walkBack_pred bs virt j h
    · rw [if_neg (by assumption)]
      simpa using Nat.lt_of_not_le (by assumption)

theorem walkBack_pos (bs : List Block) (virt : Nat) :
    ∀ j, 0 < j → (blk bs 0).virt < virt → 0 < walkBack bs virt j
  | 0, h, _ => absurd h (by omega)
  | j + 1, _, h0 => by
    rw [walkBack]
    split
    · rcases Nat.eq_zero_or_pos j with hj | hj
      · subst hj
        omega
      · exact walkBack_pos bs virt j hj h0
    · omega

/-! ## lower_bound / upper_bound partition facts -/

theorem lowerBound_le_length (bs : List Block) (v : Nat) :
    lowerBoundIdx bs v ≤ bs.length :=
  List.findIdx_le_length _

theorem lowerBound_lt (bs : List Block) (v : Nat) {k : Nat}
    (hk : k < lowerBoundIdx bs v) : (blk bs k).virt < v := by
  have hlen : k < bs.length := Nat.lt_of_lt_of_le hk (lowerBound_le_length bs v)
  have := List.not_of_lt_findIdx hk
  simp only [decide_eq_false_iff_not, Nat.not_le] at this
  rwa [blk_eq_getElem, List.getElem?_eq_getElem hlen]

theorem lowerBound_ge (bs : List Block) (v : Nat)
    (h : lowerBoundIdx bs v < bs.length) : v ≤ (blk bs (lowerBoundIdx bs v)).virt := by
  have h2 : List.findIdx (fun b => decide (v ≤ b.virt)) bs < bs.length := h
  have := List.findIdx_getElem (w := h2)
  simp only [decide_eq_true_eq] at this
  rwa [blk_eq_getElem, List.getElem?_eq_getElem h]

theorem upperBound_le_length (bs : List Block) (v : Nat) :
    upperBoundIdx bs v ≤ bs.length :=
  List.findIdx_le_length _

theorem upperBound_le (bs : List Block) (v : Nat) {k : Nat}
    (hk : k < upperBoundIdx bs v) : (blk bs k).virt ≤ v := by
  have hlen : k < bs.length := Nat.lt_of_lt_of_le hk (upperBound_le_length bs v)
  have := List.not_of_lt_findIdx hk
  simp only [decide_eq_false_iff_not, Nat.not_lt] at this
  rwa [blk_eq_getElem, List.getElem?_eq_getElem hlen]

theorem upperBound_gt (bs : List Block) (v : Nat)
    (h : upperBoundIdx bs v < bs.length) : v < (blk bs (upperBoundIdx bs v)).virt := by
  have h2 : List.findIdx (fun b => decide (v < b.virt)) bs < bs.length := h
  have := List.findIdx_getElem (w := h2)
  simp only [decide_eq_true_eq] at this
  rwa [blk_eq_getElem, List.getElem?_eq_getElem h]

/-! ## Claim C5 (amended): the split-tail backing rule -/

/-- The backing value MapLocked gives the tail of a split block: offset by
the split distance exactly when the map is offset-contiguous and the original
backing is a real mapping; the unmapped sentinel value is propagated
verbatim. -/
def splitTailPhys (pc : Bool) (b : Block) (virtEnd : Nat) : Nat :=
  if pc && b.Mapped then b.phys + virtEnd - b.virt else b.phys

theorem tailPhys_eq (pc : Bool) (b : Block) (virtEnd : Nat) :
    (if !pc || b.Unmapped then b.phys else b.phys + virtEnd - b.virt)
      = splitTailPhys pc b virtEnd := by
  cases pc <;> by_cases h : b.phys = 0 <;>
    simp [splitTailPhys, Block.Mapped, Block.Unmapped, h]

/-- The end-boundary block at index `es` (whose `virt` is `virtEnd`) survives
every successful outcome of MapLocked's shared phase 2. -/
theorem mapPhase2_preserves_end (bs : List Block) (virt virtEnd phys : Nat)
    (extra : ExtraBlockInfo) (es : Nat) (bs2 : List Block)
    (hes : es < bs.length)
    (hvirt : (blk bs es).virt = virtEnd)
    (hok : mapPhase2 bs virt virtEnd phys extra es = .ok bs2) :
    ∃ j, j < bs2.length ∧ blk bs2 j = blk bs es := by
  have hss : walkBack bs virt es ≤ es := walkBack_le bs virt es
  simp only [mapPhase2] at hok
  split at hok
  · simp at hok
  · split at hok
    · injection hok with hok
      subst hok
      refine ⟨es + 1, ?_, ?_⟩
      · rw [length_insertAt _ _ _ (by omega)]
        simp
        omega
      · have := @blk_insertAt_ge bs (walkBack bs virt es) es
          [⟨virt, phys, extra⟩] (by omega) hss
        simpa using this
    · rename_i h1 h2
      injection hok with hok
      subst hok
      have hlt : walkBack bs virt es < es := by
        rcases Nat.lt_or_ge (walkBack bs virt es) es with h | h
        · exact h
        · have : walkBack bs virt es = es := by omega
          rw [this] at h2
          exact absurd hvirt h2
      refine ⟨walkBack bs virt es + 1, ?_, ?_⟩
      · rw [List.length_set, length_eraseRange _ _ _ (by omega) (by omega)]
        omega
      · rw [blk_set_ne _ (by omega),
          blk_eraseRange_ge (by omega) (Nat.le_refl _)]
        congr 1
        omega

/-- C5 (amended).  Whenever `Map(virt, phys, size)` ends strictly inside an
existing block (the lower-bound successor of `virt+size` exists and does not
start exactly at `virt+size`), every successful outcome contains a tail block
starting at `virt+size` whose backing is the original covering block's backing
offset by the split distance exactly when `PaContigSplit` holds and that
backing is a real mapping — an unmapped (sentinel) backing is inherited
verbatim and never offset — and whose extra info is inherited verbatim from
the covering block (so a sparse block's tail stays sparse, while its real
backing is offset like any other mapped backing). -/
theorem C5_amended (vaLimit : Nat) (pc : Bool) (bs : List Block)
    (virt phys size : Nat) (extra : ExtraBlockInfo) (bs2 : List Block)
    (hlt : lowerBoundIdx bs (virt + size) < bs.length)
    (hne : (blk bs (lowerBoundIdx bs (virt + size))).virt ≠ virt + size)
    (hok : mapLocked vaLimit pc bs virt phys size extra = .ok bs2) :
    ∃ j, j < bs2.length ∧ blk bs2 j =
      ⟨virt + size,
       splitTailPhys pc (blk bs (lowerBoundIdx bs (virt + size) - 1)) (virt + size),
       (blk bs (lowerBoundIdx bs (virt + size) - 1)).extraInfo⟩ := by
  set i := lowerBoundIdx bs (virt + size) with hidef
  set pb := blk bs (i - 1) with hpbdef
  simp only [mapLocked, ← hidef, ← hpbdef] at hok
  split at hok
  · simp at hok
  · split at hok
    · simp at hok
    · split at hok
      · split at hok
        · -- reuse the end predecessor as the tail, then phase 2
          have hset : blk (bs.set (i - 1)
              ⟨virt + size,
               if !pc || pb.Unmapped then pb.phys else pb.phys + (virt + size) - pb.virt,
               pb.extraInfo⟩) (i - 1)
              = ⟨virt + size, splitTailPhys pc pb (virt + size), pb.extraInfo⟩ := by
            rw [blk_set_self _ (by omega), tailPhys_eq]
          have := mapPhase2_preserves_end _ virt (virt + size) phys extra (i - 1) bs2
            (by rw [List.length_set]; omega) (by rw [hset]) hok
          rwa [hset] at this
        · -- insert a fresh head and tail
          injection hok with hok
          subst hok
          refine ⟨i + 1, ?_, ?_⟩
          · rw [length_insertAt _ _ _ (by omega)]
            simp
            omega
          · have := @blk_insertAt_mid bs i 1
              [⟨virt, phys, extra⟩,
               ⟨virt + size,
                if !pc || pb.Unmapped then pb.phys else pb.phys + (virt + size) - pb.virt,
                pb.extraInfo⟩] (by omega) (by simp)
            rw [this, show blk [⟨virt, phys, extra⟩,
              ⟨virt + size,
               if !pc || pb.Unmapped then pb.phys else pb.phys + (virt + size) - pb.virt,
               pb.extraInfo⟩] 1
              = ⟨virt + size,
                 if !pc || pb.Unmapped then pb.phys else pb.phys + (virt + size) - pb.virt,
                 pb.extraInfo⟩ from rfl, tailPhys_eq]
      · rename_i hil
        rw [not_not] at hil
        omega

/-! ## Claim C8 (amended): page faults carry the unbacked block's base -/

theorem blk_default {bs : List Block} {k : Nat} (h : bs.length ≤ k) :
    blk bs k = ⟨0, 0, ⟨false⟩⟩ := by
  rw [blk_eq_getElem, List.getElem?_eq_none h]
  rfl

theorem upperBound_pos (bs : List Block) (v : Nat) (hlen : 0 < bs.length)
    (h0 : (blk bs 0).virt ≤ v) : 0 < upperBoundIdx bs v := by
  cases bs with
  | nil => simp at hlen
  | cons b rest =>
    rw [upperBoundIdx, List.findIdx_cons]
    have hb : decide (v < b.virt) = false := by
      simp only [decide_eq_false_iff_not, Nat.not_lt]
      simpa [blk] using h0
    rw [hb]
    simp

/-- If the Read loop reports a page fault, the reported address is the base
of an in-range unbacked block. -/
theorem mmReadGo_fault (bs : List Block) (mem : Nat → Nat) :
    ∀ fuel p bp brs size off dest a,
      (mmReadGo bs mem fuel p bp brs size off dest).2 = .pageFault a →
      p < bs.length →
      (brs ≠ 0 → 0 < (blk bs (p + 1)).virt) →
      ∃ j, j < bs.length ∧ (blk bs j).Unmapped = true ∧ a = (blk bs j).virt := by
  intro fuel
  induction fuel with
  | zero =>
    intro p bp brs size off dest a h
    simp [mmReadGo] at h
  | succ n ih =>
    intro p bp brs size off dest a h hp hbrs
    cases size with
    | zero => simp [mmReadGo] at h
    | succ m =>
      rw [mmReadGo] at h
      split at h
      · rename_i hphys
        simp only at h
        exact ⟨p, hp, by simp [Block.Unmapped, hphys], by injection h with h; omega⟩
      · split at h
        · simp at h
        · rename_i hphys hbrs0
          have hnext : 0 < (blk bs (p + 1)).virt := hbrs hbrs0
          have hp2 : p + 1 < bs.length := by
            by_contra hcon
            rw [blk_default (by omega)] at hnext
            simp at hnext
          refine ih (p + 1) (blk bs (p + 1)).phys _ _ _ _ a h hp2 ?_
          intro hne
          have : (blk bs (p + 1)).virt < (blk bs (p + 2)).virt := by
            rcases Nat.eq_zero_or_pos ((blk bs (p + 2)).virt - (blk bs (p + 1)).virt) with hz | hz
            · exact absurd (by omega : min ((blk bs (p + 2)).virt - (blk bs (p + 1)).virt)
                (m + 1 - brs) = 0) hne
            · omega
          omega

/-- Same for the Write loop. -/
theorem mmWriteGo_fault (bs : List Block) (src : Nat → Nat) :
    ∀ fuel p bp bws size off mem a,
      (mmWriteGo bs src fuel p bp bws size off mem).2 = .pageFault a →
      p < bs.length →
      (bws ≠ 0 → 0 < (blk bs (p + 1)).virt) →
      ∃ j, j < bs.length ∧ (blk bs j).Unmapped = true ∧ a = (blk bs j).virt := by
  intro fuel
  induction fuel with
  | zero =>
    intro p bp bws size off mem a h
    simp [mmWriteGo] at h
  | succ n ih =>
    intro p bp bws size off mem a h hp hbws
    cases size with
    | zero => simp [mmWriteGo] at h
    | succ m =>
      rw [mmWriteGo] at h
      split at h
      · rename_i hphys
        simp only at h
        exact ⟨p, hp, by simp [Block.Unmapped, hphys], by injection h with h; omega⟩
      · split at h
        · simp at h
        · rename_i hphys hbws0
          have hnext : 0 < (blk bs (p + 1)).virt := hbws hbws0
          have hp2 : p + 1 < bs.length := by
            by_contra hcon
            rw [blk_default (by omega)] at hnext
            simp at hnext
          refine ih (p + 1) (blk bs (p + 1)).phys _ _ _ _ a h hp2 ?_
          intro hne
          have : (blk bs (p + 1)).virt < (blk bs (p + 2)).virt := by
            rcases Nat.eq_zero_or_pos ((blk bs (p + 2)).virt - (blk bs (p + 1)).virt) with hz | hz
            · exact absurd (by omega : min ((blk bs (p + 2)).virt - (blk bs (p + 1)).virt)
                (m + 1 - bws) = 0) hne
            · omega
          omega

/-- The pre-Map state of the C5 split scenario. -/
def c5Pre : List Block := [⟨0, 0, ⟨false⟩⟩, ⟨16, 256, ⟨true⟩⟩, ⟨48, 0, ⟨false⟩⟩]

/-- The post-Map state of the C5 split scenario. -/
def c5Post : List Block :=
  [⟨0, 0, ⟨false⟩⟩, ⟨16, 512, ⟨false⟩⟩, ⟨24, 264, ⟨true⟩⟩, ⟨48, 0, ⟨false⟩⟩]

/-- C5 witness: the amended theorem applied at the counterexample's split. -/
theorem C5_amended_witness :
    lowerBoundIdx c5Pre (16 + 8) < c5Pre.length
    ∧ ∃ j, j < c5Post.length ∧ blk c5Post j =
        ⟨16 + 8,
         splitTailPhys true (blk c5Pre (lowerBoundIdx c5Pre (16 + 8) - 1)) (16 + 8),
         (blk c5Pre (lowerBoundIdx c5Pre (16 + 8) - 1)).extraInfo⟩ :=
  ⟨by decide,
   C5_amended 100 true c5Pre 16 512 8 ⟨false⟩ c5Post (by decide) (by decide) (by rfl)⟩

/-! ## Claim C4 (amended): sparse semantics of the accessors -/

/-- C4 (amended).  For ranges that resolve to a single sparse block: a Read
returns all-zero bytes — its result is a zero-fill of the destination that
does not consult host backing memory at all — and a Write is silently
discarded (host memory is returned unchanged).  For Copy the sparse check
consults only the source block: a Copy whose source range lies in a sparse
block zero-fills the destination bytes.  (A Copy whose destination is sparse
writes through to the destination block's backing, as the counterexample
shows.) -/
theorem C4_amended (bs : List Block) (mem : Nat → Nat)
    (virt size : Nat) (dest src : Nat → Nat)
    (dstVa srcVa : Nat) (sq dq : Nat)
    (hq : upperBoundIdx bs virt = sq + 1)
    (hsp : (blk bs sq).extraInfo.sparseMapped = true)
    (hm : (blk bs sq).phys ≠ 0)
    (hrange : virt + size ≤ (blk bs (sq + 1)).virt)
    (hq2 : upperBoundIdx bs srcVa = sq + 1)
    (hrange2 : srcVa + size ≤ (blk bs (sq + 1)).virt)
    (hdq : upperBoundIdx bs dstVa = dq + 1)
    (hdm : (blk bs dq).phys ≠ 0)
    (hdrange : dstVa + size ≤ (blk bs (dq + 1)).virt) :
    mmRead bs mem virt size dest = (setZeros dest 0 size, .ok)
    ∧ mmWrite bs mem virt src size = (mem, .ok)
    ∧ mmCopy bs mem dstVa srcVa size
        = (zeroMem mem ((blk bs dq).phys + (dstVa - (blk bs dq).virt)) size, .ok) := by
  refine ⟨?_, ?_, ?_⟩
  · rw [mmRead, hq]
    simp only [Nat.add_sub_cancel]
    cases size with
    | zero =>
      rw [Prod.ext_iff]
      refine ⟨?_, ?_⟩
      · show dest = setZeros dest 0 0
        funext k
        simp [setZeros]
      · rfl
    | succ m =>
      have hbrs : min ((blk bs (sq + 1)).virt - virt) (m + 1) = m + 1 := by omega
      rw [hbrs, mmReadGo, if_neg hm, if_neg (by omega), hsp]
      simp only [if_pos, Nat.add_sub_cancel, Nat.sub_self]
      rw [mmReadGo]
  · rw [mmWrite, hq]
    simp only [Nat.add_sub_cancel]
    cases size with
    | zero => rfl
    | succ m =>
      have hbws : min ((blk bs (sq + 1)).virt - virt) (m + 1) = m + 1 := by omega
      rw [hbws, mmWriteGo, if_neg hm, if_neg (by omega), hsp]
      simp only [if_pos, Nat.sub_self]
      rw [mmWriteGo]
  · rw [mmCopy, hq2, hdq]
    simp only [Nat.add_sub_cancel]
    cases size with
    | zero =>
      rw [Prod.ext_iff]
      refine ⟨?_, ?_⟩
      · show mem = zeroMem mem ((blk bs dq).phys + (dstVa - (blk bs dq).virt)) 0
        funext k
        simp only [zeroMem]
        rw [if_neg (by omega)]
      · rfl
    | succ m =>
      have hbcs : min (min ((blk bs (sq + 1)).virt - srcVa) ((blk bs (dq + 1)).virt - dstVa))
          (m + 1) = m + 1 := by omega
      rw [hbcs, mmCopyGo, if_neg hm, if_neg hdm, if_neg (by omega), hsp]
      simp only [if_pos, Nat.sub_self]
      rw [mmCopyGo]

/-- C4 witness: the amended theorem applied at a concrete sparse state. -/
theorem C4_amended_witness :
    mmRead c4Blocks c4Mem 0x22 4 (fun _ => 9) = (setZeros (fun _ => 9) 0 4, .ok)
    ∧ mmWrite c4Blocks c4Mem 0x22 (fun k => 40 + k) 4 = (c4Mem, .ok)
    ∧ mmCopy c4Blocks c4Mem 0x12 0x22 4
        = (zeroMem c4Mem ((blk c4Blocks 1).phys + (0x12 - (blk c4Blocks 1).virt)) 4, .ok) :=
  C4_amended c4Blocks c4Mem 0x22 4 (fun _ => 9) (fun k => 40 + k) 0x12 0x22 2 1
    (by rfl) (by decide) (by decide) (by decide) (by rfl) (by decide) (by rfl)
    (by decide) (by decide)

/-! ## Sortedness consequences and upper-bound characterization -/

instance : IsTrans Block (fun a b => a.virt < b.virt) :=
  ⟨fun _ _ _ h1 h2 => Nat.lt_trans h1 h2⟩

theorem sorted_lt {bs : List Block} (hs : BlocksSorted bs) {i j : Nat}
    (hij : i < j) (hj : j < bs.length) : (blk bs i).virt < (blk bs j).virt := by
  have hp := List.chain'_iff_pairwise.mp hs
  have := (List.pairwise_iff_getElem.mp hp) i j (by omega) hj hij
  rwa [blk_eq_getElem, blk_eq_getElem, List.getElem?_eq_getElem (by omega : i < bs.length),
    List.getElem?_eq_getElem hj]

theorem sorted_le {bs : List Block} (hs : BlocksSorted bs) {i j : Nat}
    (hij : i ≤ j) (hj : j < bs.length) : (blk bs i).virt ≤ (blk bs j).virt := by
  rcases Nat.lt_or_ge i j with h | h
  · exact Nat.le_of_lt (sorted_lt hs h hj)
  · have : i = j := by omega
    rw [this]

theorem upperBound_ge_of (bs : List Block) (x n : Nat)
    (h : ∀ k, k < n → (blk bs k).virt ≤ x) (hn : n ≤ bs.length) :
    n ≤ upperBoundIdx bs x := by
  by_contra hcon
  push_neg at hcon
  have h1 := upperBound_gt bs x (Nat.lt_of_lt_of_le hcon hn)
  have h2 := h _ hcon
  omega

theorem upperBound_le_of (bs : List Block) (x n : Nat)
    (h : x < (blk bs n).virt) (_hn : n < bs.length) :
    upperBoundIdx bs x ≤ n := by
  by_contra hcon
  push_neg at hcon
  have := upperBound_le bs x hcon
  omega

theorem upperBound_eq_succ (bs : List Block) (x p : Nat) (hp : p < bs.length)
    (hle : ∀ k, k ≤ p → (blk bs k).virt ≤ x)
    (hgt : p + 1 < bs.length → x < (blk bs (p + 1)).virt) :
    upperBoundIdx bs x = p + 1 := by
  have hge := upperBound_ge_of bs x (p + 1) (fun k hk => hle k (by omega)) (by omega)
  rcases Nat.lt_or_ge (p + 1) bs.length with h | h
  · have := upperBound_le_of bs x (p + 1) (hgt h) h
    omega
  · have := upperBound_le_length bs x
    omega

/-- The block resolved for an address `x` lying in block `p`'s extent. -/
theorem queryBlock_eq {bs : List Block} (hs : BlocksSorted bs) {x p : Nat}
    (hp : p < bs.length) (h1 : (blk bs p).virt ≤ x) (h2 : x < (blk bs (p + 1)).virt) :
    queryBlock bs x = blk bs p := by
  rw [queryBlock, upperBound_eq_succ bs x p hp
    (fun k hk => Nat.le_trans (sorted_le hs hk hp) h1) (fun _ => h2)]
  simp

/-! ## Claim C8 (amended): reaching an unbacked block raises the fault -/

/-- If the remaining range of the Read loop covers a position whose block
`j` is unbacked, the loop terminates with a page fault that carries the base
address of an unbacked block of the map. -/
theorem mmReadGo_hits (bs : List Block) (mem : Nat → Nat) (x j : Nat)
    (hs : BlocksSorted bs) (hj : j < bs.length)
    (hju : (blk bs j).Unmapped = true) (hjx : (blk bs j).virt ≤ x) :
    ∀ fuel p cur brs size off dest bp,
      size < fuel → p ≤ j →
      cur ≤ x → x < cur + size →
      (p + 1 < bs.length → cur < (blk bs (p + 1)).virt) →
      brs = min ((blk bs (p + 1)).virt - cur) size →
      ∃ i, i < bs.length ∧ (blk bs i).Unmapped = true ∧
        (mmReadGo bs mem fuel p bp brs size off dest).2
          = .pageFault ((blk bs i).virt) := by
  intro fuel
  induction fuel with
  | zero =>
    intro p cur brs size off dest bp h1
    omega
  | succ n ih =>
    intro p cur brs size off dest bp h1 hpj hcx hxs hcur hbrs
    cases size with
    | zero => omega
    | succ m =>
      by_cases hphys : (blk bs p).phys = 0
      · exact ⟨p, by omega, by simp [Block.Unmapped, hphys],
          by rw [mmReadGo]; simp [hphys]⟩
      · have hpj2 : p < j := by
          rcases Nat.lt_or_ge p j with h | h
          · exact h
          · have hpe : p = j := by omega
            rw [hpe] at hphys
            simp [Block.Unmapped] at hju
            exact absurd hju hphys
        have hp1len : p + 1 < bs.length := by omega
        have hclt : cur < (blk bs (p + 1)).virt := hcur hp1len
        have hfit : (blk bs (p + 1)).virt - cur ≤ m + 1 := by
          by_contra hcon
          push_neg at hcon
          have hle : (blk bs (p + 1)).virt ≤ (blk bs j).virt :=
            sorted_le hs (by omega) hj
          omega
        have hbrsv : brs = (blk bs (p + 1)).virt - cur := by
          rw [hbrs]
          omega
        have hbrs0 : ¬ brs = 0 := by omega
        obtain ⟨i, hi1, hi2, hi3⟩ := ih (p + 1) ((blk bs (p + 1)).virt)
          (min ((blk bs (p + 1 + 1)).virt - (blk bs (p + 1)).virt) (m + 1 - brs))
          (m + 1 - brs) (off + brs)
          (if (blk bs p).extraInfo.sparseMapped then setZeros dest off brs
            else copyIn dest off mem bp brs)
          ((blk bs (p + 1)).phys)
          (by omega) (by omega)
          (by have := sorted_le hs (by omega : p + 1 ≤ j) hj; omega)
          (by omega)
          (fun h2 => sorted_lt hs (by omega) h2)
          rfl
        refine ⟨i, hi1, hi2, ?_⟩
        rw [mmReadGo, if_neg hphys, if_neg hbrs0]
        exact hi3

/-- The same for the Write loop. -/
theorem mmWriteGo_hits (bs : List Block) (src : Nat → Nat) (x j : Nat)
    (hs : BlocksSorted bs) (hj : j < bs.length)
    (hju : (blk bs j).Unmapped = true) (hjx : (blk bs j).virt ≤ x) :
    ∀ fuel p cur bws size off mem bp,
      size < fuel → p ≤ j →
      cur ≤ x → x < cur + size →
      (p + 1 < bs.length → cur < (blk bs (p + 1)).virt) →
      bws = min ((blk bs (p + 1)).virt - cur) size →
      ∃ i, i < bs.length ∧ (blk bs i).Unmapped = true ∧
        (mmWriteGo bs src fuel p bp bws size off mem).2
          = .pageFault ((blk bs i).virt) := by
  intro fuel
  induction fuel with
  | zero =>
    intro p cur bws size off mem bp h1
    omega
  | succ n ih =>
    intro p cur bws size off mem bp h1 hpj hcx hxs hcur hbws
    cases size with
    | zero => omega
    | succ m =>
      by_cases hphys : (blk bs p).phys = 0
      · exact ⟨p, by omega, by simp [Block.Unmapped, hphys],
          by rw [mmWriteGo]; simp [hphys]⟩
      · have hpj2 : p < j := by
          rcases Nat.lt_or_ge p j with h | h
          · exact h
          · have hpe : p = j := by omega
            rw [hpe] at hphys
            simp [Block.Unmapped] at hju
            exact absurd hju hphys
        have hp1len : p + 1 < bs.length := by omega
        have hclt : cur < (blk bs (p + 1)).virt := hcur hp1len
        have hfit : (blk bs (p + 1)).virt - cur ≤ m + 1 := by
          by_contra hcon
          push_neg at hcon
          have hle : (blk bs (p + 1)).virt ≤ (blk bs j).virt :=
            sorted_le hs (by omega) hj
          omega
        have hbwsv : bws = (blk bs (p + 1)).virt - cur := by
          rw [hbws]
          omega
        have hbws0 : ¬ bws = 0 := by omega
        obtain ⟨i, hi1, hi2, hi3⟩ := ih (p + 1) ((blk bs (p + 1)).virt)
          (min ((blk bs (p + 1 + 1)).virt - (blk bs (p + 1)).virt) (m + 1 - bws))
          (m + 1 - bws) (off + bws)
          (if (blk bs p).extraInfo.sparseMapped then mem
            else copyOut mem bp src off bws)
          ((blk bs (p + 1)).phys)
          (by omega) (by omega)
          (by have := sorted_le hs (by omega : p + 1 ≤ j) hj; omega)
          (by omega)
          (fun h2 => sorted_lt hs (by omega) h2)
          rfl
        refine ⟨i, hi1, hi2, ?_⟩
        rw [mmWriteGo, if_neg hphys, if_neg hbws0]
        exact hi3

/-- C8 (amended).  Over a sorted map whose first block sits at the space
origin, every Read and every Write whose virtual range contains a position
resolving to an unbacked block fails with a page-fault error — the
operation aborts with no demand paging or retry, as in the source, where
the exception unwinds the call — and the address the error carries is the
base virtual address of an unbacked block of the map (the block containing
the faulting position), not necessarily the exact faulting address inside
the requested range. -/
theorem C8_amended (bs : List Block) (mem : Nat → Nat) (virt size : Nat)
    (dest src : Nat → Nat) (x : Nat)
    (hs : BlocksSorted bs) (hlen : 0 < bs.length) (h0 : (blk bs 0).virt = 0)
    (hx1 : virt ≤ x) (hx2 : x < virt + size)
    (hxu : (queryBlock bs x).Unmapped = true) :
    (∃ i, i < bs.length ∧ (blk bs i).Unmapped = true ∧
      (mmRead bs mem virt size dest).2 = .pageFault ((blk bs i).virt))
    ∧ (∃ i, i < bs.length ∧ (blk bs i).Unmapped = true ∧
      (mmWrite bs mem virt src size).2 = .pageFault ((blk bs i).virt)) := by
  set j := upperBoundIdx bs x - 1 with hjdef
  have hubx : 0 < upperBoundIdx bs x := upperBound_pos bs x hlen (by omega)
  have hjs : upperBoundIdx bs x = j + 1 := by omega
  have hjlen : j < bs.length := by
    have := upperBound_le_length bs x
    omega
  have hjx : (blk bs j).virt ≤ x := upperBound_le bs x (by omega)
  have hju : (blk bs j).Unmapped = true := hxu
  have hubv : 0 < upperBoundIdx bs virt := upperBound_pos bs virt hlen (by omega)
  have hple : upperBoundIdx bs virt ≤ bs.length := upperBound_le_length bs virt
  have hpj : upperBoundIdx bs virt - 1 ≤ j := by
    by_contra hcon
    push_neg at hcon
    have h1 : j + 1 < upperBoundIdx bs virt := by omega
    have h2 : (blk bs (j + 1)).virt ≤ virt := upperBound_le bs virt h1
    have h3 : j + 1 < bs.length := by omega
    have h4 := upperBound_gt bs x (by omega)
    rw [hjs] at h4
    omega
  have hcurv : ∀ h2 : upperBoundIdx bs virt - 1 + 1 < bs.length,
      virt < (blk bs (upperBoundIdx bs virt - 1 + 1)).virt := by
    intro h2
    have hs2 : upperBoundIdx bs virt - 1 + 1 = upperBoundIdx bs virt := by omega
    rw [hs2] at h2 ⊢
    exact upperBound_gt bs virt h2
  have hbrsv : min ((blk bs (upperBoundIdx bs virt)).virt - virt) size
      = min ((blk bs (upperBoundIdx bs virt - 1 + 1)).virt - virt) size := by
    rw [show upperBoundIdx bs virt - 1 + 1 = upperBoundIdx bs virt from by omega]
  constructor
  · obtain ⟨i, h1, h2, h3⟩ := mmReadGo_hits bs mem x j hs hjlen hju hjx
      (size + 1) (upperBoundIdx bs virt - 1) virt
      (min ((blk bs (upperBoundIdx bs virt)).virt - virt) size) size 0 dest
      ((blk bs (upperBoundIdx bs virt - 1)).phys
        + (virt - (blk bs (upperBoundIdx bs virt - 1)).virt))
      (by omega) hpj hx1 hx2 hcurv hbrsv
    exact ⟨i, h1, h2, h3⟩
  · obtain ⟨i, h1, h2, h3⟩ := mmWriteGo_hits bs src x j hs hjlen hju hjx
      (size + 1) (upperBoundIdx bs virt - 1) virt
      (min ((blk bs (upperBoundIdx bs virt)).virt - virt) size) size 0 mem
      ((blk bs (upperBoundIdx bs virt - 1)).phys
        + (virt - (blk bs (upperBoundIdx bs virt - 1)).virt))
      (by omega) hpj hx1 hx2 hcurv hbrsv
    exact ⟨i, h1, h2, h3⟩

/-- C8 witness: the amended theorem applied at the counterexample state,
where a 4-byte read and write at 0x1005 cover the unbacked block based at
0x1000 and must fault. -/
theorem C8_amended_witness :
    (∃ i, i < ([⟨0, 0, ⟨false⟩⟩, ⟨0x800, 5, ⟨false⟩⟩,
        ⟨0x1000, 0, ⟨false⟩⟩] : List Block).length
      ∧ (blk [⟨0, 0, ⟨false⟩⟩, ⟨0x800, 5, ⟨false⟩⟩, ⟨0x1000, 0, ⟨false⟩⟩] i).Unmapped
          = true
      ∧ (mmRead [⟨0, 0, ⟨false⟩⟩, ⟨0x800, 5, ⟨false⟩⟩, ⟨0x1000, 0, ⟨false⟩⟩]
          (fun _ => 0) 0x1005 4 (fun _ => 0)).2
        = .pageFault ((blk [⟨0, 0, ⟨false⟩⟩, ⟨0x800, 5, ⟨false⟩⟩,
            ⟨0x1000, 0, ⟨false⟩⟩] i).virt))
    ∧ (∃ i, i < ([⟨0, 0, ⟨false⟩⟩, ⟨0x800, 5, ⟨false⟩⟩,
        ⟨0x1000, 0, ⟨false⟩⟩] : List Block).length
      ∧ (blk [⟨0, 0, ⟨false⟩⟩, ⟨0x800, 5, ⟨false⟩⟩, ⟨0x1000, 0, ⟨false⟩⟩] i).Unmapped
          = true
      ∧ (mmWrite [⟨0, 0, ⟨false⟩⟩, ⟨0x800, 5, ⟨false⟩⟩, ⟨0x1000, 0, ⟨false⟩⟩]
          (fun _ => 0) 0x1005 (fun _ => 0) 4).2
        = .pageFault ((blk [⟨0, 0, ⟨false⟩⟩, ⟨0x800, 5, ⟨false⟩⟩,
            ⟨0x1000, 0, ⟨false⟩⟩] i).virt)) :=
  C8_amended [⟨0, 0, ⟨false⟩⟩, ⟨0x800, 5, ⟨false⟩⟩, ⟨0x1000, 0, ⟨false⟩⟩]
    (fun _ => 0) 0x1005 4 (fun _ => 0) (fun _ => 0) 0x1005
    (by decide) (by decide) (by decide) (by decide) (by decide) (by decide)

/-! ## Claim C10: a faulting Read leaves the already-copied prefix -/

/-- The byte a read of address `addr` delivers: zero for a sparse covering
block, otherwise the backing byte at the translated position. -/
def byteAt (bs : List Block) (mem : Nat → Nat) (addr : Nat) : Nat :=
  if (queryBlock bs addr).extraInfo.sparseMapped then 0
  else mem ((queryBlock bs addr).phys + (addr - (queryBlock bs addr).virt))

/-- Bytes outside the written window of one Read-loop step are unchanged. -/
theorem writeStep_frame (cond : Bool) (dest : Nat → Nat) (off brs : Nat)
    (mem : Nat → Nat) (bp j : Nat) (h : j < off ∨ off + brs ≤ j) :
    (if cond then setZeros dest off brs else copyIn dest off mem bp brs) j = dest j := by
  cases cond
  · show copyIn dest off mem bp brs j = dest j
    rw [copyIn]
    exact if_neg (by omega)
  · show setZeros dest off brs j = dest j
    rw [setZeros]
    exact if_neg (by omega)

/-- The byte one Read-loop step writes at window offset `t`. -/
theorem writeStep_value (cond : Bool) (dest : Nat → Nat) (off brs : Nat)
    (mem : Nat → Nat) (bp t : Nat) (h : t < brs) :
    (if cond then setZeros dest off brs else copyIn dest off mem bp brs) (off + t)
      = (if cond then 0 else mem (bp + t)) := by
  cases cond
  · show copyIn dest off mem bp brs (off + t) = mem (bp + t)
    rw [copyIn, if_pos (by omega)]
    congr 1
    omega
  · show setZeros dest off brs (off + t) = 0
    rw [setZeros]
    exact if_pos (by omega)

theorem mmReadGo_size0 (bs : List Block) (mem : Nat → Nat) (fuel p bp brs off : Nat)
    (dest : Nat → Nat) : mmReadGo bs mem (fuel + 1) p bp brs 0 off dest = (dest, .ok) := rfl

/-- Loop lemma for C10: when the Read loop faults, the destination holds the
bytes of every sub-range resolved before the fault (positions `pos` up to at
least the reported fault address), and every byte outside that window is
untouched. -/
theorem mmReadGo_partial (bs : List Block) (mem : Nat → Nat) (hs : BlocksSorted bs) :
    ∀ fuel p bp brs size off dest dest2 a pos,
      mmReadGo bs mem fuel p bp brs size off dest = (dest2, .pageFault a) →
      p < bs.length →
      (blk bs p).virt ≤ pos →
      bp = (blk bs p).phys + (pos - (blk bs p).virt) →
      brs = min ((blk bs (p + 1)).virt - pos) size →
      ∃ m, m ≤ size ∧ a ≤ pos + m ∧
        (∀ t, t < m → dest2 (off + t) = byteAt bs mem (pos + t)) ∧
        (∀ j, j < off → dest2 j = dest j) ∧
        (∀ j, off + m ≤ j → dest2 j = dest j) := by
  intro fuel
  induction fuel with
  | zero =>
    intro p bp brs size off dest dest2 a pos h
    simp [mmReadGo] at h
  | succ n ih =>
    intro p bp brs size off dest dest2 a pos h hp hpv hbp hbrs
    cases size with
    | zero => simp [mmReadGo] at h
    | succ szm =>
      simp only [mmReadGo] at h
      split at h
      · -- page fault at entry: nothing was copied in this step
        rename_i hphys
        simp only [Prod.mk.injEq, AccessResult.pageFault.injEq] at h
        obtain ⟨hd, ha⟩ := h
        subst hd
        exact ⟨0, by omega, by omega, fun t ht => absurd ht (Nat.not_lt_zero t),
          fun j _ => rfl, fun j _ => rfl⟩
      · split at h
        · simp at h
        · rename_i hphys hbrs0
          rcases n with _ | n2
          · simp [mmReadGo] at h
          · by_cases hsz : szm + 1 - brs = 0
            · rw [hsz] at h
              rw [mmReadGo_size0] at h
              simp at h
            · have hbrsle : brs ≤ szm + 1 := by omega
              have hbrseq : brs = (blk bs (p + 1)).virt - pos := by omega
              have hnext : pos < (blk bs (p + 1)).virt := by omega
              have hp2 : p + 1 < bs.length := by
                by_contra hcon
                rw [blk_default (by omega)] at hnext
                simp at hnext
              obtain ⟨m2, hm2le, ham2, hcopy2, hfr1, hfr2⟩ :=
                ih (p + 1) (blk bs (p + 1)).phys _ _ _ _ dest2 a (blk bs (p + 1)).virt
                  h hp2 (Nat.le_refl _) (by omega) rfl
              have hposbrs : pos + brs = (blk bs (p + 1)).virt := by omega
              refine ⟨brs + m2, by omega, by omega, ?_, ?_, ?_⟩
              · intro t ht
                rcases Nat.lt_or_ge t brs with htb | htb
                · have hj := hfr1 (off + t) (by omega)
                  rw [hj, writeStep_value _ _ _ _ _ _ _ htb]
                  have hq : queryBlock bs (pos + t) = blk bs p :=
                    queryBlock_eq hs hp (by omega) (by omega)
                  rw [byteAt, hq]
                  cases hspq : (blk bs p).extraInfo.sparseMapped
                  · rw [if_neg (by simp), if_neg (by simp)]
                    congr 1
                    omega
                  · rw [if_pos rfl, if_pos rfl]
                · have : off + t = off + brs + (t - brs) := by omega
                  rw [this, hcopy2 (t - brs) (by omega)]
                  congr 1
                  omega
              · intro j hj
                rw [hfr1 j (by omega), writeStep_frame _ _ _ _ _ _ _ (by omega)]
              · intro j hj
                rw [hfr2 j (by omega), writeStep_frame _ _ _ _ _ _ _ (by omega)]

/-- C10 (confirmed).  When a Read faults partway through its range, every
byte of the range that lies before the reported fault address (the base of
the unbacked block that stopped the scan) has already been copied into the
destination buffer — zero-filled for sparse sub-ranges, backing bytes
otherwise — and the rest of the destination is untouched: the read is not
atomic on failure and the caller observes a partially filled destination. -/
theorem C10_read_partial (bs : List Block) (mem : Nat → Nat) (virt size : Nat)
    (dest dest2 : Nat → Nat) (a : Nat)
    (hs : BlocksSorted bs) (hlen : 0 < bs.length) (h0 : (blk bs 0).virt = 0)
    (h : mmRead bs mem virt size dest = (dest2, .pageFault a)) :
    ∃ m, m ≤ size ∧ a ≤ virt + m ∧
      (∀ t, t < m → dest2 t = byteAt bs mem (virt + t)) ∧
      (∀ j, m ≤ j → dest2 j = dest j) := by
  rw [mmRead] at h
  have hub : 0 < upperBoundIdx bs virt := upperBound_pos bs virt hlen (by omega)
  have hple : upperBoundIdx bs virt ≤ bs.length := upperBound_le_length bs virt
  have hs1 : upperBoundIdx bs virt - 1 + 1 = upperBoundIdx bs virt := by omega
  have hpv : (blk bs (upperBoundIdx bs virt - 1)).virt ≤ virt :=
    upperBound_le bs virt (by omega)
  obtain ⟨m, hmle, ham, hcopy, _, hfr2⟩ :=
    mmReadGo_partial bs mem hs (size + 1) (upperBoundIdx bs virt - 1) _ _ _ 0 dest dest2
      a virt h (by omega) hpv rfl (by rw [hs1])
  exact ⟨m, hmle, ham,
    fun t ht => by simpa using hcopy t ht,
    fun j hj => hfr2 j (by omega)⟩

/-- A multi-block state for the C10 witness: mapped block over `[4, 8)`,
unbacked from `8`. -/
def c10Blocks : List Block := [⟨0, 0, ⟨false⟩⟩, ⟨4, 100, ⟨false⟩⟩, ⟨8, 0, ⟨false⟩⟩]

/-- C10 witness: a 6-byte read at 5 faults at the unbacked block base 8 after
copying the 3 preceding bytes. -/
theorem C10_read_partial_witness :
    ∃ m, m ≤ 6 ∧ 8 ≤ 5 + m ∧
      (∀ t, t < m → (mmRead c10Blocks (fun a => a) 5 6 (fun _ => 77)).1 t
          = byteAt c10Blocks (fun a => a) (5 + t)) ∧
      (∀ j, m ≤ j → (mmRead c10Blocks (fun a => a) 5 6 (fun _ => 77)).1 j
          = (fun _ => 77 : Nat → Nat) j) :=
  C10_read_partial c10Blocks (fun a => a) 5 6 (fun _ => 77)
    (mmRead c10Blocks (fun a => a) 5 6 (fun _ => 77)).1 8
    (by decide) (by decide) (by decide)
    (by rw [Prod.ext_iff]; exact ⟨rfl, by decide⟩)

/-! ## Claim C1 (amended): splice infrastructure -/

/-- The state invariant of the address-space map: strictly sorted blocks,
nonempty, the first block pinned at the space origin, the final block
unmapped. -/
structure ASInv (bs : List Block) : Prop where
  sorted : BlocksSorted bs
  nonempty : 0 < bs.length
  head0 : blk bs 0 = ⟨0, 0, ⟨false⟩⟩
  lastU : (blk bs (bs.length - 1)).Unmapped = true

theorem initBlocks_inv : ASInv initBlocks :=
  ⟨by decide, by decide, by decide, by decide⟩

theorem getLast?_take_eq {bs : List Block} {i : Nat} (h1 : 0 < i) (h2 : i ≤ bs.length) :
    (bs.take i).getLast? = some (blk bs (i - 1)) := by
  rw [List.getLast?_eq_getElem?, List.length_take, List.getElem?_take,
    if_pos (by omega), show min i bs.length - 1 = i - 1 by omega]
  exact getElem?_eq_blk (by omega)

theorem head?_drop_eq {bs : List Block} {j : Nat} (h : j < bs.length) :
    (bs.drop j).head? = some (blk bs j) := by
  rw [List.head?_drop]
  exact getElem?_eq_blk h

/-- Master sortedness lemma: splicing `xs` over the index window `[i, j)` of
a sorted vector stays sorted given the two boundary inequalities. -/
theorem sorted_splice {bs xs : List Block} {i j : Nat}
    (hs : BlocksSorted bs) (hij : i ≤ j) (hjl : j ≤ bs.length)
    (hxs : BlocksSorted xs)
    (hleft : 0 < i → ∀ x ∈ xs.head?, (blk bs (i - 1)).virt < x.virt)
    (hright : j < bs.length → ∀ x ∈ xs.getLast?, x.virt < (blk bs j).virt)
    (hskip : xs = [] → 0 < i → j < bs.length → (blk bs (i - 1)).virt < (blk bs j).virt) :
    BlocksSorted (bs.take i ++ xs ++ bs.drop j) := by
  have hij2 : i ≤ bs.length := by omega
  rw [BlocksSorted, List.chain'_append, List.chain'_append]
  refine ⟨⟨hs.sublist (List.take_sublist i bs), hxs, ?_⟩,
    hs.sublist (List.drop_sublist j bs), ?_⟩
  · intro x hx y hy
    rcases Nat.eq_zero_or_pos i with hi | hi
    · subst hi
      simp at hx
    · rw [getLast?_take_eq hi hij2] at hx
      simp only [Option.mem_def, Option.some.injEq] at hx
      subst hx
      exact hleft hi y hy
  · intro x hx y hy
    have hjlt : j < bs.length := by
      by_contra hcon
      rw [List.drop_eq_nil_of_le (by omega)] at hy
      simp at hy
    rw [head?_drop_eq hjlt] at hy
    have hy2 : blk bs j = y := by simpa using hy
    subst hy2
    rcases hxe : xs.getLast? with _ | z
    · have hxe2 : xs = [] := List.getLast?_eq_none_iff.mp hxe
      rw [List.getLast?_append, hxe] at hx
      simp only [Option.none_or] at hx
      have hi : 0 < i := by
        by_contra hcon
        rw [show i = 0 by omega] at hx
        simp at hx
      rw [getLast?_take_eq hi hij2] at hx
      have hx2 : blk bs (i - 1) = x := by simpa using hx
      rw [← hx2]
      exact hskip hxe2 hi hjlt
    · rw [List.getLast?_append, hxe] at hx
      have hx2 : z = x := by
        simpa [Option.or] using hx
      rw [← hx2]
      exact hright hjlt z (Option.mem_def.mpr hxe)

theorem eraseRange_splice {α : Type} (bs : List α) (i j : Nat) :
    eraseRange bs i j = bs.take i ++ [] ++ bs.drop j := by
  simp [eraseRange]

theorem set_splice {bs : List Block} {k : Nat} (b : Block) (h : k < bs.length) :
    bs.set k b = bs.take k ++ [b] ++ bs.drop (k + 1) := by
  rw [List.set_eq_take_append_cons_drop, if_pos h]
  simp

theorem eraseSet_splice {bs : List Block} {ss es : Nat} (b : Block)
    (h1 : ss < bs.length) (_h2 : ss < es) :
    (eraseRange bs (ss + 1) es).set ss b = bs.take ss ++ [b] ++ bs.drop es := by
  rw [eraseRange, List.set_append, if_pos (by rw [List.length_take]; omega),
    List.set_eq_take_append_cons_drop, if_pos (by rw [List.length_take]; omega),
    List.take_take, List.drop_take, show ss + 1 - (ss + 1) = 0 by omega]
  simp [Nat.min_eq_left (by omega : ss ≤ ss + 1)]

theorem length_splice {bs xs : List Block} {i j : Nat} (hi : i ≤ bs.length) :
    (bs.take i ++ xs ++ bs.drop j).length = i + xs.length + (bs.length - j) := by
  simp [List.length_append, List.length_take, List.length_drop]
  omega

theorem blk_splice_lt {bs xs : List Block} {i j k : Nat}
    (h : i ≤ bs.length) (hk : k < i) :
    blk (bs.take i ++ xs ++ bs.drop j) k = blk bs k := by
  have h1 : (List.take i bs).length = i := by rw [List.length_take]; omega
  have h2 : (List.take i bs ++ xs).length = i + xs.length := by
    rw [List.length_append, h1]
  rw [blk_eq_getElem, getElem?_append_split (List.take i bs ++ xs) (List.drop j bs) k,
    h2, if_pos (by omega), List.getElem?_append, h1, if_pos hk,
    List.getElem?_take, if_pos hk, ← blk_eq_getElem]

theorem blk_splice_mid {bs xs : List Block} {i j k : Nat}
    (h : i ≤ bs.length) (hk : k < xs.length) :
    blk (bs.take i ++ xs ++ bs.drop j) (i + k) = blk xs k := by
  have h1 : (List.take i bs).length = i := by rw [List.length_take]; omega
  have h2 : (List.take i bs ++ xs).length = i + xs.length := by
    rw [List.length_append, h1]
  rw [blk_eq_getElem,
    getElem?_append_split (List.take i bs ++ xs) (List.drop j bs) (i + k),
    h2, if_pos (by omega), List.getElem?_append, h1, if_neg (by omega),
    Nat.add_sub_cancel_left, ← blk_eq_getElem]

theorem blk_splice_ge {bs xs : List Block} {i j k : Nat}
    (h : i ≤ bs.length) (hk : i ≤ k) :
    blk (bs.take i ++ xs ++ bs.drop j) (k + xs.length) = blk bs (j + (k - i)) := by
  have h1 : (List.take i bs).length = i := by rw [List.length_take]; omega
  have h2 : (List.take i bs ++ xs).length = i + xs.length := by
    rw [List.length_append, h1]
  rw [blk_eq_getElem,
    getElem?_append_split (List.take i bs ++ xs) (List.drop j bs) (k + xs.length),
    h2, if_neg (by omega), List.getElem?_drop, ← blk_eq_getElem]
  congr 1
  omega

theorem head0_splice {bs xs : List Block} {i j : Nat}
    (hi : i ≤ bs.length) (hpos : 0 < i) (h0 : blk bs 0 = ⟨0, 0, ⟨false⟩⟩) :
    blk (bs.take i ++ xs ++ bs.drop j) 0 = ⟨0, 0, ⟨false⟩⟩ := by
  rw [blk_splice_lt hi hpos]
  exact h0

theorem lastU_splice {bs xs : List Block} {i j : Nat}
    (hi : i ≤ bs.length) (_hij : i ≤ j) (hj : j < bs.length)
    (hU : (blk bs (bs.length - 1)).Unmapped = true) :
    (blk (bs.take i ++ xs ++ bs.drop j)
      ((bs.take i ++ xs ++ bs.drop j).length - 1)).Unmapped = true := by
  have hlen := @length_splice bs xs i j hi
  have h1 := @blk_splice_ge bs xs i j (i + (bs.length - 1 - j)) hi (by omega)
  rw [show i + (bs.length - 1 - j) + xs.length = (bs.take i ++ xs ++ bs.drop j).length - 1
      by omega] at h1
  rw [h1, show j + (i + (bs.length - 1 - j) - i) = bs.length - 1 by omega]
  exact hU

/-- ASInv is preserved by every successful outcome of MapLocked's phase 2. -/
theorem mapPhase2_inv {bs : List Block} {virt virtEnd phys : Nat} {extra : ExtraBlockInfo}
    {es : Nat} {bs2 : List Block}
    (hinv : ASInv bs) (hes : es < bs.length) (hvirt : (blk bs es).virt = virtEnd)
    (hv : 0 < virt) (hvlt : virt < virtEnd)
    (hok : mapPhase2 bs virt virtEnd phys extra es = .ok bs2) : ASInv bs2 := by
  have hlen := hinv.nonempty
  have h0v : (blk bs 0).virt = 0 := by rw [hinv.head0]
  have hes0 : 0 < es := by
    rcases Nat.eq_zero_or_pos es with h | h
    · rw [h] at hvirt
      omega
    · exact h
  have hss_le : walkBack bs virt es ≤ es := walkBack_le bs virt es
  have hss_pos : 0 < walkBack bs virt es := walkBack_pos bs virt es (by omega) (by omega)
  have hss_pred : (blk bs (walkBack bs virt es - 1)).virt < virt :=
    walkBack_pred bs virt es hss_pos
  set ss := walkBack bs virt es with hssdef
  simp only [mapPhase2, ← hssdef] at hok
  split at hok
  · simp at hok
  · split at hok
    · rename_i hlt heq
      injection hok with hok
      subst hok
      refine ⟨?_, ?_, ?_, ?_⟩
      · exact sorted_splice hinv.sorted (Nat.le_refl ss) (by omega)
          (List.chain'_singleton _)
          (fun _ x hx => by
            have hxx : (⟨virt, phys, extra⟩ : Block) = x := by simpa using hx
            rw [← hxx]
            exact hss_pred)
          (fun hjlt x hx => by
            have hxx : (⟨virt, phys, extra⟩ : Block) = x := by simpa using hx
            rw [← hxx]
            show virt < (blk bs ss).virt
            omega)
          (fun hemp => by simp at hemp)
      · rw [length_insertAt _ _ _ (by omega)]
        omega
      · exact head0_splice (by omega) hss_pos hinv.head0
      · have := @lastU_splice bs [⟨virt, phys, extra⟩] ss ss
          (by omega) (Nat.le_refl ss) (by omega) hinv.lastU
        simpa [insertAt] using this
    · rename_i hlt hne
      injection hok with hok
      subst hok
      have hss_lt : ss < es := by
        rcases Nat.lt_or_ge ss es with h | h
        · exact h
        · have : ss = es := by omega
          rw [this] at hne
          exact absurd hvirt hne
      rw [eraseSet_splice _ (by omega) hss_lt]
      refine ⟨?_, ?_, ?_, ?_⟩
      · exact sorted_splice hinv.sorted (by omega) (by omega)
          (List.chain'_singleton _)
          (fun _ x hx => by
            have hxx : (⟨virt, phys, extra⟩ : Block) = x := by simpa using hx
            rw [← hxx]
            exact hss_pred)
          (fun hjlt x hx => by
            have hxx : (⟨virt, phys, extra⟩ : Block) = x := by simpa using hx
            rw [← hxx]
            show virt < (blk bs es).virt
            omega)
          (fun hemp => by simp at hemp)
      · rw [length_splice (by omega)]
        omega
      · exact head0_splice (by omega) hss_pos hinv.head0
      · exact lastU_splice (by omega) (by omega) (by omega) hinv.lastU


theorem lastU_splice_end (bs xs : List Block) (i j : Nat)
    (hi : i ≤ bs.length) (hj : bs.length ≤ j) (hx : 0 < xs.length)
    (hU : (blk xs (xs.length - 1)).Unmapped = true) :
    (blk (bs.take i ++ xs ++ bs.drop j)
      ((bs.take i ++ xs ++ bs.drop j).length - 1)).Unmapped = true := by
  have hlen := @length_splice bs xs i j hi
  have h1 := @blk_splice_mid bs xs i j (xs.length - 1) hi (by omega)
  rw [show (bs.take i ++ xs ++ bs.drop j).length - 1 = i + (xs.length - 1) by
    rw [hlen]; omega, h1]
  exact hU

/-- ASInv is preserved by every successful MapLocked call with a positive
start address and size. -/
theorem mapLocked_inv {vaLimit : Nat} {pc : Bool} {bs : List Block}
    {virt phys size : Nat} {extra : ExtraBlockInfo} {bs2 : List Block}
    (hinv : ASInv bs) (hv : 0 < virt) (hsz : 0 < size)
    (hok : mapLocked vaLimit pc bs virt phys size extra = .ok bs2) : ASInv bs2 := by
  have hlen := hinv.nonempty
  have h0v : (blk bs 0).virt = 0 := by rw [hinv.head0]
  have hile := lowerBound_le_length bs (virt + size)
  set i := lowerBoundIdx bs (virt + size) with hidef
  have hilt : ∀ k, k < i → (blk bs k).virt < virt + size :=
    fun k hk => lowerBound_lt bs _ hk
  simp only [mapLocked, ← hidef] at hok
  split at hok
  · simp at hok
  · split at hok
    · simp at hok
    · rename_i hi0
      split at hok
      · rename_i hilen
        have hige : virt + size ≤ (blk bs i).virt := lowerBound_ge bs _ (by omega)
        split at hok
        · rename_i hine
          split at hok
          · -- M1: reuse end predecessor as tail, then phase 2
            rename_i hvp
            have hpred1 : 1 ≤ i - 1 := by
              rcases Nat.eq_zero_or_pos (i - 1) with h | h
              · rw [h] at hvp
                omega
              · omega
            have hinv2 : ASInv (bs.set (i - 1)
                ⟨virt + size,
                 if !pc || (blk bs (i - 1)).Unmapped then (blk bs (i - 1)).phys
                 else (blk bs (i - 1)).phys + (virt + size) - (blk bs (i - 1)).virt,
                 (blk bs (i - 1)).extraInfo⟩) := by
              rw [set_splice _ (by omega)]
              refine ⟨?_, ?_, ?_, ?_⟩
              · exact sorted_splice hinv.sorted (by omega) (by omega)
                  (List.chain'_singleton _)
                  (fun _ x hx => by
                    rw [mem_head_single hx]
                    exact hilt (i - 1 - 1) (by omega))
                  (fun hjlt x hx => by
                    rw [mem_last_single hx]
                    show virt + size < (blk bs (i - 1 + 1)).virt
                    rw [show i - 1 + 1 = i by omega]
                    omega)
                  (fun hemp => by simp at hemp)
              · rw [length_splice (by omega)]
                omega
              · exact head0_splice (by omega) (by omega) hinv.head0
              · exact @lastU_splice bs
                  [⟨virt + size,
                    if !pc || (blk bs (i - 1)).Unmapped then (blk bs (i - 1)).phys
                    else (blk bs (i - 1)).phys + (virt + size) - (blk bs (i - 1)).virt,
                    (blk bs (i - 1)).extraInfo⟩]
                  (i - 1) (i - 1 + 1) (by omega) (by omega) (by omega) hinv.lastU
            refine mapPhase2_inv hinv2 ?_ ?_ hv (by omega) hok
            · rw [List.length_set]
              omega
            · rw [blk_set_self _ (by omega)]
          · -- M2: insert fresh head and tail before the successor
            rename_i hvp
            injection hok with hok
            subst hok
            refine ⟨?_, ?_, ?_, ?_⟩
            · exact sorted_splice hinv.sorted (Nat.le_refl i) (by omega)
                (by
                  show List.Chain' _ [_, _]
                  refine List.chain'_cons.mpr ⟨?_, List.chain'_singleton _⟩
                  show virt < virt + size
                  omega)
                (fun _ x hx => by
                  rw [mem_head_single hx]
                  show (blk bs (i - 1)).virt < virt
                  omega)
                (fun hjlt x hx => by
                  rw [mem_last_pair hx]
                  show virt + size < (blk bs i).virt
                  omega)
                (fun hemp => by simp at hemp)
            · rw [length_insertAt _ _ _ (by omega)]
              omega
            · exact head0_splice (by omega) (by omega) hinv.head0
            · exact @lastU_splice bs
                [⟨virt, phys, extra⟩,
                 ⟨virt + size,
                  if !pc || (blk bs (i - 1)).Unmapped then (blk bs (i - 1)).phys
                  else (blk bs (i - 1)).phys + (virt + size) - (blk bs (i - 1)).virt,
                  (blk bs (i - 1)).extraInfo⟩]
                i i (by omega) (Nat.le_refl i) (by omega) hinv.lastU
        · -- M3: the successor starts exactly at the end point
          rename_i hieq
          rw [not_not] at hieq
          exact mapPhase2_inv hinv (by omega) hieq hv (by omega) hok
      · rename_i hilen
        rw [not_not] at hilen
        split at hok
        · -- M4: move the final unmapped block's start backwards, then phase 2
          rename_i hvp
          obtain ⟨hpred0, hvple⟩ := hvp
          have hinv2 : ASInv (bs.set (i - 1)
              ⟨virt + size, (blk bs (i - 1)).phys, (blk bs (i - 1)).extraInfo⟩) := by
            rw [set_splice _ (by omega)]
            refine ⟨?_, ?_, ?_, ?_⟩
            · exact sorted_splice hinv.sorted (by omega) (by omega)
                (List.chain'_singleton _)
                (fun _ x hx => by
                  rw [mem_head_single hx]
                  exact hilt (i - 1 - 1) (by omega))
                (fun hjlt x hx => by omega)
                (fun hemp => by simp at hemp)
            · rw [length_splice (by omega)]
              omega
            · exact head0_splice (by omega) (by omega) hinv.head0
            · have hU := hinv.lastU
              rw [show bs.length - 1 = i - 1 by omega] at hU
              exact lastU_splice_end bs
                [⟨virt + size, (blk bs (i - 1)).phys, (blk bs (i - 1)).extraInfo⟩]
                (i - 1) (i - 1 + 1) (by omega) (by omega) (by simp) hU
          refine mapPhase2_inv hinv2 ?_ ?_ hv (by omega) hok
          · rw [List.length_set]
            omega
          · rw [blk_set_self _ (by omega)]
        · -- M5: append head and fresh trailing sentinel at the very end
          rename_i hvp
          injection hok with hok
          subst hok
          have hlast_lt : (blk bs (i - 1)).virt < virt := by
            rcases Nat.eq_zero_or_pos (i - 1) with h | h
            · rw [h]
              omega
            · rcases not_and_or.mp hvp with h2 | h2
              · omega
              · omega
          refine ⟨?_, ?_, ?_, ?_⟩
          · exact sorted_splice hinv.sorted (Nat.le_refl i) (by omega)
              (by
                show List.Chain' _ [_, _]
                refine List.chain'_cons.mpr ⟨?_, List.chain'_singleton _⟩
                show virt < virt + size
                omega)
              (fun _ x hx => by
                rw [mem_head_single hx]
                exact hlast_lt)
              (fun hjlt x hx => by omega)
              (fun hemp => by simp at hemp)
          · rw [length_insertAt _ _ _ (by omega)]
            omega
          · exact head0_splice (by omega) (by omega) hinv.head0
          · exact lastU_splice_end bs
              [⟨virt, phys, extra⟩, ⟨virt + size, 0, ⟨false⟩⟩]
              i i (by omega) (by omega) (by simp) rfl

/-- ASInv is preserved by every successful outcome of UnmapLocked's phase 2. -/
theorem unmapPhase2_inv {bs : List Block} {virt virtEnd : Nat} {es : Nat} {bs2 : List Block}
    (hinv : ASInv bs) (hes : es < bs.length) (hvirt : (blk bs es).virt = virtEnd)
    (hv : 0 < virt) (hvlt : virt < virtEnd)
    (hok : unmapPhase2 bs virt virtEnd es = .ok bs2) : ASInv bs2 := by
  have hlen := hinv.nonempty
  have h0v : (blk bs 0).virt = 0 := by rw [hinv.head0]
  have hes0 : 0 < es := by
    rcases Nat.eq_zero_or_pos es with h | h
    · rw [h] at hvirt
      omega
    · exact h
  have hss_le : walkBack bs virt es ≤ es := walkBack_le bs virt es
  have hss_pos : 0 < walkBack bs virt es := walkBack_pos bs virt es (by omega) (by omega)
  have hss_pred : (blk bs (walkBack bs virt es - 1)).virt < virt :=
    walkBack_pred bs virt es hss_pos
  set ss := walkBack bs virt es with hssdef
  simp only [unmapPhase2, ← hssdef] at hok
  split at hok
  · simp at hok
  · split at hok
    · split at hok
      · -- start predecessor mapped: insert an unmapped head at the boundary
        rename_i hlt heq hm
        injection hok with hok
        subst hok
        refine ⟨?_, ?_, ?_, ?_⟩
        · exact sorted_splice hinv.sorted (Nat.le_refl ss) (by omega)
            (List.chain'_singleton _)
            (fun _ x hx => by
              rw [mem_head_single hx]
              exact hss_pred)
            (fun hjlt x hx => by
              rw [mem_last_single hx]
              show virt < (blk bs ss).virt
              omega)
            (fun hemp => by simp at hemp)
        · rw [length_insertAt _ _ _ (by omega)]
          omega
        · exact head0_splice (by omega) hss_pos hinv.head0
        · have := @lastU_splice bs [⟨virt, 0, ⟨false⟩⟩] ss ss
            (by omega) (Nat.le_refl ss) (by omega) hinv.lastU
          simpa [insertAt] using this
      · -- whole region already unmapped: the vector is unchanged
        injection hok with hok
        subst hok
        exact hinv
    · split at hok
      · -- start predecessor unmapped: erase the index window [ss, es - 1)
        split at hok
        · simp at hok
        · rename_i hlt hne hspU hguard
          injection hok with hok
          subst hok
          have hss_lt : ss < es := by
            rcases Nat.lt_or_ge ss es with h | h
            · exact h
            · have h2 : ss = es := by omega
              rw [h2] at hne
              exact absurd hvirt hne
          have hvle : virt ≤ (blk bs (es - 1)).virt :=
            walkBack_ge bs virt es (es - 1) (by omega) (by omega)
          rw [eraseRange_splice]
          refine ⟨?_, ?_, ?_, ?_⟩
          · exact sorted_splice hinv.sorted (by omega) (by omega)
              List.chain'_nil
              (fun _ x hx => by simp at hx)
              (fun hjlt x hx => by simp at hx)
              (fun _ hipos hjlt => by omega)
          · rw [length_splice (by omega)]
            omega
          · exact head0_splice (by omega) hss_pos hinv.head0
          · exact lastU_splice (by omega) (by omega) (by omega) hinv.lastU
      · -- start predecessor mapped: split it and reuse the start successor
        rename_i hlt hne hspM
        injection hok with hok
        subst hok
        have hss_lt : ss < es := by
          rcases Nat.lt_or_ge ss es with h | h
          · exact h
          · have h2 : ss = es := by omega
            rw [h2] at hne
            exact absurd hvirt hne
        rw [eraseSet_splice _ (by omega) hss_lt]
        refine ⟨?_, ?_, ?_, ?_⟩
        · exact sorted_splice hinv.sorted (by omega) (by omega)
            (List.chain'_singleton _)
            (fun _ x hx => by
              rw [mem_head_single hx]
              exact hss_pred)
            (fun hjlt x hx => by
              rw [mem_last_single hx]
              show virt < (blk bs es).virt
              omega)
            (fun hemp => by simp at hemp)
        · rw [length_splice (by omega)]
          omega
        · exact head0_splice (by omega) hss_pos hinv.head0
        · exact lastU_splice (by omega) (by omega) (by omega) hinv.lastU

theorem eraseSetAt_splice (bs : List Block) (ss ue : Nat) (b : Block)
    (h1 : ss ≤ ue) (h2 : ue < bs.length) :
    eraseRange (bs.set ue b) ss ue = bs.take ss ++ [b] ++ bs.drop (ue + 1) := by
  have hlt : (List.take ue bs).length = ue := by rw [List.length_take]; omega
  rw [eraseRange, set_splice b h2,
    List.take_append_of_le_length
      (show ss ≤ (List.take ue bs ++ [b]).length from by simp; omega),
    List.take_append_of_le_length (show ss ≤ (List.take ue bs).length from by simp; omega),
    List.take_take, Nat.min_eq_left h1,
    List.drop_append_of_le_length
      (show ue ≤ (List.take ue bs ++ [b]).length from by simp; omega),
    List.drop_append_eq_append_drop, hlt,
    List.drop_eq_nil_of_le (show (List.take ue bs).length ≤ ue from by simp)]
  simp

/-- ASInv is preserved by every successful run of the
`eraseBlocksWithEndUnmapped` helper on an unmapped end block past `virt`. -/
theorem eraseWithEndUnmapped_inv {bs : List Block} {virt ue : Nat} {bs2 : List Block}
    (hinv : ASInv bs) (hue : ue < bs.length) (hueU : (blk bs ue).Unmapped = true)
    (hv : 0 < virt) (hvu : virt < (blk bs ue).virt)
    (hok : eraseWithEndUnmapped bs virt ue = .ok bs2) : ASInv bs2 := by
  have hlen := hinv.nonempty
  have h0v : (blk bs 0).virt = 0 := by rw [hinv.head0]
  have hss_pos : 0 < walkBack bs virt (ue + 1) :=
    walkBack_pos bs virt (ue + 1) (by omega) (by omega)
  have hss_pred : (blk bs (walkBack bs virt (ue + 1) - 1)).virt < virt :=
    walkBack_pred bs virt (ue + 1) hss_pos
  have hss_le : walkBack bs virt (ue + 1) ≤ ue := by
    rw [walkBack, if_pos (by omega)]
    exact walkBack_le bs virt ue
  set ss := walkBack bs virt (ue + 1) with hssdef
  cases hspU : (blk bs (ss - 1)).Unmapped with
  | true =>
    simp [eraseWithEndUnmapped, ← hssdef, hspU] at hok
    split at hok
    · simp at hok
    · split at hok
      · simp at hok
      · rename_i hguard hguard2
        injection hok with hok
        subst hok
        rw [eraseRange_splice]
        refine ⟨?_, ?_, ?_, ?_⟩
        · refine sorted_splice hinv.sorted (by omega) (by omega)
            List.chain'_nil
            (fun _ x hx => by simp at hx)
            (fun hjlt x hx => by simp at hx)
            (fun _ hipos hjlt => ?_)
          have h1 : (blk bs ue).virt < (blk bs (ue + 1)).virt :=
            sorted_lt hinv.sorted (by omega) hjlt
          omega
        · rw [length_splice (by omega)]
          omega
        · exact head0_splice (by omega) hss_pos hinv.head0
        · rcases Nat.lt_or_ge (ue + 1) bs.length with hcase | hcase
          · exact lastU_splice (by omega) (by omega) hcase hinv.lastU
          · have hlen2 := @length_splice bs [] ss (ue + 1) (by omega)
            have h1 := @blk_splice_lt bs [] ss (ue + 1) (ss - 1) (by omega) (by omega)
            have h2 : (List.take ss bs ++ ([] : List Block) ++ List.drop (ue + 1) bs).length - 1
                = ss - 1 := by
              rw [hlen2]
              simp
              omega
            rw [h2, h1]
            exact hspU
  | false =>
    simp [eraseWithEndUnmapped, ← hssdef, hspU] at hok
    split at hok
    · simp at hok
    · split at hok
      · simp at hok
      · rename_i hguard hguard2
        injection hok with hok
        subst hok
        have hne : ue ≠ ss := by
          intro hc
          exact hguard ⟨by omega, hc⟩
        have hss_lt : ss < ue := by omega
        rw [eraseSetAt_splice bs ss ue _ (by omega) hue]
        refine ⟨?_, ?_, ?_, ?_⟩
        · refine sorted_splice hinv.sorted (by omega) (by omega)
            (List.chain'_singleton _)
            (fun _ x hx => by
              rw [mem_head_single hx]
              exact hss_pred)
            (fun hjlt x hx => ?_)
            (fun hemp => by simp at hemp)
          rw [mem_last_single hx]
          show virt < (blk bs (ue + 1)).virt
          have h1 : (blk bs ue).virt < (blk bs (ue + 1)).virt :=
            sorted_lt hinv.sorted (by omega) hjlt
          omega
        · rw [length_splice (by omega)]
          omega
        · exact head0_splice (by omega) hss_pos hinv.head0
        · rcases Nat.lt_or_ge (ue + 1) bs.length with hcase | hcase
          · exact lastU_splice (by omega) (by omega) hcase hinv.lastU
          · exact lastU_splice_end bs
              [⟨virt, (blk bs ue).phys, (blk bs ue).extraInfo⟩]
              ss (ue + 1) (by omega) (by omega) (by simp) hueU

/-- ASInv is preserved by every successful UnmapLocked call with a positive
start address and size. -/
theorem unmapLocked_inv {vaLimit : Nat} {pc : Bool} {bs : List Block}
    {virt size : Nat} {bs2 : List Block}
    (hinv : ASInv bs) (hv : 0 < virt) (hsz : 0 < size)
    (hok : unmapLocked vaLimit pc bs virt size = .ok bs2) : ASInv bs2 := by
  have hlen := hinv.nonempty
  have h0v : (blk bs 0).virt = 0 := by rw [hinv.head0]
  have hile := lowerBound_le_length bs (virt + size)
  set i := lowerBoundIdx bs (virt + size) with hidef
  have hilt : ∀ k, k < i → (blk bs k).virt < virt + size :=
    fun k hk => lowerBound_lt bs _ hk
  simp only [unmapLocked, ← hidef] at hok
  split at hok
  · simp at hok
  · split at hok
    · simp at hok
    · rename_i hi0
      split at hok
      · -- U1: the end predecessor is already unmapped
        split at hok
        · -- U1a: the region extends before it: run eraseBlocksWithEndUnmapped
          rename_i hpU hvlt
          exact eraseWithEndUnmapped_inv hinv (by omega) hpU hv hvlt hok
        · -- U1b: whole region inside the unmapped predecessor: no change
          injection hok with hok
          subst hok
          exact hinv
      · rename_i hpM
        split at hok
        · -- U2: the end boundary is an existing unmapped block
          rename_i hcond
          have hilen2 : i < bs.length := by
            rcases Nat.lt_or_ge i bs.length with h | h
            · exact h
            · have h3 := hcond.1
              rw [blk_default (by omega)] at h3
              simp at h3
              omega
          exact eraseWithEndUnmapped_inv hinv hilen2 hcond.2 hv (by omega) hok
        · split at hok
          · simp at hok
          · rename_i hcond hilen
            have hilen2 : i < bs.length := by omega
            have hige : virt + size ≤ (blk bs i).virt := lowerBound_ge bs _ (by omega)
            have hpred1 : 1 ≤ i - 1 := by
              rcases Nat.eq_zero_or_pos (i - 1) with h | h
              · rw [h, hinv.head0] at hpM
                exact absurd rfl hpM
              · omega
            split at hok
            · rename_i hine
              split at hok
              · -- U4a: split the end predecessor, then phase 2
                rename_i hvp
                have hinv2 : ASInv (bs.set (i - 1)
                    ⟨virt + size,
                     if pc then (blk bs (i - 1)).phys + (virt + size) - (blk bs (i - 1)).virt
                     else (blk bs (i - 1)).phys,
                     (blk bs (i - 1)).extraInfo⟩) := by
                  rw [set_splice _ (by omega)]
                  refine ⟨?_, ?_, ?_, ?_⟩
                  · exact sorted_splice hinv.sorted (by omega) (by omega)
                      (List.chain'_singleton _)
                      (fun _ x hx => by
                        rw [mem_head_single hx]
                        exact hilt (i - 1 - 1) (by omega))
                      (fun hjlt x hx => by
                        rw [mem_last_single hx]
                        show virt + size < (blk bs (i - 1 + 1)).virt
                        rw [show i - 1 + 1 = i by omega]
                        omega)
                      (fun hemp => by simp at hemp)
                  · rw [length_splice (by omega)]
                    omega
                  · exact head0_splice (by omega) (by omega) hinv.head0
                  · exact @lastU_splice bs
                      [⟨virt + size,
                        if pc then (blk bs (i - 1)).phys + (virt + size) - (blk bs (i - 1)).virt
                        else (blk bs (i - 1)).phys,
                        (blk bs (i - 1)).extraInfo⟩]
                      (i - 1) (i - 1 + 1) (by omega) (by omega) (by omega) hinv.lastU
                refine unmapPhase2_inv hinv2 ?_ ?_ hv (by omega) hok
                · rw [List.length_set]
                  omega
                · rw [blk_set_self _ (by omega)]
              · -- U4b: insert the unmapped head and the split tail
                rename_i hvp
                injection hok with hok
                subst hok
                refine ⟨?_, ?_, ?_, ?_⟩
                · exact sorted_splice hinv.sorted (Nat.le_refl i) (by omega)
                    (by
                      show List.Chain' _ [_, _]
                      refine List.chain'_cons.mpr ⟨?_, List.chain'_singleton _⟩
                      show virt < virt + size
                      omega)
                    (fun _ x hx => by
                      rw [mem_head_single hx]
                      show (blk bs (i - 1)).virt < virt
                      omega)
                    (fun hjlt x hx => by
                      rw [mem_last_pair hx]
                      show virt + size < (blk bs i).virt
                      omega)
                    (fun hemp => by simp at hemp)
                · rw [length_insertAt _ _ _ (by omega)]
                  omega
                · exact head0_splice (by omega) (by omega) hinv.head0
                · exact @lastU_splice bs
                    [⟨virt, 0, ⟨false⟩⟩,
                     ⟨virt + size,
                      if pc then (blk bs (i - 1)).phys + (virt + size) - (blk bs (i - 1)).virt
                      else (blk bs (i - 1)).phys,
                      (blk bs (i - 1)).extraInfo⟩]
                    i i (by omega) (Nat.le_refl i) (by omega) hinv.lastU
            · -- U5: the end boundary block starts exactly at the end point
              rename_i hieq
              rw [not_not] at hieq
              exact unmapPhase2_inv hinv (by omega) hieq hv (by omega) hok

/-- The address-space invariant holds after any successful sequence of
Map/Unmap calls whose ranges start above zero and are non-empty. -/
theorem runOps_inv {vaLimit : Nat} {pc : Bool} :
    ∀ (ops : List ASOp) (bs bs2 : List Block),
    ASInv bs → (∀ op ∈ ops, 0 < op.virtStart ∧ 0 < ASOp.sizeOf op) →
    runOps vaLimit pc bs ops = .ok bs2 → ASInv bs2
  | [], bs, bs2, hinv, _, hok => by
    injection hok with hok
    subst hok
    exact hinv
  | op :: ops, bs, bs2, hinv, hpos, hok => by
    rw [runOps] at hok
    cases hrun : op.run vaLimit pc bs with
    | error e =>
      rw [hrun] at hok
      simp [Bind.bind, Except.bind] at hok
    | ok bs1 =>
      rw [hrun] at hok
      have hok2 : runOps vaLimit pc bs1 ops = .ok bs2 := by
        simpa [Bind.bind, Except.bind] using hok
      have hinv1 : ASInv bs1 := by
        cases op with
        | map v p s e =>
          exact mapLocked_inv hinv (hpos (ASOp.map v p s e) (by simp)).1
            (hpos (ASOp.map v p s e) (by simp)).2 hrun
        | unmap v s =>
          exact unmapLocked_inv hinv (hpos (ASOp.unmap v s) (by simp)).1
            (hpos (ASOp.unmap v s) (by simp)).2 hrun
      exact runOps_inv ops bs1 bs2 hinv1 (fun o ho => hpos o (by simp [ho])) hok2

/-- C1 (amended).  For every sequence of Map and Unmap calls whose ranges
start at a positive virtual address and are non-empty, every successful run
from the initial state keeps the block sequence strictly sorted ascending by
virtual address and terminated by an unmapped block (the sentinel covering
the remainder of the space).  The positivity side conditions are necessary:
`C1_counterexample` shows a zero-based Map breaking strict sortedness. -/
theorem C1_amended {vaLimit : Nat} {pc : Bool} {ops : List ASOp} {bs2 : List Block}
    (hpos : ∀ op ∈ ops, 0 < op.virtStart ∧ 0 < ASOp.sizeOf op)
    (hok : runOps vaLimit pc initBlocks ops = .ok bs2) :
    BlocksSorted bs2 ∧ 0 < bs2.length ∧ (blk bs2 (bs2.length - 1)).Unmapped = true := by
  have h := runOps_inv ops initBlocks bs2 initBlocks_inv hpos hok
  exact ⟨h.sorted, h.nonempty, h.lastU⟩

/-- Witness for `C1_amended`: a Map at `[16, 32)` followed by an Unmap of
`[20, 24)` from the initial state, under VA limit 1000. -/
theorem C1_amended_witness :
    BlocksSorted [(⟨0, 0, ⟨false⟩⟩ : Block), ⟨16, 1, ⟨false⟩⟩, ⟨20, 0, ⟨false⟩⟩,
        ⟨24, 9, ⟨false⟩⟩, ⟨32, 0, ⟨false⟩⟩]
    ∧ 0 < [(⟨0, 0, ⟨false⟩⟩ : Block), ⟨16, 1, ⟨false⟩⟩, ⟨20, 0, ⟨false⟩⟩,
        ⟨24, 9, ⟨false⟩⟩, ⟨32, 0, ⟨false⟩⟩].length
    ∧ (blk [(⟨0, 0, ⟨false⟩⟩ : Block), ⟨16, 1, ⟨false⟩⟩, ⟨20, 0, ⟨false⟩⟩,
        ⟨24, 9, ⟨false⟩⟩, ⟨32, 0, ⟨false⟩⟩]
        ([(⟨0, 0, ⟨false⟩⟩ : Block), ⟨16, 1, ⟨false⟩⟩, ⟨20, 0, ⟨false⟩⟩,
          ⟨24, 9, ⟨false⟩⟩, ⟨32, 0, ⟨false⟩⟩].length - 1)).Unmapped = true :=
  @C1_amended 1000 true [.map 16 1 16 ⟨false⟩, .unmap 20 4]
    [⟨0, 0, ⟨false⟩⟩, ⟨16, 1, ⟨false⟩⟩, ⟨20, 0, ⟨false⟩⟩, ⟨24, 9, ⟨false⟩⟩, ⟨32, 0, ⟨false⟩⟩]
    (by decide) (by rfl)

/-! ## Chunk-descriptor list infrastructure for the amended C9 -/

/-- The metadata triple carried by a descriptor (state, permission,
attributes), the part of Get's answer the kernel callers consume. -/
def chunkMeta (d : ChunkDescriptor) : Nat × Nat × Nat :=
  (d.state, d.permission, d.attributes)

/-- The chunk list tiles an address interval: each descriptor ends exactly
where the next one starts.  This implies sorted (non-strictly, as the code
leaves zero-size fragments) and non-overlapping. -/
def ChunksContiguous (cs : List ChunkDescriptor) : Prop :=
  List.Chain' (fun a b => a.ptr + a.size = b.ptr) cs

def contigB : List ChunkDescriptor → Bool
  | [] => true
  | [_] => true
  | a :: b :: t => (a.ptr + a.size == b.ptr) && contigB (b :: t)

theorem contigB_iff : ∀ cs, contigB cs = true ↔ ChunksContiguous cs
  | [] => by simp [contigB, ChunksContiguous]
  | [a] => by simp [contigB, ChunksContiguous]
  | a :: b :: t => by
    rw [ChunksContiguous, List.chain'_cons,
      show List.Chain' (fun a b => a.ptr + a.size = b.ptr) (b :: t)
        = ChunksContiguous (b :: t) from rfl, ← contigB_iff (b :: t)]
    simp [contigB]

instance : DecidablePred ChunksContiguous := fun cs =>
  decidable_of_iff (contigB cs = true) (contigB_iff cs)

/-- Index-wise form of contiguity. -/
def ContigAt (cs : List ChunkDescriptor) : Prop :=
  ∀ k, k + 1 < cs.length → (chk cs k).ptr + (chk cs k).size = (chk cs (k + 1)).ptr

theorem chk_eq_getElem (cs : List ChunkDescriptor) (i : Nat) :
    chk cs i = cs[i]?.getD ⟨0, 0, 0, 0, 0⟩ :=
  List.getD_eq_getElem?_getD ..

theorem getElem?_eq_chk {cs : List ChunkDescriptor} {i : Nat} (h : i < cs.length) :
    cs[i]? = some (chk cs i) := by
  rw [chk_eq_getElem, List.getElem?_eq_getElem h]
  rfl

theorem chk_default {cs : List ChunkDescriptor} {k : Nat} (h : cs.length ≤ k) :
    chk cs k = ⟨0, 0, 0, 0, 0⟩ := by
  rw [chk_eq_getElem, List.getElem?_eq_none h]
  rfl

theorem contigAt_iff (cs : List ChunkDescriptor) : ChunksContiguous cs ↔ ContigAt cs := by
  rw [ChunksContiguous, List.chain'_iff_get]
  constructor
  · intro h k hk
    have h2 := h k (by omega)
    rw [chk_eq_getElem, chk_eq_getElem, List.getElem?_eq_getElem (by omega),
      List.getElem?_eq_getElem (by omega)]
    simpa [List.get_eq_getElem] using h2
  · intro h i hi
    have h2 := h i (by omega)
    rw [chk_eq_getElem, chk_eq_getElem, List.getElem?_eq_getElem (by omega)] at h2
    rw [List.getElem?_eq_getElem (show i + 1 < cs.length by omega)] at h2
    simpa [List.get_eq_getElem] using h2

theorem chk_set_self {cs : List ChunkDescriptor} {i : Nat} (d : ChunkDescriptor)
    (h : i < cs.length) : chk (cs.set i d) i = d := by
  rw [chk_eq_getElem, List.getElem?_set, if_pos rfl, if_pos h]
  rfl

theorem chk_set_ne {cs : List ChunkDescriptor} {i k : Nat} (d : ChunkDescriptor)
    (h : i ≠ k) : chk (cs.set i d) k = chk cs k := by
  rw [chk_eq_getElem, List.getElem?_set, if_neg h, ← chk_eq_getElem]

theorem chk_insertAt_lt {cs : List ChunkDescriptor} {i k : Nat} (xs : List ChunkDescriptor)
    (h : i ≤ cs.length) (hk : k < i) : chk (insertAt cs i xs) k = chk cs k := by
  have h1 : (List.take i cs).length = i := by rw [List.length_take]; omega
  have h2 : (List.take i cs ++ xs).length = i + xs.length := by
    rw [List.length_append, h1]
  rw [insertAt, chk_eq_getElem, getElem?_append_split (List.take i cs ++ xs) (List.drop i cs) k,
    h2, if_pos (by omega), List.getElem?_append, h1, if_pos hk,
    List.getElem?_take, if_pos hk, ← chk_eq_getElem]

theorem chk_insertAt_mid {cs : List ChunkDescriptor} {i k : Nat} (xs : List ChunkDescriptor)
    (h : i ≤ cs.length) (hk : k < xs.length) :
    chk (insertAt cs i xs) (i + k) = chk xs k := by
  have h1 : (List.take i cs).length = i := by rw [List.length_take]; omega
  have h2 : (List.take i cs ++ xs).length = i + xs.length := by
    rw [List.length_append, h1]
  rw [insertAt, chk_eq_getElem,
    getElem?_append_split (List.take i cs ++ xs) (List.drop i cs) (i + k),
    h2, if_pos (by omega), List.getElem?_append, h1, if_neg (by omega),
    Nat.add_sub_cancel_left, ← chk_eq_getElem]

theorem chk_insertAt_ge {cs : List ChunkDescriptor} {i k : Nat} (xs : List ChunkDescriptor)
    (h : i ≤ cs.length) (hk : i ≤ k) :
    chk (insertAt cs i xs) (k + xs.length) = chk cs k := by
  have h1 : (List.take i cs).length = i := by rw [List.length_take]; omega
  have h2 : (List.take i cs ++ xs).length = i + xs.length := by
    rw [List.length_append, h1]
  rw [insertAt, chk_eq_getElem,
    getElem?_append_split (List.take i cs ++ xs) (List.drop i cs) (k + xs.length),
    h2, if_neg (by omega), List.getElem?_drop, ← chk_eq_getElem]
  congr 1
  omega

theorem chk_eraseRange_lt {cs : List ChunkDescriptor} {i j k : Nat}
    (h : i ≤ cs.length) (hk : k < i) : chk (eraseRange cs i j) k = chk cs k := by
  have h1 : (List.take i cs).length = i := by rw [List.length_take]; omega
  rw [eraseRange, chk_eq_getElem, List.getElem?_append, h1, if_pos hk,
    List.getElem?_take, if_pos hk, ← chk_eq_getElem]

theorem chk_eraseRange_ge {cs : List ChunkDescriptor} {i j k : Nat}
    (h : i ≤ cs.length) (hk : i ≤ k) :
    chk (eraseRange cs i j) k = chk cs (j + (k - i)) := by
  have h1 : (List.take i cs).length = i := by rw [List.length_take]; omega
  rw [eraseRange, chk_eq_getElem, List.getElem?_append, h1, if_neg (by omega),
    List.getElem?_drop, ← chk_eq_getElem]

/-- On a contiguous list the end of any earlier chunk is bounded by the start
of any later one. -/
theorem contig_le {cs : List ChunkDescriptor} (hc : ContigAt cs) :
    ∀ {i j : Nat}, i < j → j < cs.length →
      (chk cs i).ptr + (chk cs i).size ≤ (chk cs j).ptr := by
  intro i j
  induction j with
  | zero => omega
  | succ j ih =>
    intro hij hj
    rcases Nat.lt_or_ge i j with h | h
    · have h1 := ih h (by omega)
      have h2 := hc j hj
      have h3 : (chk cs j).ptr ≤ (chk cs j).ptr + (chk cs j).size := by omega
      omega
    · have : i = j := by omega
      subst this
      have h2 := hc i hj
      omega

theorem contig_ptr_mono {cs : List ChunkDescriptor} (hc : ContigAt cs)
    {i j : Nat} (hij : i ≤ j) (hj : j < cs.length) :
    (chk cs i).ptr ≤ (chk cs j).ptr := by
  rcases Nat.lt_or_ge i j with h | h
  · have := contig_le hc h hj
    omega
  · have : i = j := by omega
    rw [this]

/-- Point lookup below the first descriptor fails. -/
theorem chunkGet_none_low {cs : List ChunkDescriptor} {p : Nat}
    (h : p < (chk cs 0).ptr) (hn : 0 < cs.length) : chunkGet cs p = none := by
  have h0 : cs.findIdx (fun d => decide (p < d.ptr)) = 0 := by
    cases cs with
    | nil => simp at hn
    | cons a t =>
      rw [List.findIdx_cons]
      have : p < a.ptr := by
        have : chk (a :: t) 0 = a := rfl
        rw [this] at h
        exact h
      simp [this]
  rw [chunkGet, h0]
  simp

/-- Point lookup inside the half-open range of the descriptor at index `k`
of a contiguous list returns exactly that descriptor. -/
theorem chunkGet_at {cs : List ChunkDescriptor} (hc : ContigAt cs) {k p : Nat}
    (hk : k < cs.length) (h1 : (chk cs k).ptr ≤ p)
    (h2 : p < (chk cs k).ptr + (chk cs k).size) :
    chunkGet cs p = some (chk cs k) := by
  set i := cs.findIdx (fun d => decide (p < d.ptr)) with hidef
  have hile : i ≤ cs.length := List.findIdx_le_length _
  have hlow : ∀ m, m < i → (chk cs m).ptr ≤ p := by
    intro m hm
    have hmlen : m < cs.length := by omega
    have hm2 : m < List.findIdx (fun d => decide (p < d.ptr)) cs := by omega
    have := List.not_of_lt_findIdx hm2
    simp only [decide_eq_false_iff_not, Nat.not_lt] at this
    rwa [chk_eq_getElem, List.getElem?_eq_getElem hmlen]
  have hhit : i < cs.length → p < (chk cs i).ptr := by
    intro hilen
    have h3 : List.findIdx (fun d => decide (p < d.ptr)) cs < cs.length := hilen
    have := List.findIdx_getElem (w := h3)
    simp only [decide_eq_true_eq] at this
    rwa [chk_eq_getElem, List.getElem?_eq_getElem hilen]
  have hik : i = k + 1 := by
    rcases Nat.lt_or_ge i (k + 1) with hlt | hge
    · -- then i ≤ k, so chunk i starts at or before p, contradicting the hit
      exfalso
      have hhit2 := hhit (by omega)
      have : (chk cs i).ptr ≤ (chk cs k).ptr := contig_ptr_mono hc (by omega) hk
      omega
    · rcases Nat.lt_or_ge (k + 1) i with hlt2 | _
      · exfalso
        have := hlow (k + 1) hlt2
        have h4 := hc k (by omega)
        omega
      · omega
  simp only [chunkGet, ← hidef, hik]
  rw [if_neg (Nat.succ_ne_zero k), show k + 1 - 1 = k by omega, if_pos h2]

/-- Point lookup at or past the end of the last descriptor of a contiguous
list fails. -/
theorem chunkGet_none_high {cs : List ChunkDescriptor} (hc : ContigAt cs) {p : Nat}
    (hn : 0 < cs.length)
    (h : (chk cs (cs.length - 1)).ptr + (chk cs (cs.length - 1)).size ≤ p) :
    chunkGet cs p = none := by
  set i := cs.findIdx (fun d => decide (p < d.ptr)) with hidef
  have hile : i ≤ cs.length := List.findIdx_le_length _
  have hieq : i = cs.length := by
    rcases Nat.lt_or_ge i cs.length with hilen | _
    · exfalso
      have h4 : p < (chk cs i).ptr := by
        have h3 : List.findIdx (fun d => decide (p < d.ptr)) cs < cs.length := hilen
        have h5 := List.findIdx_getElem (w := h3)
        simp only [decide_eq_true_eq] at h5
        rwa [chk_eq_getElem, List.getElem?_eq_getElem hilen]
      have h5 : (chk cs i).ptr ≤ (chk cs (cs.length - 1)).ptr :=
        contig_ptr_mono hc (by omega) (by omega)
      omega
    · omega
  simp only [chunkGet, ← hidef, hieq]
  rw [if_neg (by omega : ¬cs.length = 0), if_neg (by omega :
    ¬p < (chk cs (cs.length - 1)).ptr + (chk cs (cs.length - 1)).size)]

theorem chk_drop (cs : List ChunkDescriptor) (u m : Nat) :
    chk (cs.drop u) m = chk cs (u + m) := by
  rw [chk_eq_getElem, List.getElem?_drop, ← chk_eq_getElem]

/-- On a contiguous list, any point between the start of the first chunk and
the end of the last one lies in the half-open range of the chunk right before
the upper-bound index. -/
theorem chunk_start_cover {cs : List ChunkDescriptor} (hc : ContigAt cs) {q : Nat}
    (hn : 0 < cs.length) (h0 : (chk cs 0).ptr ≤ q)
    (hend : q < (chk cs (cs.length - 1)).ptr + (chk cs (cs.length - 1)).size) :
    0 < cs.findIdx (fun d => decide (q < d.ptr))
    ∧ cs.findIdx (fun d => decide (q < d.ptr)) - 1 < cs.length
    ∧ (chk cs (cs.findIdx (fun d => decide (q < d.ptr)) - 1)).ptr ≤ q
    ∧ q < (chk cs (cs.findIdx (fun d => decide (q < d.ptr)) - 1)).ptr
        + (chk cs (cs.findIdx (fun d => decide (q < d.ptr)) - 1)).size := by
  set u := cs.findIdx (fun d => decide (q < d.ptr)) with hudef
  have hule : u ≤ cs.length := List.findIdx_le_length _
  have hupos : 0 < u := by
    rcases Nat.eq_zero_or_pos u with h | h
    · exfalso
      have h3 : u < cs.length := by omega
      have h4 := List.findIdx_getElem (w := h3)
      simp only [decide_eq_true_eq] at h4
      have h5 : q < (chk cs u).ptr := by
        rwa [chk_eq_getElem, List.getElem?_eq_getElem h3]
      rw [h] at h5
      omega
    · exact h
  have hlow : (chk cs (u - 1)).ptr ≤ q := by
    have hm2 : u - 1 < List.findIdx (fun d => decide (q < d.ptr)) cs := by omega
    have := List.not_of_lt_findIdx hm2
    simp only [decide_eq_false_iff_not, Nat.not_lt] at this
    rwa [chk_eq_getElem, List.getElem?_eq_getElem (by omega)]
  refine ⟨hupos, by omega, hlow, ?_⟩
  rcases Nat.lt_or_ge u cs.length with hult | hueq
  · have hhit : q < (chk cs u).ptr := by
      have h3 : u < cs.length := hult
      have h4 := List.findIdx_getElem (w := h3)
      simp only [decide_eq_true_eq] at h4
      rwa [chk_eq_getElem, List.getElem?_eq_getElem h3]
    have hb := hc (u - 1) (by omega)
    rw [show u - 1 + 1 = u by omega] at hb
    omega
  · have : u - 1 = cs.length - 1 := by omega
    rw [this]
    exact hend

/-- Total lookup on a covered contiguous list: the witness chunk. -/
theorem chunkGet_cover {cs : List ChunkDescriptor} (hc : ContigAt cs) {q : Nat}
    (hn : 0 < cs.length) (h0 : (chk cs 0).ptr ≤ q)
    (hend : q < (chk cs (cs.length - 1)).ptr + (chk cs (cs.length - 1)).size) :
    ∃ k, k < cs.length ∧ (chk cs k).ptr ≤ q
      ∧ q < (chk cs k).ptr + (chk cs k).size
      ∧ chunkGet cs q = some (chk cs k) := by
  obtain ⟨h1, h2, h3, h4⟩ := chunk_start_cover hc hn h0 hend
  exact ⟨_, h2, h3, h4, chunkGet_at hc h2 h3 h4⟩

/-- The three provable guarantees of InsertChunk: the list keeps tiling the
space, lookups inside the new chunk's range answer with its metadata, and
lookups outside it are unchanged. -/
def InsOk (cs : List ChunkDescriptor) (c : ChunkDescriptor)
    (out : List ChunkDescriptor) : Prop :=
  ChunksContiguous out
  ∧ (∀ p, c.ptr ≤ p → p < c.ptr + c.size →
      ∃ d, chunkGet out p = some d ∧ d.state = c.state
        ∧ d.permission = c.permission ∧ d.attributes = c.attributes)
  ∧ (∀ p, p < c.ptr ∨ c.ptr + c.size ≤ p →
      (chunkGet out p).map chunkMeta = (chunkGet cs p).map chunkMeta)

/-- Facts available after InsertChunk's erase/trim prologue: `u0` is the
upper-bound index for the new chunk's start, `e2` the end of the erased
window, and `cs2` the vector after the erase and the optional start-trim of
the surviving right neighbor. -/
structure InsCtx (cs cs2 : List ChunkDescriptor) (c : ChunkDescriptor)
    (u0 e2 : Nat) : Prop where
  n_pos : 0 < cs.length
  contig : ContigAt cs
  start_lt : (chk cs 0).ptr < c.ptr
  csize_pos : 0 < c.size
  cover_end : c.ptr + c.size ≤ (chk cs (cs.length - 1)).ptr + (chk cs (cs.length - 1)).size
  u0_pos : 0 < u0
  u0_le : u0 ≤ cs.length
  below_le : ∀ k, k < u0 → (chk cs k).ptr ≤ c.ptr
  u0_gt : u0 < cs.length → c.ptr < (chk cs u0).ptr
  lower_cov : c.ptr < (chk cs (u0 - 1)).ptr + (chk cs (u0 - 1)).size
  e2_ge : u0 ≤ e2
  e2_le : e2 ≤ cs.length
  mid_le : ∀ j, u0 ≤ j → j < e2 → (chk cs j).ptr + (chk cs j).size ≤ c.ptr + c.size
  e2_hit : e2 < cs.length → c.ptr + c.size < (chk cs e2).ptr + (chk cs e2).size
  len2 : cs2.length = u0 + (cs.length - e2)
  pre_eq : ∀ k, k < u0 → chk cs2 k = chk cs k
  tail_eq : ∀ t, 0 < t → u0 + t < cs2.length → chk cs2 (u0 + t) = chk cs (e2 + t)
  at_u0 : u0 < cs2.length →
    ((chk cs e2).ptr < c.ptr + c.size ∧ chk cs2 u0 =
      ⟨c.ptr + c.size, (chk cs e2).ptr + (chk cs e2).size - (c.ptr + c.size),
       (chk cs e2).state, (chk cs e2).permission, (chk cs e2).attributes⟩)
    ∨ (c.ptr + c.size ≤ (chk cs e2).ptr ∧ chk cs2 u0 = chk cs e2)

/-- Any chunk at or past `u0` starts strictly after the new chunk's start. -/
theorem InsCtx.ptr_gt {cs cs2 : List ChunkDescriptor} {c : ChunkDescriptor} {u0 e2 : Nat}
    (H : InsCtx cs cs2 c u0 e2) {k : Nat} (h1 : u0 ≤ k) (h2 : k < cs.length) :
    c.ptr < (chk cs k).ptr :=
  Nat.lt_of_lt_of_le (H.u0_gt (by omega)) (contig_ptr_mono H.contig h1 h2)

/-- The boundary between the prefix and the erased window. -/
theorem InsCtx.lower_bound {cs cs2 : List ChunkDescriptor} {c : ChunkDescriptor} {u0 e2 : Nat}
    (H : InsCtx cs cs2 c u0 e2) (h : u0 < cs.length) :
    (chk cs (u0 - 1)).ptr + (chk cs (u0 - 1)).size = (chk cs u0).ptr := by
  have hp := H.u0_pos
  have h2 := H.contig (u0 - 1) (by omega)
  rwa [show u0 - 1 + 1 = u0 by omega] at h2

/-- When the erase window reaches the end of the list, the old list ends
exactly at the new chunk's end. -/
theorem InsCtx.end_all {cs cs2 : List ChunkDescriptor} {c : ChunkDescriptor} {u0 e2 : Nat}
    (H : InsCtx cs cs2 c u0 e2) (he : e2 = cs.length) (hu : u0 < cs.length) :
    (chk cs (cs.length - 1)).ptr + (chk cs (cs.length - 1)).size = c.ptr + c.size := by
  have h1 := H.mid_le (cs.length - 1) (by omega) (by omega)
  have h2 := H.cover_end
  omega

/-- Metadata-preserving pointwise simulation on the outside of the new range:
if every covered point's old chunk has a metadata-equal covering chunk in the
result, lookups agree up to metadata. -/
theorem outside_sim {cs out : List ChunkDescriptor} (q : Nat)
    (hn : 0 < cs.length) (hc : ContigAt cs)
    (hno : 0 < out.length) (hcO : ContigAt out)
    (hfirst : (chk out 0).ptr = (chk cs 0).ptr)
    (hlast : (chk out (out.length - 1)).ptr + (chk out (out.length - 1)).size
        = (chk cs (cs.length - 1)).ptr + (chk cs (cs.length - 1)).size)
    (hsim : ∀ k, k < cs.length → (chk cs k).ptr ≤ q →
        q < (chk cs k).ptr + (chk cs k).size →
        ∃ j, j < out.length ∧ (chk out j).ptr ≤ q
          ∧ q < (chk out j).ptr + (chk out j).size
          ∧ chunkMeta (chk out j) = chunkMeta (chk cs k)) :
    (chunkGet out q).map chunkMeta = (chunkGet cs q).map chunkMeta := by
  rcases Nat.lt_or_ge q (chk cs 0).ptr with hlow | hge
  · have h1 : q < (chk out 0).ptr := by
      rw [hfirst]
      exact hlow
    rw [chunkGet_none_low hlow hn, chunkGet_none_low h1 hno]
  · rcases Nat.lt_or_ge q ((chk cs (cs.length - 1)).ptr + (chk cs (cs.length - 1)).size)
      with hin | hhigh
    · obtain ⟨k, hk, hk1, hk2, hkG⟩ := chunkGet_cover hc hn hge hin
      obtain ⟨j, hj, hj1, hj2, hjM⟩ := hsim k hk hk1 hk2
      rw [hkG, chunkGet_at hcO hj hj1 hj2]
      simpa using hjM
    · rw [chunkGet_none_high hc hn hhigh, chunkGet_none_high hcO hno (by omega)]

theorem InsCtx.e2_lt {cs cs2 : List ChunkDescriptor} {c : ChunkDescriptor} {u0 e2 : Nat}
    (H : InsCtx cs cs2 c u0 e2) (h : u0 < cs2.length) : e2 < cs.length := by
  have h1 := H.len2
  have h2 := H.e2_le
  omega

/-- The surviving right-neighbor chunk: metadata and end as the old chunk at
`e2`, start at or past the new chunk's end. -/
theorem InsCtx.u0_facts {cs cs2 : List ChunkDescriptor} {c : ChunkDescriptor} {u0 e2 : Nat}
    (H : InsCtx cs cs2 c u0 e2) (h : u0 < cs2.length) :
    chunkMeta (chk cs2 u0) = chunkMeta (chk cs e2)
    ∧ (chk cs2 u0).ptr + (chk cs2 u0).size = (chk cs e2).ptr + (chk cs e2).size
    ∧ c.ptr + c.size ≤ (chk cs2 u0).ptr
    ∧ (chk cs e2).ptr ≤ (chk cs2 u0).ptr := by
  have he2 := H.e2_lt h
  have hhit := H.e2_hit he2
  rcases H.at_u0 h with ⟨h1, h2⟩ | ⟨h1, h2⟩
  · rw [h2]
    refine ⟨rfl, ?_, ?_, ?_⟩
    · show c.ptr + c.size + ((chk cs e2).ptr + (chk cs e2).size - (c.ptr + c.size)) = _
      omega
    · exact Nat.le_refl _
    · show (chk cs e2).ptr ≤ c.ptr + c.size
      omega
  · rw [h2]
    exact ⟨rfl, rfl, h1, Nat.le_refl _⟩

/-- When the old chunk at `u0` starts no later than the new chunk's end, the
surviving right neighbor starts exactly at the new chunk's end. -/
theorem InsCtx.next_ptr {cs cs2 : List ChunkDescriptor} {c : ChunkDescriptor} {u0 e2 : Nat}
    (H : InsCtx cs cs2 c u0 e2) (h : u0 < cs2.length)
    (htouch : (chk cs u0).ptr ≤ c.ptr + c.size) :
    (chk cs2 u0).ptr = c.ptr + c.size := by
  have he2 := H.e2_lt h
  have he2ge := H.e2_ge
  have hup := H.u0_pos
  have hptr : (chk cs e2).ptr ≤ c.ptr + c.size := by
    rcases Nat.eq_or_lt_of_le he2ge with heq | hlt
    · rw [← heq]
      exact htouch
    · have hb := H.contig (e2 - 1) (by omega)
      rw [show e2 - 1 + 1 = e2 by omega] at hb
      have hm := H.mid_le (e2 - 1) (by omega) (by omega)
      omega
  rcases H.at_u0 h with ⟨h1, h2⟩ | ⟨h1, h2⟩
  · rw [h2]
  · rw [h2]
    omega

/-- Internal contiguity of `cs2` from index `u0` on. -/
theorem InsCtx.tail_contig {cs cs2 : List ChunkDescriptor} {c : ChunkDescriptor} {u0 e2 : Nat}
    (H : InsCtx cs cs2 c u0 e2) {k : Nat} (h1 : u0 ≤ k) (h2 : k + 1 < cs2.length) :
    (chk cs2 k).ptr + (chk cs2 k).size = (chk cs2 (k + 1)).ptr := by
  have hm := H.len2
  have he2le := H.e2_le
  rcases Nat.eq_or_lt_of_le h1 with heq | hlt
  · subst heq
    have hfacts := H.u0_facts (by omega)
    have ht := H.tail_eq 1 (by omega) (by omega)
    rw [ht]
    have hb := H.contig e2 (by omega)
    omega
  · have ht1 := H.tail_eq (k - u0) (by omega) (by omega)
    have ht2 := H.tail_eq (k + 1 - u0) (by omega) (by omega)
    rw [show u0 + (k - u0) = k by omega] at ht1
    rw [show u0 + (k + 1 - u0) = k + 1 by omega] at ht2
    rw [ht1, ht2, show e2 + (k + 1 - u0) = e2 + (k - u0) + 1 by omega]
    exact H.contig (e2 + (k - u0)) (by omega)

/-- Outside points falling in the erased window are impossible. -/
theorem InsCtx.mid_absurd {cs cs2 : List ChunkDescriptor} {c : ChunkDescriptor} {u0 e2 : Nat}
    (H : InsCtx cs cs2 c u0 e2) {k q : Nat} (hk : k < cs.length)
    (h1 : u0 ≤ k) (h2 : k < e2)
    (hq1 : (chk cs k).ptr ≤ q) (hq2 : q < (chk cs k).ptr + (chk cs k).size)
    (hout : q < c.ptr ∨ c.ptr + c.size ≤ q) : False := by
  have hgt := H.ptr_gt h1 hk
  have hle := H.mid_le k h1 h2
  omega

/-- Old chunks strictly past the erased window survive verbatim. -/
theorem InsCtx.tail_map {cs cs2 : List ChunkDescriptor} {c : ChunkDescriptor} {u0 e2 : Nat}
    (H : InsCtx cs cs2 c u0 e2) {k : Nat} (h1 : e2 < k) (hk : k < cs.length) :
    u0 + (k - e2) < cs2.length ∧ chk cs2 (u0 + (k - e2)) = chk cs k := by
  have hm := H.len2
  have hj : u0 + (k - e2) < cs2.length := by omega
  have ht := H.tail_eq (k - e2) (by omega) hj
  rw [show e2 + (k - e2) = k by omega] at ht
  exact ⟨hj, ht⟩

/-- Outside points in the old right-boundary chunk are answered by the
surviving right neighbor. -/
theorem InsCtx.e2_sim {cs cs2 : List ChunkDescriptor} {c : ChunkDescriptor} {u0 e2 : Nat}
    (H : InsCtx cs cs2 c u0 e2) {q : Nat} (hq1 : (chk cs e2).ptr ≤ q)
    (hq2 : q < (chk cs e2).ptr + (chk cs e2).size) (hq3 : c.ptr + c.size ≤ q) :
    u0 < cs2.length ∧ (chk cs2 u0).ptr ≤ q
    ∧ q < (chk cs2 u0).ptr + (chk cs2 u0).size
    ∧ chunkMeta (chk cs2 u0) = chunkMeta (chk cs e2) := by
  have hm := H.len2
  have he2 : e2 < cs.length := by
    by_contra hcon
    rw [chk_default (by omega)] at hq2
    simp at hq2
  have hu0m : u0 < cs2.length := by omega
  obtain ⟨hmeta, hend, hge, hge2⟩ := H.u0_facts hu0m
  refine ⟨hu0m, ?_, by omega, hmeta⟩
  rcases H.at_u0 hu0m with ⟨h1, h2⟩ | ⟨h1, h2⟩
  · rw [h2]
    exact hq3
  · rw [h2]
    exact hq1

/-- Branch spec: exact-match insert overwrites the metadata in place. -/
theorem insB1_spec {cs cs2 : List ChunkDescriptor} {c : ChunkDescriptor} {u0 e2 : Nat}
    (H : InsCtx cs cs2 c u0 e2)
    (hb1 : (chk cs (u0 - 1)).ptr = c.ptr) (hb2 : (chk cs (u0 - 1)).size = c.size) :
    InsOk cs c (cs2.set (u0 - 1)
      ⟨(chk cs (u0 - 1)).ptr, (chk cs (u0 - 1)).size,
       c.state, c.permission, c.attributes⟩) := by
  have hn := H.n_pos
  have hcs := H.contig
  have hup := H.u0_pos
  have hule := H.u0_le
  have he2ge := H.e2_ge
  have he2le := H.e2_le
  have hm := H.len2
  have hszp := H.csize_pos
  have hum : u0 - 1 < cs2.length := by omega
  set NEW : ChunkDescriptor := ⟨(chk cs (u0 - 1)).ptr, (chk cs (u0 - 1)).size,
    c.state, c.permission, c.attributes⟩ with hNEW
  have hlen : (cs2.set (u0 - 1) NEW).length = cs2.length := by rw [List.length_set]
  have hsel : chk (cs2.set (u0 - 1) NEW) (u0 - 1) = NEW := chk_set_self _ hum
  have hpre : ∀ k, k < u0 - 1 → chk (cs2.set (u0 - 1) NEW) k = chk cs k := by
    intro k hk
    rw [chk_set_ne _ (by omega), H.pre_eq k (by omega)]
  have htail2 : ∀ k, u0 ≤ k → chk (cs2.set (u0 - 1) NEW) k = chk cs2 k := by
    intro k hk
    rw [chk_set_ne _ (by omega)]
  have hnext : u0 < cs2.length → (chk cs2 u0).ptr = c.ptr + c.size := by
    intro hu
    refine H.next_ptr hu ?_
    have hb := H.lower_bound (by omega)
    omega
  have hcO : ContigAt (cs2.set (u0 - 1) NEW) := by
    intro k hk
    rw [hlen] at hk
    rcases Nat.lt_or_ge (k + 1) (u0 - 1) with hz | hz
    · rw [hpre k (by omega), hpre (k + 1) hz]
      exact hcs k (by omega)
    · rcases Nat.lt_or_ge k (u0 - 1) with hz2 | hz2
      · have he : k + 1 = u0 - 1 := by omega
        rw [hpre k (by omega), he, hsel, hNEW]
        show (chk cs k).ptr + (chk cs k).size = (chk cs (u0 - 1)).ptr
        have h3 := hcs k (by omega)
        rw [he] at h3
        exact h3
      · rcases Nat.eq_or_lt_of_le hz2 with hz3 | hz3
        · have hk0 : k = u0 - 1 := hz3.symm
          subst hk0
          rw [hsel, hNEW, show u0 - 1 + 1 = u0 by omega, htail2 u0 (Nat.le_refl _),
            hnext (by omega)]
          show (chk cs (u0 - 1)).ptr + (chk cs (u0 - 1)).size = c.ptr + c.size
          omega
        · rw [htail2 k (by omega), htail2 (k + 1) (by omega)]
          exact H.tail_contig (by omega) (by omega)
  refine ⟨(contigAt_iff _).mpr hcO, ?_, ?_⟩
  · intro p hp1 hp2
    have ha1 : (chk (cs2.set (u0 - 1) NEW) (u0 - 1)).ptr ≤ p := by
      rw [hsel, hNEW]
      show (chk cs (u0 - 1)).ptr ≤ p
      omega
    have ha2 : p < (chk (cs2.set (u0 - 1) NEW) (u0 - 1)).ptr
        + (chk (cs2.set (u0 - 1) NEW) (u0 - 1)).size := by
      rw [hsel, hNEW]
      show p < (chk cs (u0 - 1)).ptr + (chk cs (u0 - 1)).size
      omega
    have hg := chunkGet_at hcO (by rw [hlen]; exact hum) ha1 ha2
    rw [hsel] at hg
    exact ⟨NEW, hg, rfl, rfl, rfl⟩
  · intro p hp
    refine outside_sim p hn hcs (by rw [hlen]; omega) hcO ?_ ?_ ?_
    · rcases Nat.eq_zero_or_pos (u0 - 1) with h | h
      · rw [show (0 : Nat) = u0 - 1 by omega, hsel, hNEW]
      · rw [hpre 0 h]
    · rw [hlen]
      rcases Nat.lt_or_ge u0 cs2.length with hu | hu
      · have he2 := H.e2_lt hu
        rcases Nat.eq_or_lt_of_le (show u0 ≤ cs2.length - 1 by omega) with hz | hz
        · rw [← hz, htail2 u0 (Nat.le_refl _)]
          obtain ⟨_, hend, _, _⟩ := H.u0_facts hu
          rw [hend, show e2 = cs.length - 1 by omega]
        · rw [htail2 (cs2.length - 1) (by omega),
            show cs2.length - 1 = u0 + (cs2.length - 1 - u0) by omega,
            H.tail_eq (cs2.length - 1 - u0) (by omega) (by omega),
            show e2 + (cs2.length - 1 - u0) = cs.length - 1 by omega]
      · have he2 : e2 = cs.length := by omega
        have hm1 : cs2.length - 1 = u0 - 1 := by omega
        rw [hm1, hsel, hNEW]
        show (chk cs (u0 - 1)).ptr + (chk cs (u0 - 1)).size
          = (chk cs (cs.length - 1)).ptr + (chk cs (cs.length - 1)).size
        rcases Nat.eq_or_lt_of_le hule with hz | hz
        · rw [show cs.length - 1 = u0 - 1 by omega]
        · have := H.end_all he2 (by omega)
          omega
    · intro k hk hq1 hq2
      rcases Nat.lt_or_ge k (u0 - 1) with hz | hz
      · exact ⟨k, by rw [hlen]; omega, by rw [hpre k hz]; exact hq1,
          by rw [hpre k hz]; exact hq2, by rw [hpre k hz]⟩
      · rcases Nat.eq_or_lt_of_le hz with hz2 | hz2
        · exfalso
          rw [← hz2] at hq1 hq2
          omega
        · have hku : u0 ≤ k := by omega
          rcases Nat.lt_or_ge k e2 with hz3 | hz3
          · exact (H.mid_absurd hk hku hz3 hq1 hq2 hp).elim
          · have hq3 : c.ptr + c.size ≤ p := by
              rcases hp with h | h
              · exfalso
                have := H.ptr_gt hku hk
                have h4 : (chk cs e2).ptr ≤ (chk cs k).ptr := contig_ptr_mono hcs hz3 hk
                omega
              · exact h
            rcases Nat.eq_or_lt_of_le hz3 with hz4 | hz4
            · rw [← hz4] at hq1 hq2
              obtain ⟨h5, h6, h7, h8⟩ := H.e2_sim hq1 hq2 hq3
              refine ⟨u0, by rw [hlen]; omega, ?_, ?_, ?_⟩
              · rw [htail2 u0 (Nat.le_refl _)]
                exact h6
              · rw [htail2 u0 (Nat.le_refl _)]
                exact h7
              · rw [htail2 u0 (Nat.le_refl _), h8, hz4]
            · obtain ⟨h5, h6⟩ := H.tail_map hz4 hk
              refine ⟨u0 + (k - e2), by rw [hlen]; omega, ?_, ?_, ?_⟩
              · rw [htail2 _ (by omega), h6]
                exact hq1
              · rw [htail2 _ (by omega), h6]
                exact hq2
              · rw [htail2 _ (by omega), h6]

/-- When the old boundary chunk extends past the new chunk's end, the erase
window is empty. -/
theorem InsCtx.b2_e2 {cs cs2 : List ChunkDescriptor} {c : ChunkDescriptor} {u0 e2 : Nat}
    (H : InsCtx cs cs2 c u0 e2)
    (hb : c.ptr + c.size < (chk cs (u0 - 1)).ptr + (chk cs (u0 - 1)).size) : e2 = u0 := by
  have hge := H.e2_ge
  have hle := H.e2_le
  by_contra hcon
  have hu0n : u0 < cs.length := by omega
  have hbd := H.lower_bound hu0n
  have hmid := H.mid_le u0 (Nat.le_refl _) (by omega)
  omega

/-- In that situation the prologue leaves the vector unchanged. -/
theorem InsCtx.b2_all {cs cs2 : List ChunkDescriptor} {c : ChunkDescriptor} {u0 e2 : Nat}
    (H : InsCtx cs cs2 c u0 e2)
    (hb : c.ptr + c.size < (chk cs (u0 - 1)).ptr + (chk cs (u0 - 1)).size) :
    cs2.length = cs.length ∧ ∀ t, t < cs.length → chk cs2 t = chk cs t := by
  have he2 := H.b2_e2 hb
  have hle := H.u0_le
  have hm := H.len2
  have hmlen : cs2.length = cs.length := by omega
  refine ⟨hmlen, fun t ht => ?_⟩
  rcases Nat.lt_or_ge t u0 with h | h
  · exact H.pre_eq t h
  · rcases Nat.eq_or_lt_of_le h with h2 | h2
    · subst he2
      rcases H.at_u0 (by omega) with ⟨h3, h4⟩ | ⟨h3, h4⟩
      · exfalso
        have hbd := H.lower_bound (by omega)
        omega
      · rw [← h2, h4]
    · have ht2 := H.tail_eq (t - u0) (by omega) (by omega)
      rw [he2] at ht2
      rw [show u0 + (t - u0) = t by omega] at ht2
      exact ht2

/-- Branch spec: the new chunk splits the old boundary chunk in two, keeping
a non-empty head. -/
theorem insB2a_spec {cs cs2 : List ChunkDescriptor} {c : ChunkDescriptor} {u0 e2 : Nat}
    (H : InsCtx cs cs2 c u0 e2)
    (hb : c.ptr + c.size < (chk cs (u0 - 1)).ptr + (chk cs (u0 - 1)).size)
    (hnz : c.ptr - (chk cs (u0 - 1)).ptr ≠ 0) :
    InsOk cs c (insertAt (cs2.set (u0 - 1)
      ⟨(chk cs (u0 - 1)).ptr, c.ptr - (chk cs (u0 - 1)).ptr,
       (chk cs (u0 - 1)).state, (chk cs (u0 - 1)).permission, (chk cs (u0 - 1)).attributes⟩)
      u0 [c, ⟨c.ptr + c.size, (chk cs (u0 - 1)).ptr + (chk cs (u0 - 1)).size - (c.ptr + c.size),
       (chk cs (u0 - 1)).state, (chk cs (u0 - 1)).permission, (chk cs (u0 - 1)).attributes⟩]) := by
  have hn := H.n_pos
  have hcs := H.contig
  have hup := H.u0_pos
  have hule := H.u0_le
  have hszp := H.csize_pos
  have hlp : (chk cs (u0 - 1)).ptr ≤ c.ptr := H.below_le (u0 - 1) (by omega)
  have hlt : (chk cs (u0 - 1)).ptr < c.ptr := by omega
  obtain ⟨hmlen, hall⟩ := H.b2_all hb
  set TRIM : ChunkDescriptor := ⟨(chk cs (u0 - 1)).ptr, c.ptr - (chk cs (u0 - 1)).ptr,
    (chk cs (u0 - 1)).state, (chk cs (u0 - 1)).permission,
    (chk cs (u0 - 1)).attributes⟩ with hTRIM
  set LE : ChunkDescriptor := ⟨c.ptr + c.size,
    (chk cs (u0 - 1)).ptr + (chk cs (u0 - 1)).size - (c.ptr + c.size),
    (chk cs (u0 - 1)).state, (chk cs (u0 - 1)).permission,
    (chk cs (u0 - 1)).attributes⟩ with hLE
  have hum : u0 - 1 < cs2.length := by omega
  have hxlen : (cs2.set (u0 - 1) TRIM).length = cs.length := by
    rw [List.length_set]
    exact hmlen
  have hlen : (insertAt (cs2.set (u0 - 1) TRIM) u0 [c, LE]).length = cs.length + 2 := by
    rw [length_insertAt _ _ _ (by omega), hxlen]
    rfl
  have hpre : ∀ k, k < u0 - 1 →
      chk (insertAt (cs2.set (u0 - 1) TRIM) u0 [c, LE]) k = chk cs k := by
    intro k hk
    rw [chk_insertAt_lt _ (by omega) (by omega), chk_set_ne _ (by omega), hall k (by omega)]
  have hsel : chk (insertAt (cs2.set (u0 - 1) TRIM) u0 [c, LE]) (u0 - 1) = TRIM := by
    rw [chk_insertAt_lt _ (by omega) (by omega), chk_set_self _ hum]
  have hselc : chk (insertAt (cs2.set (u0 - 1) TRIM) u0 [c, LE]) u0 = c := by
    have := @chk_insertAt_mid (cs2.set (u0 - 1) TRIM) u0 0 [c, LE] (by omega) (by simp)
    simpa using this
  have hselE : chk (insertAt (cs2.set (u0 - 1) TRIM) u0 [c, LE]) (u0 + 1) = LE := by
    have := @chk_insertAt_mid (cs2.set (u0 - 1) TRIM) u0 1 [c, LE] (by omega) (by simp)
    simpa using this
  have htail2 : ∀ k, u0 ≤ k → k < cs.length →
      chk (insertAt (cs2.set (u0 - 1) TRIM) u0 [c, LE]) (k + 2) = chk cs k := by
    intro k hk hk2
    have := @chk_insertAt_ge (cs2.set (u0 - 1) TRIM) u0 k [c, LE] (by omega) hk
    rw [show k + 2 = k + [c, LE].length from rfl, this, chk_set_ne _ (by omega), hall k hk2]
  have hbound : u0 < cs.length →
      (chk cs (u0 - 1)).ptr + (chk cs (u0 - 1)).size = (chk cs u0).ptr :=
    fun h => H.lower_bound h
  have hcO : ContigAt (insertAt (cs2.set (u0 - 1) TRIM) u0 [c, LE]) := by
    intro k hk
    rw [hlen] at hk
    rcases Nat.lt_or_ge (k + 1) (u0 - 1) with hz | hz
    · rw [hpre k (by omega), hpre (k + 1) hz]
      exact hcs k (by omega)
    · rcases Nat.lt_or_ge k (u0 - 1) with hz2 | hz2
      · have he : k + 1 = u0 - 1 := by omega
        rw [hpre k (by omega), he, hsel, hTRIM]
        show (chk cs k).ptr + (chk cs k).size = (chk cs (u0 - 1)).ptr
        have h3 := hcs k (by omega)
        rw [he] at h3
        exact h3
      · rcases Nat.eq_or_lt_of_le hz2 with hz3 | hz3
        · have hk0 : k = u0 - 1 := hz3.symm
          subst hk0
          rw [hsel, show u0 - 1 + 1 = u0 by omega, hselc, hTRIM]
          show (chk cs (u0 - 1)).ptr + (c.ptr - (chk cs (u0 - 1)).ptr) = c.ptr
          omega
        · rcases Nat.eq_or_lt_of_le (show u0 ≤ k by omega) with hz4 | hz4
          · rw [← hz4, hselc, hselE, hLE]
          · rcases Nat.eq_or_lt_of_le (show u0 + 1 ≤ k by omega) with hz5 | hz5
            · rw [← hz5, hselE, show u0 + 1 + 1 = u0 + 2 by omega,
                htail2 u0 (Nat.le_refl _) (by omega), hLE]
              show c.ptr + c.size + ((chk cs (u0 - 1)).ptr + (chk cs (u0 - 1)).size
                - (c.ptr + c.size)) = (chk cs u0).ptr
              have := hbound (by omega)
              omega
            · rw [show k = k - 2 + 2 by omega, htail2 (k - 2) (by omega) (by omega),
                show k - 2 + 2 + 1 = k - 1 + 2 by omega,
                htail2 (k - 1) (by omega) (by omega),
                show k - 1 = k - 2 + 1 by omega]
              exact hcs (k - 2) (by omega)
  refine ⟨(contigAt_iff _).mpr hcO, ?_, ?_⟩
  · intro p hp1 hp2
    have ha1 : (chk (insertAt (cs2.set (u0 - 1) TRIM) u0 [c, LE]) u0).ptr ≤ p := by
      rw [hselc]
      exact hp1
    have ha2 : p < (chk (insertAt (cs2.set (u0 - 1) TRIM) u0 [c, LE]) u0).ptr
        + (chk (insertAt (cs2.set (u0 - 1) TRIM) u0 [c, LE]) u0).size := by
      rw [hselc]
      exact hp2
    have hg := chunkGet_at hcO (by rw [hlen]; omega) ha1 ha2
    rw [hselc] at hg
    exact ⟨c, hg, rfl, rfl, rfl⟩
  · intro p hp
    refine outside_sim p hn hcs (by rw [hlen]; omega) hcO ?_ ?_ ?_
    · rcases Nat.eq_zero_or_pos (u0 - 1) with h | h
      · rw [show (0 : Nat) = u0 - 1 by omega, hsel, hTRIM]
      · rw [hpre 0 h]
    · rw [hlen]
      rcases Nat.lt_or_ge u0 cs.length with hu | hu
      · rw [show cs.length + 2 - 1 = cs.length - 1 + 2 by omega,
          htail2 (cs.length - 1) (by omega) (by omega)]
      · have hm1 : cs.length + 2 - 1 = u0 + 1 := by omega
        rw [hm1, hselE, hLE]
        show c.ptr + c.size + ((chk cs (u0 - 1)).ptr + (chk cs (u0 - 1)).size
          - (c.ptr + c.size)) = (chk cs (cs.length - 1)).ptr + (chk cs (cs.length - 1)).size
        rw [show cs.length - 1 = u0 - 1 by omega]
        omega
    · intro k hk hq1 hq2
      rcases Nat.lt_or_ge k (u0 - 1) with hz | hz
      · exact ⟨k, by rw [hlen]; omega, by rw [hpre k hz]; exact hq1,
          by rw [hpre k hz]; exact hq2, by rw [hpre k hz]⟩
      · rcases Nat.eq_or_lt_of_le hz with hz2 | hz2
        · -- the old boundary chunk: answered by its head or tail fragment
          rw [← hz2] at hq1 hq2
          rcases hp with h | h
          · refine ⟨u0 - 1, by rw [hlen]; omega, ?_, ?_, ?_⟩
            · rw [hsel, hTRIM]
              show (chk cs (u0 - 1)).ptr ≤ p
              exact hq1
            · rw [hsel, hTRIM]
              show p < (chk cs (u0 - 1)).ptr + (c.ptr - (chk cs (u0 - 1)).ptr)
              omega
            · rw [hsel, hTRIM, ← hz2]
              rfl
          · refine ⟨u0 + 1, by rw [hlen]; omega, ?_, ?_, ?_⟩
            · rw [hselE, hLE]
              show c.ptr + c.size ≤ p
              exact h
            · rw [hselE, hLE]
              show p < c.ptr + c.size + ((chk cs (u0 - 1)).ptr
                + (chk cs (u0 - 1)).size - (c.ptr + c.size))
              omega
            · rw [hselE, hLE, ← hz2]
              rfl
        · have hku : u0 ≤ k := by omega
          refine ⟨k + 2, by rw [hlen]; omega, ?_, ?_, ?_⟩
          · rw [htail2 k hku hk]
            exact hq1
          · rw [htail2 k hku hk]
            exact hq2
          · rw [htail2 k hku hk]

/-- Branch spec: the new chunk starts exactly at the boundary chunk and the
compatible chunk before it absorbs the range; the boundary chunk is replaced
by the tail fragment. -/
theorem insB2bi_spec {cs cs2 : List ChunkDescriptor} {c : ChunkDescriptor} {u0 e2 : Nat}
    (H : InsCtx cs cs2 c u0 e2)
    (hb : c.ptr + c.size < (chk cs (u0 - 1)).ptr + (chk cs (u0 - 1)).size)
    (hz0 : c.ptr - (chk cs (u0 - 1)).ptr = 0)
    (hcompat : c.IsCompatible (chk cs (u0 - 1 - 1)) = true) :
    InsOk cs c (insertAt (eraseRange
      ((cs2.set (u0 - 1)
          ⟨(chk cs (u0 - 1)).ptr, 0, (chk cs (u0 - 1)).state,
           (chk cs (u0 - 1)).permission, (chk cs (u0 - 1)).attributes⟩).set (u0 - 1 - 1)
        ⟨(chk cs (u0 - 1 - 1)).ptr, c.ptr + c.size - (chk cs (u0 - 1 - 1)).ptr,
         (chk cs (u0 - 1 - 1)).state, (chk cs (u0 - 1 - 1)).permission,
         (chk cs (u0 - 1 - 1)).attributes⟩)
      (u0 - 1) (u0 - 1 + 1)) (u0 - 1)
      [⟨c.ptr + c.size, (chk cs (u0 - 1)).ptr + (chk cs (u0 - 1)).size - (c.ptr + c.size),
       (chk cs (u0 - 1)).state, (chk cs (u0 - 1)).permission,
       (chk cs (u0 - 1)).attributes⟩]) := by
  have hn := H.n_pos
  have hcs := H.contig
  have hup := H.u0_pos
  have hule := H.u0_le
  have hszp := H.csize_pos
  have h00 := H.start_lt
  have hlp : (chk cs (u0 - 1)).ptr ≤ c.ptr := H.below_le (u0 - 1) (by omega)
  have hpc : (chk cs (u0 - 1)).ptr = c.ptr := by omega
  obtain ⟨hmlen, hall⟩ := H.b2_all hb
  have hu2 : 2 ≤ u0 := by
    by_contra hcon
    have h1 : u0 - 1 = 0 := by omega
    rw [h1] at hpc
    omega
  have hbd2 : (chk cs (u0 - 1 - 1)).ptr + (chk cs (u0 - 1 - 1)).size = (chk cs (u0 - 1)).ptr := by
    have h2 := hcs (u0 - 1 - 1) (by omega)
    rwa [show u0 - 1 - 1 + 1 = u0 - 1 by omega] at h2
  simp only [ChunkDescriptor.IsCompatible, Bool.decide_and, Bool.and_eq_true,
    decide_eq_true_eq] at hcompat
  obtain ⟨hms, hmp, hma⟩ := hcompat
  set X2 : ChunkDescriptor := ⟨(chk cs (u0 - 1 - 1)).ptr,
    c.ptr + c.size - (chk cs (u0 - 1 - 1)).ptr,
    (chk cs (u0 - 1 - 1)).state, (chk cs (u0 - 1 - 1)).permission,
    (chk cs (u0 - 1 - 1)).attributes⟩ with hX2
  set LE : ChunkDescriptor := ⟨c.ptr + c.size,
    (chk cs (u0 - 1)).ptr + (chk cs (u0 - 1)).size - (c.ptr + c.size),
    (chk cs (u0 - 1)).state, (chk cs (u0 - 1)).permission,
    (chk cs (u0 - 1)).attributes⟩ with hLE
  set Z : ChunkDescriptor := ⟨(chk cs (u0 - 1)).ptr, 0, (chk cs (u0 - 1)).state,
    (chk cs (u0 - 1)).permission, (chk cs (u0 - 1)).attributes⟩ with hZ
  have hylen : ((cs2.set (u0 - 1) Z).set (u0 - 1 - 1) X2).length = cs.length := by
    rw [List.length_set, List.length_set]
    exact hmlen
  have helen : (eraseRange ((cs2.set (u0 - 1) Z).set (u0 - 1 - 1) X2)
      (u0 - 1) (u0 - 1 + 1)).length = cs.length - 1 := by
    rw [length_eraseRange _ _ _ (by omega) (by omega)]
    omega
  have hlen : (insertAt (eraseRange ((cs2.set (u0 - 1) Z).set (u0 - 1 - 1) X2)
      (u0 - 1) (u0 - 1 + 1)) (u0 - 1) [LE]).length = cs.length := by
    rw [length_insertAt _ _ _ (by omega), helen]
    have : [LE].length = 1 := rfl
    omega
  have hyk : ∀ k, k < u0 - 1 - 1 →
      chk ((cs2.set (u0 - 1) Z).set (u0 - 1 - 1) X2) k = chk cs k := by
    intro k hk
    rw [chk_set_ne _ (by omega), chk_set_ne _ (by omega), hall k (by omega)]
  have hyk2 : chk ((cs2.set (u0 - 1) Z).set (u0 - 1 - 1) X2) (u0 - 1 - 1) = X2 :=
    chk_set_self _ (by rw [List.length_set]; omega)
  have hykge : ∀ k, u0 ≤ k → k < cs.length →
      chk ((cs2.set (u0 - 1) Z).set (u0 - 1 - 1) X2) k = chk cs k := by
    intro k hk hk2
    rw [chk_set_ne _ (by omega), chk_set_ne _ (by omega), hall k hk2]
  have hpre : ∀ k, k < u0 - 1 →
      chk (insertAt (eraseRange ((cs2.set (u0 - 1) Z).set (u0 - 1 - 1) X2)
        (u0 - 1) (u0 - 1 + 1)) (u0 - 1) [LE]) k
      = chk ((cs2.set (u0 - 1) Z).set (u0 - 1 - 1) X2) k := by
    intro k hk
    rw [chk_insertAt_lt _ (by omega) hk, chk_eraseRange_lt (by omega) hk]
  have hsel : chk (insertAt (eraseRange ((cs2.set (u0 - 1) Z).set (u0 - 1 - 1) X2)
      (u0 - 1) (u0 - 1 + 1)) (u0 - 1) [LE]) (u0 - 1) = LE := by
    have := @chk_insertAt_mid (eraseRange ((cs2.set (u0 - 1) Z).set (u0 - 1 - 1) X2)
      (u0 - 1) (u0 - 1 + 1)) (u0 - 1) 0 [LE] (by omega) (by simp)
    simpa using this
  have htail2 : ∀ k, u0 ≤ k → k < cs.length →
      chk (insertAt (eraseRange ((cs2.set (u0 - 1) Z).set (u0 - 1 - 1) X2)
        (u0 - 1) (u0 - 1 + 1)) (u0 - 1) [LE]) k = chk cs k := by
    intro k hk hk2
    have hel : u0 - 1 ≤ (eraseRange ((cs2.set (u0 - 1) Z).set (u0 - 1 - 1) X2)
        (u0 - 1) (u0 - 1 + 1)).length := by
      rw [helen]
      omega
    have h1 := @chk_insertAt_ge (eraseRange ((cs2.set (u0 - 1) Z).set (u0 - 1 - 1) X2)
      (u0 - 1) (u0 - 1 + 1)) (u0 - 1) (k - 1) [LE] hel (by omega)
    rw [show k - 1 + [LE].length = k by simp; omega] at h1
    rw [h1, chk_eraseRange_ge (by omega) (by omega),
      show u0 - 1 + 1 + (k - 1 - (u0 - 1)) = k by omega, hykge k hk hk2]
  have hbound : u0 < cs.length →
      (chk cs (u0 - 1)).ptr + (chk cs (u0 - 1)).size = (chk cs u0).ptr :=
    fun h => H.lower_bound h
  have hcO : ContigAt (insertAt (eraseRange ((cs2.set (u0 - 1) Z).set (u0 - 1 - 1) X2)
      (u0 - 1) (u0 - 1 + 1)) (u0 - 1) [LE]) := by
    intro k hk
    rw [hlen] at hk
    rcases Nat.lt_or_ge (k + 1) (u0 - 1 - 1) with hz | hz
    · rw [hpre k (by omega), hpre (k + 1) (by omega), hyk k (by omega), hyk (k + 1) hz]
      exact hcs k (by omega)
    · rcases Nat.lt_or_ge k (u0 - 1 - 1) with hz2 | hz2
      · have he : k + 1 = u0 - 1 - 1 := by omega
        rw [hpre k (by omega), hpre (k + 1) (by omega), hyk k (by omega), he, hyk2, hX2]
        show (chk cs k).ptr + (chk cs k).size = (chk cs (u0 - 1 - 1)).ptr
        have h3 := hcs k (by omega)
        rw [he] at h3
        exact h3
      · rcases Nat.eq_or_lt_of_le hz2 with hz3 | hz3
        · have hk0 : k = u0 - 1 - 1 := hz3.symm
          subst hk0
          rw [hpre _ (by omega), hyk2, hX2, show u0 - 1 - 1 + 1 = u0 - 1 by omega,
            hsel, hLE]
          show (chk cs (u0 - 1 - 1)).ptr + (c.ptr + c.size - (chk cs (u0 - 1 - 1)).ptr)
            = c.ptr + c.size
          omega
        · rcases Nat.eq_or_lt_of_le (show u0 - 1 ≤ k by omega) with hz4 | hz4
          · have hnth : chk (insertAt (eraseRange ((cs2.set (u0 - 1) Z).set (u0 - 1 - 1) X2)
                (u0 - 1) (u0 - 1 + 1)) (u0 - 1) [LE]) (u0 - 1 + 1) = chk cs u0 := by
              nth_rewrite 2 [show u0 - 1 + 1 = u0 by omega]
              exact htail2 u0 (Nat.le_refl _) (by omega)
            rw [← hz4, hsel, hnth, hLE]
            show c.ptr + c.size + ((chk cs (u0 - 1)).ptr + (chk cs (u0 - 1)).size
              - (c.ptr + c.size)) = (chk cs u0).ptr
            have := hbound (by omega)
            omega
          · rw [htail2 k (by omega) (by omega), htail2 (k + 1) (by omega) (by omega)]
            exact hcs k (by omega)
  refine ⟨(contigAt_iff _).mpr hcO, ?_, ?_⟩
  · intro p hp1 hp2
    have hin1 : (chk cs (u0 - 1 - 1)).ptr ≤ p := by omega
    have ha1 : (chk (insertAt (eraseRange ((cs2.set (u0 - 1) Z).set (u0 - 1 - 1) X2)
        (u0 - 1) (u0 - 1 + 1)) (u0 - 1) [LE]) (u0 - 1 - 1)).ptr ≤ p := by
      rw [hpre _ (by omega), hyk2, hX2]
      exact hin1
    have ha2 : p < (chk (insertAt (eraseRange ((cs2.set (u0 - 1) Z).set (u0 - 1 - 1) X2)
        (u0 - 1) (u0 - 1 + 1)) (u0 - 1) [LE]) (u0 - 1 - 1)).ptr
        + (chk (insertAt (eraseRange ((cs2.set (u0 - 1) Z).set (u0 - 1 - 1) X2)
        (u0 - 1) (u0 - 1 + 1)) (u0 - 1) [LE]) (u0 - 1 - 1)).size := by
      rw [hpre _ (by omega), hyk2, hX2]
      show p < (chk cs (u0 - 1 - 1)).ptr + (c.ptr + c.size - (chk cs (u0 - 1 - 1)).ptr)
      omega
    have hg := chunkGet_at hcO (by rw [hlen]; omega) ha1 ha2
    rw [hpre _ (by omega), hyk2] at hg
    refine ⟨X2, hg, ?_, ?_, ?_⟩
    · rw [hX2]
      exact hms.symm
    · rw [hX2]
      exact hmp.symm
    · rw [hX2]
      exact hma.symm
  · intro p hp
    refine outside_sim p hn hcs (by rw [hlen]; omega) hcO ?_ ?_ ?_
    · rcases Nat.eq_zero_or_pos (u0 - 1 - 1) with h | h
      · rw [show (0 : Nat) = u0 - 1 - 1 by omega, hpre _ (by omega), hyk2, hX2]
      · rw [hpre 0 (by omega), hyk 0 h]
    · rw [hlen]
      rcases Nat.lt_or_ge u0 cs.length with hu | hu
      · rw [htail2 (cs.length - 1) (by omega) (by omega)]
      · have hm1 : cs.length - 1 = u0 - 1 := by omega
        rw [hm1, hsel, hLE]
        show c.ptr + c.size + ((chk cs (u0 - 1)).ptr + (chk cs (u0 - 1)).size
          - (c.ptr + c.size)) = (chk cs (u0 - 1)).ptr + (chk cs (u0 - 1)).size
        omega
    · intro k hk hq1 hq2
      rcases Nat.lt_or_ge k (u0 - 1 - 1) with hz | hz
      · exact ⟨k, by rw [hlen]; omega,
          by rw [hpre k (by omega), hyk k hz]; exact hq1,
          by rw [hpre k (by omega), hyk k hz]; exact hq2,
          by rw [hpre k (by omega), hyk k hz]⟩
      · rcases Nat.eq_or_lt_of_le hz with hz2 | hz2
        · -- old chunk before the boundary: absorbed head fragment
          rw [← hz2] at hq1 hq2
          refine ⟨u0 - 1 - 1, by rw [hlen]; omega, ?_, ?_, ?_⟩
          · rw [hpre _ (by omega), hyk2, hX2]
            exact hq1
          · rw [hpre _ (by omega), hyk2, hX2]
            show p < (chk cs (u0 - 1 - 1)).ptr + (c.ptr + c.size - (chk cs (u0 - 1 - 1)).ptr)
            omega
          · rw [hpre _ (by omega), hyk2, hX2, ← hz2]
            rfl
        · rcases Nat.eq_or_lt_of_le (show u0 - 1 ≤ k by omega) with hz3 | hz3
          · -- the old boundary chunk: outside points go to the tail fragment
            rw [← hz3] at hq1 hq2
            have hq3 : c.ptr + c.size ≤ p := by
              rcases hp with h | h
              · omega
              · exact h
            refine ⟨u0 - 1, by rw [hlen]; omega, ?_, ?_, ?_⟩
            · rw [hsel, hLE]
              exact hq3
            · rw [hsel, hLE]
              show p < c.ptr + c.size + ((chk cs (u0 - 1)).ptr
                + (chk cs (u0 - 1)).size - (c.ptr + c.size))
              omega
            · rw [hsel, hLE, ← hz3]
              rfl
          · have hku : u0 ≤ k := by omega
            exact ⟨k, by rw [hlen]; omega,
              by rw [htail2 k hku hk]; exact hq1,
              by rw [htail2 k hku hk]; exact hq2,
              by rw [htail2 k hku hk]⟩

/-- Branch spec: the new chunk starts exactly at the boundary chunk with an
incompatible left neighbor; the boundary chunk is overwritten by the new
chunk and the tail fragment is inserted after it. -/
theorem insB2bii_spec {cs cs2 : List ChunkDescriptor} {c : ChunkDescriptor} {u0 e2 : Nat}
    (H : InsCtx cs cs2 c u0 e2)
    (hb : c.ptr + c.size < (chk cs (u0 - 1)).ptr + (chk cs (u0 - 1)).size)
    (hz0 : c.ptr - (chk cs (u0 - 1)).ptr = 0) :
    InsOk cs c (insertAt ((cs2.set (u0 - 1)
        ⟨(chk cs (u0 - 1)).ptr, 0, (chk cs (u0 - 1)).state,
         (chk cs (u0 - 1)).permission, (chk cs (u0 - 1)).attributes⟩).set (u0 - 1) c)
      u0 [⟨c.ptr + c.size,
        (chk cs (u0 - 1)).ptr + (chk cs (u0 - 1)).size - (c.ptr + c.size),
        (chk cs (u0 - 1)).state, (chk cs (u0 - 1)).permission,
        (chk cs (u0 - 1)).attributes⟩]) := by
  have hn := H.n_pos
  have hcs := H.contig
  have hup := H.u0_pos
  have hule := H.u0_le
  have hszp := H.csize_pos
  have h00 := H.start_lt
  have hlp : (chk cs (u0 - 1)).ptr ≤ c.ptr := H.below_le (u0 - 1) (by omega)
  have hpc : (chk cs (u0 - 1)).ptr = c.ptr := by omega
  obtain ⟨hmlen, hall⟩ := H.b2_all hb
  have hu2 : 2 ≤ u0 := by
    by_contra hcon
    have h1 : u0 - 1 = 0 := by omega
    rw [h1] at hpc
    omega
  set Z : ChunkDescriptor := ⟨(chk cs (u0 - 1)).ptr, 0, (chk cs (u0 - 1)).state,
    (chk cs (u0 - 1)).permission, (chk cs (u0 - 1)).attributes⟩ with hZ
  set LE : ChunkDescriptor := ⟨c.ptr + c.size,
    (chk cs (u0 - 1)).ptr + (chk cs (u0 - 1)).size - (c.ptr + c.size),
    (chk cs (u0 - 1)).state, (chk cs (u0 - 1)).permission,
    (chk cs (u0 - 1)).attributes⟩ with hLE
  have hylen : ((cs2.set (u0 - 1) Z).set (u0 - 1) c).length = cs.length := by
    rw [List.length_set, List.length_set]
    exact hmlen
  have hlen : (insertAt ((cs2.set (u0 - 1) Z).set (u0 - 1) c) u0 [LE]).length
      = cs.length + 1 := by
    rw [length_insertAt _ _ _ (by omega), hylen]
    rfl
  have hpre : ∀ k, k < u0 - 1 →
      chk (insertAt ((cs2.set (u0 - 1) Z).set (u0 - 1) c) u0 [LE]) k = chk cs k := by
    intro k hk
    rw [chk_insertAt_lt _ (by omega) (by omega), chk_set_ne _ (by omega),
      chk_set_ne _ (by omega), hall k (by omega)]
  have hselc : chk (insertAt ((cs2.set (u0 - 1) Z).set (u0 - 1) c) u0 [LE]) (u0 - 1) = c := by
    rw [chk_insertAt_lt _ (by omega) (by omega),
      chk_set_self _ (by rw [List.length_set]; omega)]
  have hselE : chk (insertAt ((cs2.set (u0 - 1) Z).set (u0 - 1) c) u0 [LE]) u0 = LE := by
    have := @chk_insertAt_mid ((cs2.set (u0 - 1) Z).set (u0 - 1) c) u0 0 [LE]
      (by omega) (by simp)
    simpa using this
  have htail2 : ∀ k, u0 ≤ k → k < cs.length →
      chk (insertAt ((cs2.set (u0 - 1) Z).set (u0 - 1) c) u0 [LE]) (k + 1) = chk cs k := by
    intro k hk hk2
    have h1 := @chk_insertAt_ge ((cs2.set (u0 - 1) Z).set (u0 - 1) c) u0 k [LE]
      (by omega) hk
    rw [show k + 1 = k + [LE].length from rfl, h1, chk_set_ne _ (by omega),
      chk_set_ne _ (by omega), hall k hk2]
  have hbound : u0 < cs.length →
      (chk cs (u0 - 1)).ptr + (chk cs (u0 - 1)).size = (chk cs u0).ptr :=
    fun h => H.lower_bound h
  have hcO : ContigAt (insertAt ((cs2.set (u0 - 1) Z).set (u0 - 1) c) u0 [LE]) := by
    intro k hk
    rw [hlen] at hk
    rcases Nat.lt_or_ge (k + 1) (u0 - 1) with hz | hz
    · rw [hpre k (by omega), hpre (k + 1) hz]
      exact hcs k (by omega)
    · rcases Nat.lt_or_ge k (u0 - 1) with hz2 | hz2
      · have he : k + 1 = u0 - 1 := by omega
        rw [hpre k (by omega), he, hselc]
        have h3 := hcs k (by omega)
        rw [he] at h3
        omega
      · rcases Nat.eq_or_lt_of_le hz2 with hz3 | hz3
        · have hk0 : k = u0 - 1 := hz3.symm
          subst hk0
          rw [hselc, show u0 - 1 + 1 = u0 by omega, hselE, hLE]
        · rcases Nat.eq_or_lt_of_le (show u0 ≤ k by omega) with hz4 | hz4
          · rw [← hz4, hselE, show u0 + 1 = u0 + 1 from rfl,
              htail2 u0 (Nat.le_refl _) (by omega), hLE]
            show c.ptr + c.size + ((chk cs (u0 - 1)).ptr + (chk cs (u0 - 1)).size
              - (c.ptr + c.size)) = (chk cs u0).ptr
            have := hbound (by omega)
            omega
          · rw [show k = k - 1 + 1 by omega, htail2 (k - 1) (by omega) (by omega),
              show k - 1 + 1 + 1 = k + 1 by omega, htail2 k (by omega) (by omega),
              show k = k - 1 + 1 by omega]
            exact hcs (k - 1) (by omega)
  refine ⟨(contigAt_iff _).mpr hcO, ?_, ?_⟩
  · intro p hp1 hp2
    have ha1 : (chk (insertAt ((cs2.set (u0 - 1) Z).set (u0 - 1) c) u0 [LE]) (u0 - 1)).ptr
        ≤ p := by
      rw [hselc]
      exact hp1
    have ha2 : p < (chk (insertAt ((cs2.set (u0 - 1) Z).set (u0 - 1) c) u0 [LE]) (u0 - 1)).ptr
        + (chk (insertAt ((cs2.set (u0 - 1) Z).set (u0 - 1) c) u0 [LE]) (u0 - 1)).size := by
      rw [hselc]
      exact hp2
    have hg := chunkGet_at hcO (by rw [hlen]; omega) ha1 ha2
    rw [hselc] at hg
    exact ⟨c, hg, rfl, rfl, rfl⟩
  · intro p hp
    refine outside_sim p hn hcs (by rw [hlen]; omega) hcO ?_ ?_ ?_
    · rw [hpre 0 (by omega)]
    · rw [hlen]
      rcases Nat.lt_or_ge u0 cs.length with hu | hu
      · rw [show cs.length + 1 - 1 = cs.length - 1 + 1 by omega,
          htail2 (cs.length - 1) (by omega) (by omega)]
      · have hm1 : cs.length + 1 - 1 = u0 := by omega
        rw [hm1, hselE, hLE]
        show c.ptr + c.size + ((chk cs (u0 - 1)).ptr + (chk cs (u0 - 1)).size
          - (c.ptr + c.size)) = (chk cs (cs.length - 1)).ptr + (chk cs (cs.length - 1)).size
        rw [show cs.length - 1 = u0 - 1 by omega]
        omega
    · intro k hk hq1 hq2
      rcases Nat.lt_or_ge k (u0 - 1) with hz | hz
      · exact ⟨k, by rw [hlen]; omega, by rw [hpre k hz]; exact hq1,
          by rw [hpre k hz]; exact hq2, by rw [hpre k hz]⟩
      · rcases Nat.eq_or_lt_of_le hz with hz2 | hz2
        · rw [← hz2] at hq1 hq2
          have hq3 : c.ptr + c.size ≤ p := by
            rcases hp with h | h
            · omega
            · exact h
          refine ⟨u0, by rw [hlen]; omega, ?_, ?_, ?_⟩
          · rw [hselE, hLE]
            exact hq3
          · rw [hselE, hLE]
            show p < c.ptr + c.size + ((chk cs (u0 - 1)).ptr
              + (chk cs (u0 - 1)).size - (c.ptr + c.size))
            omega
          · rw [hselE, hLE, ← hz2]
            rfl
        · have hku : u0 ≤ k := by omega
          exact ⟨k + 1, by rw [hlen]; omega,
            by rw [htail2 k hku hk]; exact hq1,
            by rw [htail2 k hku hk]; exact hq2,
            by rw [htail2 k hku hk]⟩

/-- Branch spec: the boundary chunk is compatible and reaches the new chunk,
so it is extended to the new chunk's end. -/
theorem insB3_spec {cs cs2 : List ChunkDescriptor} {c : ChunkDescriptor} {u0 e2 : Nat}
    (H : InsCtx cs cs2 c u0 e2)
    (hcompat : c.IsCompatible (chk cs (u0 - 1)) = true)
    (hnb2 : (chk cs (u0 - 1)).ptr + (chk cs (u0 - 1)).size ≤ c.ptr + c.size) :
    InsOk cs c (cs2.set (u0 - 1)
      ⟨(chk cs (u0 - 1)).ptr, c.ptr + c.size - (chk cs (u0 - 1)).ptr,
       (chk cs (u0 - 1)).state, (chk cs (u0 - 1)).permission,
       (chk cs (u0 - 1)).attributes⟩) := by
  have hn := H.n_pos
  have hcs := H.contig
  have hup := H.u0_pos
  have hule := H.u0_le
  have he2ge := H.e2_ge
  have he2le := H.e2_le
  have hm := H.len2
  have hszp := H.csize_pos
  have hlp : (chk cs (u0 - 1)).ptr ≤ c.ptr := H.below_le (u0 - 1) (by omega)
  have hcov := H.lower_cov
  have hum : u0 - 1 < cs2.length := by omega
  simp only [ChunkDescriptor.IsCompatible, Bool.decide_and, Bool.and_eq_true,
    decide_eq_true_eq] at hcompat
  obtain ⟨hms, hmp, hma⟩ := hcompat
  set NEW : ChunkDescriptor := ⟨(chk cs (u0 - 1)).ptr,
    c.ptr + c.size - (chk cs (u0 - 1)).ptr,
    (chk cs (u0 - 1)).state, (chk cs (u0 - 1)).permission,
    (chk cs (u0 - 1)).attributes⟩ with hNEW
  have hlen : (cs2.set (u0 - 1) NEW).length = cs2.length := by rw [List.length_set]
  have hsel : chk (cs2.set (u0 - 1) NEW) (u0 - 1) = NEW := chk_set_self _ hum
  have hpre : ∀ k, k < u0 - 1 → chk (cs2.set (u0 - 1) NEW) k = chk cs k := by
    intro k hk
    rw [chk_set_ne _ (by omega), H.pre_eq k (by omega)]
  have htail2 : ∀ k, u0 ≤ k → chk (cs2.set (u0 - 1) NEW) k = chk cs2 k := by
    intro k hk
    rw [chk_set_ne _ (by omega)]
  have hnext : u0 < cs2.length → (chk cs2 u0).ptr = c.ptr + c.size := by
    intro hu
    refine H.next_ptr hu ?_
    have hb := H.lower_bound (by omega)
    omega
  have hcO : ContigAt (cs2.set (u0 - 1) NEW) := by
    intro k hk
    rw [hlen] at hk
    rcases Nat.lt_or_ge (k + 1) (u0 - 1) with hz | hz
    · rw [hpre k (by omega), hpre (k + 1) hz]
      exact hcs k (by omega)
    · rcases Nat.lt_or_ge k (u0 - 1) with hz2 | hz2
      · have he : k + 1 = u0 - 1 := by omega
        rw [hpre k (by omega), he, hsel, hNEW]
        show (chk cs k).ptr + (chk cs k).size = (chk cs (u0 - 1)).ptr
        have h3 := hcs k (by omega)
        rw [he] at h3
        exact h3
      · rcases Nat.eq_or_lt_of_le hz2 with hz3 | hz3
        · have hk0 : k = u0 - 1 := hz3.symm
          subst hk0
          rw [hsel, hNEW, show u0 - 1 + 1 = u0 by omega, htail2 u0 (Nat.le_refl _),
            hnext (by omega)]
          show (chk cs (u0 - 1)).ptr + (c.ptr + c.size - (chk cs (u0 - 1)).ptr)
            = c.ptr + c.size
          omega
        · rw [htail2 k (by omega), htail2 (k + 1) (by omega)]
          exact H.tail_contig (by omega) (by omega)
  refine ⟨(contigAt_iff _).mpr hcO, ?_, ?_⟩
  · intro p hp1 hp2
    have ha1 : (chk (cs2.set (u0 - 1) NEW) (u0 - 1)).ptr ≤ p := by
      rw [hsel, hNEW]
      show (chk cs (u0 - 1)).ptr ≤ p
      omega
    have ha2 : p < (chk (cs2.set (u0 - 1) NEW) (u0 - 1)).ptr
        + (chk (cs2.set (u0 - 1) NEW) (u0 - 1)).size := by
      rw [hsel, hNEW]
      show p < (chk cs (u0 - 1)).ptr + (c.ptr + c.size - (chk cs (u0 - 1)).ptr)
      omega
    have hg := chunkGet_at hcO (by rw [hlen]; exact hum) ha1 ha2
    rw [hsel] at hg
    refine ⟨NEW, hg, ?_, ?_, ?_⟩
    · rw [hNEW]
      exact hms.symm
    · rw [hNEW]
      exact hmp.symm
    · rw [hNEW]
      exact hma.symm
  · intro p hp
    refine outside_sim p hn hcs (by rw [hlen]; omega) hcO ?_ ?_ ?_
    · rcases Nat.eq_zero_or_pos (u0 - 1) with h | h
      · rw [show (0 : Nat) = u0 - 1 by omega, hsel, hNEW]
      · rw [hpre 0 h]
    · rw [hlen]
      rcases Nat.lt_or_ge u0 cs2.length with hu | hu
      · have he2 := H.e2_lt hu
        rcases Nat.eq_or_lt_of_le (show u0 ≤ cs2.length - 1 by omega) with hz | hz
        · rw [← hz, htail2 u0 (Nat.le_refl _)]
          obtain ⟨_, hend, _, _⟩ := H.u0_facts hu
          rw [hend, show e2 = cs.length - 1 by omega]
        · rw [htail2 (cs2.length - 1) (by omega),
            show cs2.length - 1 = u0 + (cs2.length - 1 - u0) by omega,
            H.tail_eq (cs2.length - 1 - u0) (by omega) (by omega),
            show e2 + (cs2.length - 1 - u0) = cs.length - 1 by omega]
      · have he2 : e2 = cs.length := by omega
        have hm1 : cs2.length - 1 = u0 - 1 := by omega
        rw [hm1, hsel, hNEW]
        show (chk cs (u0 - 1)).ptr + (c.ptr + c.size - (chk cs (u0 - 1)).ptr)
          = (chk cs (cs.length - 1)).ptr + (chk cs (cs.length - 1)).size
        rcases Nat.eq_or_lt_of_le hule with hz | hz
        · have hl1 : cs.length - 1 = u0 - 1 := by omega
          have hc2 := H.cover_end
          rw [hl1] at hc2
          rw [hl1]
          omega
        · have := H.end_all he2 (by omega)
          omega
    · intro k hk hq1 hq2
      rcases Nat.lt_or_ge k (u0 - 1) with hz | hz
      · exact ⟨k, by rw [hlen]; omega, by rw [hpre k hz]; exact hq1,
          by rw [hpre k hz]; exact hq2, by rw [hpre k hz]⟩
      · rcases Nat.eq_or_lt_of_le hz with hz2 | hz2
        · rw [← hz2] at hq1 hq2
          have hq3 : p < c.ptr := by
            rcases hp with h | h
            · exact h
            · omega
          refine ⟨u0 - 1, by rw [hlen]; omega, ?_, ?_, ?_⟩
          · rw [hsel, hNEW]
            exact hq1
          · rw [hsel, hNEW]
            show p < (chk cs (u0 - 1)).ptr + (c.ptr + c.size - (chk cs (u0 - 1)).ptr)
            omega
          · rw [hsel, hNEW, ← hz2]
            rfl
        · have hku : u0 ≤ k := by omega
          rcases Nat.lt_or_ge k e2 with hz3 | hz3
          · exact (H.mid_absurd hk hku hz3 hq1 hq2 hp).elim
          · have hq3 : c.ptr + c.size ≤ p := by
              rcases hp with h | h
              · exfalso
                have := H.ptr_gt hku hk
                have h4 : (chk cs e2).ptr ≤ (chk cs k).ptr := contig_ptr_mono hcs hz3 hk
                omega
              · exact h
            rcases Nat.eq_or_lt_of_le hz3 with hz4 | hz4
            · rw [← hz4] at hq1 hq2
              obtain ⟨h5, h6, h7, h8⟩ := H.e2_sim hq1 hq2 hq3
              refine ⟨u0, by rw [hlen]; omega, ?_, ?_, ?_⟩
              · rw [htail2 u0 (Nat.le_refl _)]
                exact h6
              · rw [htail2 u0 (Nat.le_refl _)]
                exact h7
              · rw [htail2 u0 (Nat.le_refl _), h8, hz4]
            · obtain ⟨h5, h6⟩ := H.tail_map hz4 hk
              refine ⟨u0 + (k - e2), by rw [hlen]; omega, ?_, ?_, ?_⟩
              · rw [htail2 _ (by omega), h6]
                exact hq1
              · rw [htail2 _ (by omega), h6]
                exact hq2
              · rw [htail2 _ (by omega), h6]

/-- Branch spec: the boundary chunk is trimmed and the new chunk merges with
the compatible surviving right neighbor. -/
theorem insB4a_spec {cs cs2 : List ChunkDescriptor} {c : ChunkDescriptor} {u0 e2 : Nat}
    (H : InsCtx cs cs2 c u0 e2)
    (hnb2 : (chk cs (u0 - 1)).ptr + (chk cs (u0 - 1)).size ≤ c.ptr + c.size)
    (hu0m : u0 < cs2.length)
    (hcompat : c.IsCompatible (chk cs2 u0) = true)
    (htouch4 : (chk cs2 u0).ptr ≤ c.ptr + c.size) :
    InsOk cs c ((cs2.set (u0 - 1)
        ⟨(chk cs (u0 - 1)).ptr, c.ptr - (chk cs (u0 - 1)).ptr,
         (chk cs (u0 - 1)).state, (chk cs (u0 - 1)).permission,
         (chk cs (u0 - 1)).attributes⟩).set u0
      ⟨c.ptr, c.size + (chk cs2 u0).size,
       (chk cs2 u0).state, (chk cs2 u0).permission, (chk cs2 u0).attributes⟩) := by
  have hn := H.n_pos
  have hcs := H.contig
  have hup := H.u0_pos
  have hule := H.u0_le
  have he2ge := H.e2_ge
  have he2le := H.e2_le
  have hm := H.len2
  have hszp := H.csize_pos
  have hlp : (chk cs (u0 - 1)).ptr ≤ c.ptr := H.below_le (u0 - 1) (by omega)
  have hcov := H.lower_cov
  have he2 := H.e2_lt hu0m
  obtain ⟨humeta, huend, huge, huge2⟩ := H.u0_facts hu0m
  have hptr2 : (chk cs2 u0).ptr = c.ptr + c.size := by omega
  simp only [ChunkDescriptor.IsCompatible, Bool.decide_and, Bool.and_eq_true,
    decide_eq_true_eq] at hcompat
  obtain ⟨hms, hmp, hma⟩ := hcompat
  set TRIM : ChunkDescriptor := ⟨(chk cs (u0 - 1)).ptr, c.ptr - (chk cs (u0 - 1)).ptr,
    (chk cs (u0 - 1)).state, (chk cs (u0 - 1)).permission,
    (chk cs (u0 - 1)).attributes⟩ with hTRIM
  set MG : ChunkDescriptor := ⟨c.ptr, c.size + (chk cs2 u0).size,
    (chk cs2 u0).state, (chk cs2 u0).permission, (chk cs2 u0).attributes⟩ with hMG
  have hlen : ((cs2.set (u0 - 1) TRIM).set u0 MG).length = cs2.length := by
    rw [List.length_set, List.length_set]
  have hpre : ∀ k, k < u0 - 1 → chk ((cs2.set (u0 - 1) TRIM).set u0 MG) k = chk cs k := by
    intro k hk
    rw [chk_set_ne _ (by omega), chk_set_ne _ (by omega), H.pre_eq k (by omega)]
  have hsel : chk ((cs2.set (u0 - 1) TRIM).set u0 MG) (u0 - 1) = TRIM := by
    rw [chk_set_ne _ (by omega), chk_set_self _ (by omega)]
  have hselM : chk ((cs2.set (u0 - 1) TRIM).set u0 MG) u0 = MG :=
    chk_set_self _ (by rw [List.length_set]; omega)
  have htail2 : ∀ k, u0 + 1 ≤ k → chk ((cs2.set (u0 - 1) TRIM).set u0 MG) k = chk cs2 k := by
    intro k hk
    rw [chk_set_ne _ (by omega), chk_set_ne _ (by omega)]
  have hMGend : MG.ptr + MG.size = (chk cs e2).ptr + (chk cs e2).size := by
    rw [hMG]
    show c.ptr + (c.size + (chk cs2 u0).size) = _
    omega
  have hcO : ContigAt ((cs2.set (u0 - 1) TRIM).set u0 MG) := by
    intro k hk
    rw [hlen] at hk
    rcases Nat.lt_or_ge (k + 1) (u0 - 1) with hz | hz
    · rw [hpre k (by omega), hpre (k + 1) hz]
      exact hcs k (by omega)
    · rcases Nat.lt_or_ge k (u0 - 1) with hz2 | hz2
      · have he : k + 1 = u0 - 1 := by omega
        rw [hpre k (by omega), he, hsel, hTRIM]
        show (chk cs k).ptr + (chk cs k).size = (chk cs (u0 - 1)).ptr
        have h3 := hcs k (by omega)
        rw [he] at h3
        exact h3
      · rcases Nat.eq_or_lt_of_le hz2 with hz3 | hz3
        · have hk0 : k = u0 - 1 := hz3.symm
          subst hk0
          rw [hsel, hTRIM, show u0 - 1 + 1 = u0 by omega, hselM, hMG]
          show (chk cs (u0 - 1)).ptr + (c.ptr - (chk cs (u0 - 1)).ptr) = c.ptr
          omega
        · rcases Nat.eq_or_lt_of_le (show u0 ≤ k by omega) with hz4 | hz4
          · rw [← hz4, hselM, htail2 (u0 + 1) (Nat.le_refl _),
              H.tail_eq 1 (by omega) (by omega)]
            have hb := hcs e2 (by omega)
            rw [hMG]
            show c.ptr + (c.size + (chk cs2 u0).size) = (chk cs (e2 + 1)).ptr
            omega
          · rw [htail2 k (by omega), htail2 (k + 1) (by omega)]
            exact H.tail_contig (by omega) (by omega)
  refine ⟨(contigAt_iff _).mpr hcO, ?_, ?_⟩
  · intro p hp1 hp2
    have ha1 : (chk ((cs2.set (u0 - 1) TRIM).set u0 MG) u0).ptr ≤ p := by
      rw [hselM, hMG]
      show c.ptr ≤ p
      exact hp1
    have ha2 : p < (chk ((cs2.set (u0 - 1) TRIM).set u0 MG) u0).ptr
        + (chk ((cs2.set (u0 - 1) TRIM).set u0 MG) u0).size := by
      rw [hselM, hMG]
      show p < c.ptr + (c.size + (chk cs2 u0).size)
      omega
    have hg := chunkGet_at hcO (by rw [hlen]; omega) ha1 ha2
    rw [hselM] at hg
    refine ⟨MG, hg, ?_, ?_, ?_⟩
    · rw [hMG]
      exact hms.symm
    · rw [hMG]
      exact hmp.symm
    · rw [hMG]
      exact hma.symm
  · intro p hp
    refine outside_sim p hn hcs (by rw [hlen]; omega) hcO ?_ ?_ ?_
    · rcases Nat.eq_zero_or_pos (u0 - 1) with h | h
      · rw [show (0 : Nat) = u0 - 1 by omega, hsel, hTRIM]
      · rw [hpre 0 h]
    · rw [hlen]
      rcases Nat.eq_or_lt_of_le (show u0 ≤ cs2.length - 1 by omega) with hz | hz
      · rw [← hz, hselM, hMGend, show e2 = cs.length - 1 by omega]
      · rw [htail2 (cs2.length - 1) (by omega),
          show cs2.length - 1 = u0 + (cs2.length - 1 - u0) by omega,
          H.tail_eq (cs2.length - 1 - u0) (by omega) (by omega),
          show e2 + (cs2.length - 1 - u0) = cs.length - 1 by omega]
    · intro k hk hq1 hq2
      rcases Nat.lt_or_ge k (u0 - 1) with hz | hz
      · exact ⟨k, by rw [hlen]; omega, by rw [hpre k hz]; exact hq1,
          by rw [hpre k hz]; exact hq2, by rw [hpre k hz]⟩
      · rcases Nat.eq_or_lt_of_le hz with hz2 | hz2
        · rw [← hz2] at hq1 hq2
          have hq3 : p < c.ptr := by
            rcases hp with h | h
            · exact h
            · omega
          refine ⟨u0 - 1, by rw [hlen]; omega, ?_, ?_, ?_⟩
          · rw [hsel, hTRIM]
            exact hq1
          · rw [hsel, hTRIM]
            show p < (chk cs (u0 - 1)).ptr + (c.ptr - (chk cs (u0 - 1)).ptr)
            omega
          · rw [hsel, hTRIM, ← hz2]
            rfl
        · have hku : u0 ≤ k := by omega
          rcases Nat.lt_or_ge k e2 with hz3 | hz3
          · exact (H.mid_absurd hk hku hz3 hq1 hq2 hp).elim
          · have hq3 : c.ptr + c.size ≤ p := by
              rcases hp with h | h
              · exfalso
                have := H.ptr_gt hku hk
                have h4 : (chk cs e2).ptr ≤ (chk cs k).ptr := contig_ptr_mono hcs hz3 hk
                omega
              · exact h
            rcases Nat.eq_or_lt_of_le hz3 with hz4 | hz4
            · rw [← hz4] at hq1 hq2
              refine ⟨u0, by rw [hlen]; omega, ?_, ?_, ?_⟩
              · rw [hselM, hMG]
                show c.ptr ≤ p
                omega
              · rw [hselM]
                have h9 := hMGend
                omega
              · rw [hselM, ← hz4]
                exact humeta
            · obtain ⟨h5, h6⟩ := H.tail_map hz4 hk
              refine ⟨u0 + (k - e2), by rw [hlen]; omega, ?_, ?_, ?_⟩
              · rw [htail2 _ (by omega), h6]
                exact hq1
              · rw [htail2 _ (by omega), h6]
                exact hq2
              · rw [htail2 _ (by omega), h6]

/-- Branch spec: the boundary chunk is trimmed and the new chunk inserted on
its own. -/
theorem insB4b_spec {cs cs2 : List ChunkDescriptor} {c : ChunkDescriptor} {u0 e2 : Nat}
    (H : InsCtx cs cs2 c u0 e2)
    (hnb2 : (chk cs (u0 - 1)).ptr + (chk cs (u0 - 1)).size ≤ c.ptr + c.size) :
    InsOk cs c (insertAt (cs2.set (u0 - 1)
        ⟨(chk cs (u0 - 1)).ptr, c.ptr - (chk cs (u0 - 1)).ptr,
         (chk cs (u0 - 1)).state, (chk cs (u0 - 1)).permission,
         (chk cs (u0 - 1)).attributes⟩) u0 [c]) := by
  have hn := H.n_pos
  have hcs := H.contig
  have hup := H.u0_pos
  have hule := H.u0_le
  have he2ge := H.e2_ge
  have he2le := H.e2_le
  have hm := H.len2
  have hszp := H.csize_pos
  have hlp : (chk cs (u0 - 1)).ptr ≤ c.ptr := H.below_le (u0 - 1) (by omega)
  have hcov := H.lower_cov
  have hum : u0 - 1 < cs2.length := by omega
  set TRIM : ChunkDescriptor := ⟨(chk cs (u0 - 1)).ptr, c.ptr - (chk cs (u0 - 1)).ptr,
    (chk cs (u0 - 1)).state, (chk cs (u0 - 1)).permission,
    (chk cs (u0 - 1)).attributes⟩ with hTRIM
  have hxlen : (cs2.set (u0 - 1) TRIM).length = cs2.length := by rw [List.length_set]
  have hlen : (insertAt (cs2.set (u0 - 1) TRIM) u0 [c]).length = cs2.length + 1 := by
    rw [length_insertAt _ _ _ (by omega), hxlen]
    rfl
  have hpre : ∀ k, k < u0 - 1 →
      chk (insertAt (cs2.set (u0 - 1) TRIM) u0 [c]) k = chk cs k := by
    intro k hk
    rw [chk_insertAt_lt _ (by omega) (by omega), chk_set_ne _ (by omega),
      H.pre_eq k (by omega)]
  have hsel : chk (insertAt (cs2.set (u0 - 1) TRIM) u0 [c]) (u0 - 1) = TRIM := by
    rw [chk_insertAt_lt _ (by omega) (by omega), chk_set_self _ hum]
  have hselc : chk (insertAt (cs2.set (u0 - 1) TRIM) u0 [c]) u0 = c := by
    have := @chk_insertAt_mid (cs2.set (u0 - 1) TRIM) u0 0 [c] (by omega) (by simp)
    simpa using this
  have htail2 : ∀ k, u0 ≤ k →
      chk (insertAt (cs2.set (u0 - 1) TRIM) u0 [c]) (k + 1) = chk cs2 k := by
    intro k hk
    have h1 := @chk_insertAt_ge (cs2.set (u0 - 1) TRIM) u0 k [c] (by omega) hk
    rw [show k + 1 = k + [c].length from rfl, h1, chk_set_ne _ (by omega)]
  have hnext : u0 < cs2.length → (chk cs2 u0).ptr = c.ptr + c.size := by
    intro hu
    refine H.next_ptr hu ?_
    have hb := H.lower_bound (by omega)
    omega
  have hcO : ContigAt (insertAt (cs2.set (u0 - 1) TRIM) u0 [c]) := by
    intro k hk
    rw [hlen] at hk
    rcases Nat.lt_or_ge (k + 1) (u0 - 1) with hz | hz
    · rw [hpre k (by omega), hpre (k + 1) hz]
      exact hcs k (by omega)
    · rcases Nat.lt_or_ge k (u0 - 1) with hz2 | hz2
      · have he : k + 1 = u0 - 1 := by omega
        rw [hpre k (by omega), he, hsel, hTRIM]
        show (chk cs k).ptr + (chk cs k).size = (chk cs (u0 - 1)).ptr
        have h3 := hcs k (by omega)
        rw [he] at h3
        exact h3
      · rcases Nat.eq_or_lt_of_le hz2 with hz3 | hz3
        · have hk0 : k = u0 - 1 := hz3.symm
          subst hk0
          rw [hsel, hTRIM, show u0 - 1 + 1 = u0 by omega, hselc]
          show (chk cs (u0 - 1)).ptr + (c.ptr - (chk cs (u0 - 1)).ptr) = c.ptr
          omega
        · rcases Nat.eq_or_lt_of_le (show u0 ≤ k by omega) with hz4 | hz4
          · rw [← hz4, hselc, show u0 + 1 = u0 + 1 from rfl,
              htail2 u0 (Nat.le_refl _), hnext (by omega)]
          · rw [show k = k - 1 + 1 by omega, htail2 (k - 1) (by omega),
              show k - 1 + 1 + 1 = k + 1 by omega, htail2 k (by omega),
              show k = k - 1 + 1 by omega]
            exact H.tail_contig (by omega) (by omega)
  refine ⟨(contigAt_iff _).mpr hcO, ?_, ?_⟩
  · intro p hp1 hp2
    have ha1 : (chk (insertAt (cs2.set (u0 - 1) TRIM) u0 [c]) u0).ptr ≤ p := by
      rw [hselc]
      exact hp1
    have ha2 : p < (chk (insertAt (cs2.set (u0 - 1) TRIM) u0 [c]) u0).ptr
        + (chk (insertAt (cs2.set (u0 - 1) TRIM) u0 [c]) u0).size := by
      rw [hselc]
      exact hp2
    have hg := chunkGet_at hcO (by rw [hlen]; omega) ha1 ha2
    rw [hselc] at hg
    exact ⟨c, hg, rfl, rfl, rfl⟩
  · intro p hp
    refine outside_sim p hn hcs (by rw [hlen]; omega) hcO ?_ ?_ ?_
    · rcases Nat.eq_zero_or_pos (u0 - 1) with h | h
      · rw [show (0 : Nat) = u0 - 1 by omega, hsel, hTRIM]
      · rw [hpre 0 h]
    · rw [hlen]
      rcases Nat.lt_or_ge u0 cs2.length with hu | hu
      · have he2 := H.e2_lt hu
        rcases Nat.eq_or_lt_of_le (show u0 ≤ cs2.length - 1 by omega) with hz | hz
        · rw [show cs2.length + 1 - 1 = u0 + 1 by omega, htail2 u0 (Nat.le_refl _)]
          obtain ⟨_, hend, _, _⟩ := H.u0_facts hu
          rw [hend, show e2 = cs.length - 1 by omega]
        · rw [show cs2.length + 1 - 1 = cs2.length - 1 + 1 by omega,
            htail2 (cs2.length - 1) (by omega),
            show cs2.length - 1 = u0 + (cs2.length - 1 - u0) by omega,
            H.tail_eq (cs2.length - 1 - u0) (by omega) (by omega),
            show e2 + (cs2.length - 1 - u0) = cs.length - 1 by omega]
      · have he2 : e2 = cs.length := by omega
        have hm1 : cs2.length + 1 - 1 = u0 := by omega
        rw [hm1, hselc]
        show c.ptr + c.size = (chk cs (cs.length - 1)).ptr + (chk cs (cs.length - 1)).size
        rcases Nat.eq_or_lt_of_le hule with hz | hz
        · have hl1 : cs.length - 1 = u0 - 1 := by omega
          have hc2 := H.cover_end
          rw [hl1] at hc2
          rw [hl1]
          omega
        · have := H.end_all he2 (by omega)
          omega
    · intro k hk hq1 hq2
      rcases Nat.lt_or_ge k (u0 - 1) with hz | hz
      · exact ⟨k, by rw [hlen]; omega, by rw [hpre k hz]; exact hq1,
          by rw [hpre k hz]; exact hq2, by rw [hpre k hz]⟩
      · rcases Nat.eq_or_lt_of_le hz with hz2 | hz2
        · rw [← hz2] at hq1 hq2
          have hq3 : p < c.ptr := by
            rcases hp with h | h
            · exact h
            · omega
          refine ⟨u0 - 1, by rw [hlen]; omega, ?_, ?_, ?_⟩
          · rw [hsel, hTRIM]
            exact hq1
          · rw [hsel, hTRIM]
            show p < (chk cs (u0 - 1)).ptr + (c.ptr - (chk cs (u0 - 1)).ptr)
            omega
          · rw [hsel, hTRIM, ← hz2]
            rfl
        · have hku : u0 ≤ k := by omega
          rcases Nat.lt_or_ge k e2 with hz3 | hz3
          · exact (H.mid_absurd hk hku hz3 hq1 hq2 hp).elim
          · have hq3 : c.ptr + c.size ≤ p := by
              rcases hp with h | h
              · exfalso
                have := H.ptr_gt hku hk
                have h4 : (chk cs e2).ptr ≤ (chk cs k).ptr := contig_ptr_mono hcs hz3 hk
                omega
              · exact h
            rcases Nat.eq_or_lt_of_le hz3 with hz4 | hz4
            · rw [← hz4] at hq1 hq2
              obtain ⟨h5, h6, h7, h8⟩ := H.e2_sim hq1 hq2 hq3
              refine ⟨u0 + 1, by rw [hlen]; omega, ?_, ?_, ?_⟩
              · rw [htail2 u0 (Nat.le_refl _)]
                exact h6
              · rw [htail2 u0 (Nat.le_refl _)]
                exact h7
              · rw [htail2 u0 (Nat.le_refl _), h8, hz4]
            · obtain ⟨h5, h6⟩ := H.tail_map hz4 hk
              refine ⟨u0 + (k - e2) + 1, by rw [hlen]; omega, ?_, ?_, ?_⟩
              · rw [htail2 _ (by omega), h6]
                exact hq1
              · rw [htail2 _ (by omega), h6]
                exact hq2
              · rw [htail2 _ (by omega), h6]

/-- The tail of InsertChunk after the erase/trim prologue, with the
boundary-chunk lookups already reduced to the original vector: `cs2` is the
vector produced by the prologue.  Mirrors kernel/memory.cpp lines 209-243. -/
def insertTail (cs cs2 : List ChunkDescriptor) (c : ChunkDescriptor) (u0 : Nat) :
    Except KError (List ChunkDescriptor) :=
  let lower := chk cs (u0 - 1)
  let ce := c.ptr + c.size
  if lower.ptr = c.ptr ∧ lower.size = c.size then
    .ok (cs2.set (u0 - 1) { lower with
      state := c.state, permission := c.permission, attributes := c.attributes })
  else if ce < lower.ptr + lower.size then
    let lowerExtension : ChunkDescriptor :=
      { lower with ptr := ce, size := lower.ptr + lower.size - ce }
    let newLowerSize := c.ptr - lower.ptr
    if newLowerSize ≠ 0 then
      .ok (insertAt (cs2.set (u0 - 1) { lower with size := newLowerSize }) u0
        [c, lowerExtension])
    else
      let cs3 := cs2.set (u0 - 1) { lower with size := 0 }
      let lower2 := chk cs3 (u0 - 1 - 1)
      if c.IsCompatible lower2 ∧ c.ptr ≤ lower2.ptr + lower2.size then
        .ok (insertAt (eraseRange (cs3.set (u0 - 1 - 1)
          { lower2 with size := ce - lower2.ptr }) (u0 - 1) (u0 - 1 + 1)) (u0 - 1)
          [lowerExtension])
      else
        .ok (insertAt (cs3.set (u0 - 1) c) u0 [lowerExtension])
  else if c.IsCompatible lower ∧ c.ptr ≤ lower.ptr + lower.size then
    .ok (cs2.set (u0 - 1) { lower with size := ce - lower.ptr })
  else
    let cs3 := if c.ptr < lower.ptr + lower.size then
      cs2.set (u0 - 1) { lower with size := c.ptr - lower.ptr } else cs2
    if u0 ≠ cs3.length ∧ c.IsCompatible (chk cs3 u0) ∧ (chk cs3 u0).ptr ≤ ce then
      .ok (cs3.set u0 { chk cs3 u0 with ptr := c.ptr, size := c.size + (chk cs3 u0).size })
    else
      .ok (insertAt cs3 u0 [c])

/-- Dispatcher: every outcome of the InsertChunk tail satisfies the amended
guarantees, given the prologue facts. -/
theorem insertChunkBranches {cs cs2 : List ChunkDescriptor} {c : ChunkDescriptor}
    {u0 e2 : Nat} {out : List ChunkDescriptor}
    (H : InsCtx cs cs2 c u0 e2)
    (hok : insertTail cs cs2 c u0 = .ok out) : InsOk cs c out := by
  have h0 := H.start_lt
  have hup := H.u0_pos
  have hlp : (chk cs (u0 - 1)).ptr ≤ c.ptr := H.below_le _ (by omega)
  simp only [insertTail] at hok
  split at hok
  · rename_i hb1
    injection hok with hok
    subst hok
    exact insB1_spec H hb1.1 hb1.2
  · rename_i hnb1
    split at hok
    · rename_i hb2
      split at hok
      · rename_i hnz
        injection hok with hok
        subst hok
        exact insB2a_spec H hb2 hnz
      · rename_i hz0
        rw [not_not] at hz0
        have hu2 : 2 ≤ u0 := by
          by_contra hcon
          have h1 : u0 - 1 = 0 := by omega
          rw [h1] at hlp hz0
          omega
        have hL2 : chk (cs2.set (u0 - 1)
            ⟨(chk cs (u0 - 1)).ptr, 0, (chk cs (u0 - 1)).state,
             (chk cs (u0 - 1)).permission, (chk cs (u0 - 1)).attributes⟩) (u0 - 1 - 1)
            = chk cs (u0 - 1 - 1) := by
          rw [chk_set_ne _ (by omega)]
          exact H.pre_eq _ (by omega)
        rw [hL2] at hok
        split at hok
        · rename_i hcpt
          injection hok with hok
          subst hok
          exact insB2bi_spec H hb2 hz0 hcpt.1
        · injection hok with hok
          subst hok
          exact insB2bii_spec H hb2 hz0
    · rename_i hnb2
      split at hok
      · rename_i hb3
        injection hok with hok
        subst hok
        exact insB3_spec H hb3.1 (by omega)
      · rename_i hnb3
        split at hok
        · rename_i htr
          have hL4 : chk (cs2.set (u0 - 1)
              ⟨(chk cs (u0 - 1)).ptr, c.ptr - (chk cs (u0 - 1)).ptr,
               (chk cs (u0 - 1)).state, (chk cs (u0 - 1)).permission,
               (chk cs (u0 - 1)).attributes⟩) u0 = chk cs2 u0 :=
            chk_set_ne _ (by omega)
          rw [hL4] at hok
          split at hok
          · rename_i hb4
            injection hok with hok
            subst hok
            have hu0m : u0 < cs2.length := by
              have h5 := hb4.1
              rw [List.length_set] at h5
              have h6 := H.len2
              omega
            exact insB4a_spec H (by omega) hu0m hb4.2.1 hb4.2.2
          · injection hok with hok
            subst hok
            exact insB4b_spec H (by omega)
        · rename_i htr
          exact absurd H.lower_cov htr

/-- C9 (amended).  For a covering chunk list (contiguous: each descriptor
ends where the next starts, which gives sortedness and non-overlap) and a
chunk strictly inside the covered space, InsertChunk succeeds, keeps the list
contiguous, makes Get answer with the new chunk's state/permission/attributes
on every pointer in its range, and leaves Get's metadata unchanged outside
it.  The original claim's "adjacent compatible chunks merged" part is false:
`C9_counterexample` exhibits three adjacent compatible chunks after an
exact-match insert. -/
theorem C9_amended {cs : List ChunkDescriptor} {c : ChunkDescriptor}
    {out : List ChunkDescriptor}
    (hn : 0 < cs.length) (hcontig : ChunksContiguous cs)
    (h0 : (chk cs 0).ptr < c.ptr) (hsz : 0 < c.size)
    (hce : c.ptr + c.size ≤ (chk cs (cs.length - 1)).ptr + (chk cs (cs.length - 1)).size)
    (hok : insertChunk cs c = .ok out) :
    ChunksContiguous out
    ∧ (∀ p, c.ptr ≤ p → p < c.ptr + c.size →
        ∃ d, chunkGet out p = some d ∧ d.state = c.state
          ∧ d.permission = c.permission ∧ d.attributes = c.attributes)
    ∧ (∀ p, p < c.ptr ∨ c.ptr + c.size ≤ p →
        (chunkGet out p).map chunkMeta = (chunkGet cs p).map chunkMeta) := by
  have hc := (contigAt_iff cs).mp hcontig
  obtain ⟨hu0pos, hu0m1, hlow1, hlow2⟩ :=
    chunk_start_cover (q := c.ptr) hc hn (by omega) (by omega)
  set u0 := cs.findIdx (fun d => decide (c.ptr < d.ptr)) with hu0def
  have hu0le : u0 ≤ cs.length := List.findIdx_le_length _
  have hulow : ∀ k, k < u0 → (chk cs k).ptr ≤ c.ptr := by
    intro k hk
    have hk2 : k < List.findIdx (fun d => decide (c.ptr < d.ptr)) cs := by omega
    have h3 := List.not_of_lt_findIdx hk2
    simp only [decide_eq_false_iff_not, Nat.not_lt] at h3
    rwa [chk_eq_getElem, List.getElem?_eq_getElem (by omega)]
  have hu0gt : u0 < cs.length → c.ptr < (chk cs u0).ptr := by
    intro h
    have h3 : u0 < cs.length := h
    have h4 := List.findIdx_getElem (w := h3)
    simp only [decide_eq_true_eq] at h4
    rwa [chk_eq_getElem, List.getElem?_eq_getElem h3]
  set e2 := u0 + (cs.drop u0).findIdx (fun d => decide (c.ptr + c.size < d.ptr + d.size))
    with he2def
  have he2ge : u0 ≤ e2 := by omega
  have he2le : e2 ≤ cs.length := by
    have h3 : (cs.drop u0).findIdx (fun d => decide (c.ptr + c.size < d.ptr + d.size))
        ≤ (cs.drop u0).length := List.findIdx_le_length _
    rw [List.length_drop] at h3
    omega
  have hmid : ∀ j, u0 ≤ j → j < e2 →
      (chk cs j).ptr + (chk cs j).size ≤ c.ptr + c.size := by
    intro j hj1 hj2
    have hk2 : j - u0 < List.findIdx
        (fun d => decide (c.ptr + c.size < d.ptr + d.size)) (cs.drop u0) := by omega
    have h3 := List.not_of_lt_findIdx hk2
    simp only [decide_eq_false_iff_not, Nat.not_lt] at h3
    have h4 : chk (cs.drop u0) (j - u0) = chk cs j := by
      rw [chk_drop]
      congr 1
      omega
    rw [← h4, chk_eq_getElem, List.getElem?_eq_getElem (by rw [List.length_drop]; omega)]
    exact h3
  have hhit : e2 < cs.length →
      c.ptr + c.size < (chk cs e2).ptr + (chk cs e2).size := by
    intro h
    set idx := (cs.drop u0).findIdx (fun d => decide (c.ptr + c.size < d.ptr + d.size))
      with hidx
    have hin : idx < (cs.drop u0).length := by
      rw [List.length_drop]
      omega
    have h4 := List.findIdx_getElem (w := hin)
    simp only [decide_eq_true_eq] at h4
    have h6 : c.ptr + c.size < (chk (cs.drop u0) idx).ptr + (chk (cs.drop u0) idx).size := by
      rw [chk_eq_getElem, List.getElem?_eq_getElem hin]
      exact h4
    rw [chk_drop cs u0 idx] at h6
    rw [show e2 = u0 + idx from he2def]
    exact h6
  simp only [insertChunk, ← hu0def, ← he2def] at hok
  split at hok
  · simp at hok
  · have hA1 : chk (eraseRange cs u0 e2) u0 = chk cs e2 := by
      rw [chk_eraseRange_ge (by omega) (Nat.le_refl _)]
      congr 1
      omega
    have helen : (eraseRange cs u0 e2).length = cs.length - (e2 - u0) :=
      length_eraseRange _ _ _ (by omega) (by omega)
    split at hok
    · -- the surviving right neighbor is trimmed to start at the new end
      rename_i hA
      rw [hA1] at hA hok
      obtain ⟨hAne, hAlt⟩ := hA
      have he2lt : e2 < cs.length := by omega
      have hL : chk ((eraseRange cs u0 e2).set u0
          ⟨c.ptr + c.size, (chk cs e2).ptr + (chk cs e2).size - (c.ptr + c.size),
           (chk cs e2).state, (chk cs e2).permission, (chk cs e2).attributes⟩) (u0 - 1)
          = chk cs (u0 - 1) := by
        rw [chk_set_ne _ (by omega), chk_eraseRange_lt (by omega) (by omega)]
      rw [hL] at hok
      have H : InsCtx cs ((eraseRange cs u0 e2).set u0
          ⟨c.ptr + c.size, (chk cs e2).ptr + (chk cs e2).size - (c.ptr + c.size),
           (chk cs e2).state, (chk cs e2).permission, (chk cs e2).attributes⟩) c u0 e2 := by
        refine ⟨hn, hc, h0, hsz, hce, hu0pos, hu0le, hulow, hu0gt, hlow2,
          he2ge, he2le, hmid, hhit, ?_, ?_, ?_, ?_⟩
        · rw [List.length_set, helen]
          omega
        · intro k hk
          rw [chk_set_ne _ (by omega), chk_eraseRange_lt (by omega) hk]
        · intro t ht hlt
          rw [List.length_set, helen] at hlt
          rw [chk_set_ne _ (by omega), chk_eraseRange_ge (by omega) (by omega)]
          congr 1
          omega
        · intro h
          refine Or.inl ⟨hAlt, ?_⟩
          rw [chk_set_self _ (by rw [helen]; omega)]
      exact insertChunkBranches H hok
    · -- no trim: the vector after the erase is used directly
      rename_i hA
      have hL : chk (eraseRange cs u0 e2) (u0 - 1) = chk cs (u0 - 1) := by
        rw [chk_eraseRange_lt (by omega) (by omega)]
      rw [hL] at hok
      have H : InsCtx cs (eraseRange cs u0 e2) c u0 e2 := by
        refine ⟨hn, hc, h0, hsz, hce, hu0pos, hu0le, hulow, hu0gt, hlow2,
          he2ge, he2le, hmid, hhit, ?_, ?_, ?_, ?_⟩
        · rw [helen]
          omega
        · intro k hk
          rw [chk_eraseRange_lt (by omega) hk]
        · intro t ht hlt
          rw [helen] at hlt
          rw [chk_eraseRange_ge (by omega) (by omega)]
          congr 1
          omega
        · intro h
          rw [helen] at h
          have h2 : ¬((chk cs e2).ptr < c.ptr + c.size) := by
            intro h3
            rw [hA1] at hA
            exact hA ⟨by omega, h3⟩
          refine Or.inr ⟨by omega, hA1⟩
      exact insertChunkBranches H hok

/-- Witness for `C9_amended`: inserting `[4, 12)` into a two-chunk covering
list splits the first chunk and leaves the metadata map overridden exactly on
the new range. -/
theorem C9_amended_witness :
    ChunksContiguous [(⟨0, 4, 1, 2, 3⟩ : ChunkDescriptor), ⟨4, 8, 7, 8, 9⟩,
      ⟨12, 4, 1, 2, 3⟩, ⟨16, 16, 4, 5, 6⟩]
    ∧ (∀ p, (⟨4, 8, 7, 8, 9⟩ : ChunkDescriptor).ptr ≤ p →
        p < (⟨4, 8, 7, 8, 9⟩ : ChunkDescriptor).ptr + (⟨4, 8, 7, 8, 9⟩ : ChunkDescriptor).size →
        ∃ d, chunkGet [(⟨0, 4, 1, 2, 3⟩ : ChunkDescriptor), ⟨4, 8, 7, 8, 9⟩,
            ⟨12, 4, 1, 2, 3⟩, ⟨16, 16, 4, 5, 6⟩] p = some d
          ∧ d.state = (⟨4, 8, 7, 8, 9⟩ : ChunkDescriptor).state
          ∧ d.permission = (⟨4, 8, 7, 8, 9⟩ : ChunkDescriptor).permission
          ∧ d.attributes = (⟨4, 8, 7, 8, 9⟩ : ChunkDescriptor).attributes)
    ∧ (∀ p, p < (⟨4, 8, 7, 8, 9⟩ : ChunkDescriptor).ptr
        ∨ (⟨4, 8, 7, 8, 9⟩ : ChunkDescriptor).ptr + (⟨4, 8, 7, 8, 9⟩ : ChunkDescriptor).size ≤ p →
        (chunkGet [(⟨0, 4, 1, 2, 3⟩ : ChunkDescriptor), ⟨4, 8, 7, 8, 9⟩,
            ⟨12, 4, 1, 2, 3⟩, ⟨16, 16, 4, 5, 6⟩] p).map chunkMeta
          = (chunkGet [(⟨0, 16, 1, 2, 3⟩ : ChunkDescriptor), ⟨16, 16, 4, 5, 6⟩] p).map chunkMeta) :=
  @C9_amended [⟨0, 16, 1, 2, 3⟩, ⟨16, 16, 4, 5, 6⟩] ⟨4, 8, 7, 8, 9⟩
    [⟨0, 4, 1, 2, 3⟩, ⟨4, 8, 7, 8, 9⟩, ⟨12, 4, 1, 2, 3⟩, ⟨16, 16, 4, 5, 6⟩]
    (by decide) (by decide) (by decide) (by decide) (by decide) (by rfl)
